import Mathlib

/-!
Shallow embedding of the `level-generator` repository (src/dungeon.rs, src/tiles.rs)
together with proofs about its generation engine.

Modelling conventions:
* Rust `u32` values are modelled as `Nat` reduced modulo `2^32` where the source
  performs `u32` arithmetic, and cast to `Int` through `toI32` (two's complement
  reinterpretation) where the source writes `as i32`.
* Rust `i32` arithmetic is modelled on `Int`; `/` on `i32` is `Int.tdiv`
  (truncation towards zero), matching Rust semantics.
* `StdRng` is modelled as a deterministic stream of naturals: a `Rng` carries a
  value function and a cursor.  `generate` receives a source `src : Nat → Nat → Nat`
  mapping a seed to a stream (modelling `StdRng::seed_from_u64`) and an `entropy`
  value (modelling the `rand::rng()` draw used when no seed is given).
* Rust panics (`random_range` on an empty range) are modelled with `Option`:
  `none` is an aborted generation.
* `f32` (`obstacle_density`) is modelled by exact rationals; the literal `0.1`
  becomes `1/10` and the `as i32` cast becomes truncation towards zero.
-/

namespace LevelGen

/-! ### Machine integers -/

/-- Reduce a natural modulo `2^32`, the carrier of Rust `u32`. -/
def u32 (n : Nat) : Nat := n % 4294967296

/-- Reinterpret a `u32` value as an `i32` (two's complement), as Rust `as i32`. -/
def toI32 (n : Nat) : Int :=
  if n % 4294967296 < 2147483648 then ((n % 4294967296 : Nat) : Int)
  else ((n % 4294967296 : Nat) : Int) - 4294967296

/-! ### Deterministic RNG model -/

/-- A deterministic stream of naturals with a cursor, standing in for `StdRng`. -/
structure Rng where
  vals : Nat → Nat
  idx : Nat

/-- Draw the next raw value from the stream. -/
def Rng.next (r : Rng) : Nat × Rng := (r.vals r.idx, { r with idx := r.idx + 1 })

/-- `rng.random_range(lo..=hi)` on `i32`: panics (`none`) when the range is empty. -/
def randRangeI (lo hi : Int) (r : Rng) : Option (Int × Rng) :=
  if lo ≤ hi then
    let (v, r') := r.next
    some (lo + (v % (hi - lo + 1).toNat : Nat), r')
  else none

/-- `rng.random_range(lo..hi)` on `i32` (half-open): panics when `lo ≥ hi`. -/
def randRangeIExcl (lo hi : Int) (r : Rng) : Option (Int × Rng) :=
  if lo < hi then
    let (v, r') := r.next
    some (lo + (v % (hi - lo).toNat : Nat), r')
  else none

/-- `rng.random_range(0..n)` on `usize`: panics when `n = 0`. -/
def randBelow (n : Nat) (r : Rng) : Option (Nat × Rng) :=
  if n = 0 then none
  else
    let (v, r') := r.next
    some (v % n, r')

/-- `rng.random_bool(0.5)`. -/
def randBool (r : Rng) : Bool × Rng :=
  let (v, r') := r.next
  (v % 2 = 1, r')

/-! ### src/tiles.rs -/

/-- Core tile types for marble level generation (`TileType` in src/tiles.rs). -/
inductive TileType where
  | Empty
  | Straight
  | Curve90
  | TJunction
  | YJunction
  | CrossJunction
  | Slope
  | OpenPlatform
  | Obstacle
  | Merge
  | OneWayGate
  | LoopDeLoop
  | HalfPipe
  | LaunchPad
  | Bridge
  | Tunnel
deriving DecidableEq, Repr

/-- `TileType::is_passable`. -/
def TileType.is_passable : TileType → Bool
  | .Empty => false
  | .Obstacle => false
  | _ => true

/-- `TileType::has_default_walls`. -/
def TileType.has_default_walls : TileType → Bool
  | .Straight | .Curve90 | .TJunction | .YJunction | .CrossJunction
  | .Slope | .Merge | .LoopDeLoop => true
  | _ => false

/-- Connection directions (`Direction` in src/tiles.rs). -/
inductive Direction where
  | North
  | East
  | South
  | West
deriving DecidableEq, Repr

/-- The numeric discriminant of a `Direction` (`North = 0`, …, `West = 3`). -/
def Direction.val : Direction → Nat
  | .North => 0
  | .East => 1
  | .South => 2
  | .West => 3

/-- `Direction::opposite`. -/
def Direction.opposite : Direction → Direction
  | .North => .South
  | .East => .West
  | .South => .North
  | .West => .East

/-- `Direction::rotate`: rotate clockwise by `steps` quarter turns. -/
def Direction.rotate (d : Direction) (steps : Nat) : Direction :=
  match (d.val + steps) % 4 with
  | 0 => .North
  | 1 => .East
  | 2 => .South
  | _ => .West

/-- A marble tile (`MarbleTile` in src/tiles.rs). -/
structure MarbleTile where
  tile_type : TileType
  elevation : Int
  rotation : Nat
  has_walls : Bool
  metadata : String
deriving DecidableEq, Repr

/-- `MarbleTile::empty`. -/
def MarbleTile.empty : MarbleTile :=
  { tile_type := .Empty, elevation := 0, rotation := 0, has_walls := false, metadata := "" }

/-- `MarbleTile::with_params` (rotation is stored mod 4). -/
def MarbleTile.with_params (t : TileType) (elevation : Int) (rotation : Nat)
    (has_walls : Bool) : MarbleTile :=
  { tile_type := t, elevation := elevation, rotation := rotation % 4,
    has_walls := has_walls, metadata := "" }

/-- The un-rotated connection template of a tile type (`MarbleTile::connections`). -/
def TileType.base_connections : TileType → List Direction
  | .Empty | .Obstacle => []
  | .Straight => [.North, .South]
  | .Curve90 => [.North, .East]
  | .TJunction => [.North, .East, .South]
  | .YJunction => [.North, .East, .South]
  | .CrossJunction => [.North, .East, .South, .West]
  | .Slope => [.North, .South]
  | .OpenPlatform => [.North, .East, .South, .West]
  | .Merge => [.North, .East, .West]
  | .OneWayGate => [.North, .South]
  | .LoopDeLoop => [.North, .South]
  | .HalfPipe => [.North, .South]
  | .LaunchPad => [.North]
  | .Bridge => [.North, .South]
  | .Tunnel => [.North, .South]

/-- `MarbleTile::connections`. -/
def MarbleTile.connections (m : MarbleTile) : List Direction :=
  (m.tile_type.base_connections).map (fun d => d.rotate m.rotation)

/-- `MarbleTile::connects`. -/
def MarbleTile.connects (m : MarbleTile) (d : Direction) : Bool :=
  m.connections.contains d

/-- `MarbleTile::compatible_with`. -/
def MarbleTile.compatible_with (m other : MarbleTile) (direction : Direction) : Bool :=
  if !m.connects direction then false
  else if !other.connects direction.opposite then false
  else
    match m.tile_type, other.tile_type with
    | .Slope, _ => (m.elevation - other.elevation).natAbs ≤ 1
    | _, .Slope => (m.elevation - other.elevation).natAbs ≤ 1
    | _, _ => m.elevation = other.elevation

/-! ### src/dungeon.rs: grid and carving -/

/-- The tile grid, as a predicate: `true` = floor (`'.'`), `false` = wall (`'#'`).
The Rust `Grid` is a `height × width` char matrix holding only these two values. -/
def GridF := Int → Int → Bool

/-- `set_floor`: set `(x, y)` to floor if within the `width × height` bounds. -/
def set_floor (W H : Nat) (g : GridF) (x y : Int) : GridF :=
  if 0 ≤ y ∧ y < (H : Int) ∧ 0 ≤ x ∧ x < (W : Int) then
    fun a b => if a = x ∧ b = y then true else g a b
  else g

/-- Write a list of cells as floor, in order (bounds-checked per cell). -/
def writeCells (W H : Nat) (cells : List (Int × Int)) (g : GridF) : GridF :=
  cells.foldl (fun g c => set_floor W H g c.1 c.2) g

/-- The integer range `a..b` (empty when `b ≤ a`), modelling Rust `for i in a..b`. -/
def intRange (a b : Int) : List Int :=
  (List.range (b - a).toNat).map (fun (k : Nat) => a + (k : Int))

/-- Axis-aligned rectangular room (`Room` in src/dungeon.rs). -/
structure Room where
  x : Int
  y : Int
  w : Int
  h : Int
  elevation : Option Int
deriving DecidableEq, Repr

/-- `Room::intersects`. -/
def Room.intersects (s other : Room) : Bool :=
  !(s.x + s.w ≤ other.x || other.x + other.w ≤ s.x ||
    s.y + s.h ≤ other.y || other.y + other.h ≤ s.y)

/-- `Room::center` (Rust `i32` division truncates towards zero). -/
def Room.center (r : Room) : Int × Int :=
  (r.x + Int.tdiv r.w 2, r.y + Int.tdiv r.h 2)

/-- `intersects_with_margin`: whether `a` expanded by `margin` intersects `b`. -/
def intersects_with_margin (a b : Room) (margin : Int) : Bool :=
  (Room.intersects
    { x := a.x - margin, y := a.y - margin, w := a.w + 2*margin, h := a.h + 2*margin,
      elevation := a.elevation } b)

/-- The cells of a room rectangle in carving order (`carve_room`'s loop nest). -/
def roomCells (r : Room) : List (Int × Int) :=
  (intRange r.y (r.y + r.h)).flatMap (fun y =>
    (intRange r.x (r.x + r.w)).map (fun x => (x, y)))

/-- `carve_room`. -/
def carve_room (W H : Nat) (g : GridF) (r : Room) : GridF :=
  writeCells W H (roomCells r) g

/-- Cells of `carve_horizontal_tunnel` (row `y`, from `min x1 x2` to `max x1 x2`). -/
def hTunnelCells (x1 x2 y : Int) : List (Int × Int) :=
  let s := if x1 ≤ x2 then x1 else x2
  let e := if x1 ≤ x2 then x2 else x1
  (intRange s (e + 1)).map (fun x => (x, y))

/-- `carve_horizontal_tunnel`. -/
def carve_horizontal_tunnel (W H : Nat) (g : GridF) (x1 x2 y : Int) : GridF :=
  writeCells W H (hTunnelCells x1 x2 y) g

/-- Cells of `carve_vertical_tunnel`. -/
def vTunnelCells (y1 y2 x : Int) : List (Int × Int) :=
  let s := if y1 ≤ y2 then y1 else y2
  let e := if y1 ≤ y2 then y2 else y1
  (intRange s (e + 1)).map (fun y => (x, y))

/-- `carve_vertical_tunnel`. -/
def carve_vertical_tunnel (W H : Nat) (g : GridF) (y1 y2 x : Int) : GridF :=
  writeCells W H (vTunnelCells y1 y2 x) g

/-- Cells of `carve_wide_horizontal`: a band of width `wT` centred on row `y`. -/
def wideHCells (x1 x2 y wT : Int) : List (Int × Int) :=
  let s := if x1 ≤ x2 then x1 else x2
  let e := if x1 ≤ x2 then x2 else x1
  let half := Int.tdiv wT 2
  (intRange s (e + 1)).flatMap (fun x =>
    (intRange (-half) (half + 1)).map (fun dy => (x, y + dy)))

/-- `carve_wide_horizontal`. -/
def carve_wide_horizontal (W H : Nat) (g : GridF) (x1 x2 y wT : Int) : GridF :=
  writeCells W H (wideHCells x1 x2 y wT) g

/-- Cells of `carve_wide_vertical`. -/
def wideVCells (y1 y2 x wT : Int) : List (Int × Int) :=
  let s := if y1 ≤ y2 then y1 else y2
  let e := if y1 ≤ y2 then y2 else y1
  let half := Int.tdiv wT 2
  (intRange s (e + 1)).flatMap (fun y =>
    (intRange (-half) (half + 1)).map (fun dx => (x + dx, y)))

/-- `carve_wide_vertical`. -/
def carve_wide_vertical (W H : Nat) (g : GridF) (y1 y2 x wT : Int) : GridF :=
  writeCells W H (wideVCells y1 y2 x wT) g

/-- Quarter-disk quadrant selector (`Quadrant` in src/dungeon.rs). -/
inductive Quadrant where
  | Up
  | Down
  | Left
  | Right
deriving DecidableEq, Repr

/-- The `(dx, dy)` offsets scanned by `carve_quarter_disk`'s loop nest for a
quadrant (before the annulus test). -/
def quadOffsets (quad : Quadrant) (outer : Int) : List (Int × Int) :=
  match quad with
  | .Down =>
    (intRange 0 (outer + 1)).flatMap (fun dy =>
      (intRange (-outer) (outer + 1)).map (fun dx => (dx, dy)))
  | .Up =>
    (intRange (-outer) 1).flatMap (fun dy =>
      (intRange (-outer) (outer + 1)).map (fun dx => (dx, dy)))
  | .Right =>
    (intRange 0 (outer + 1)).flatMap (fun dx =>
      (intRange (-outer) (outer + 1)).map (fun dy => (dx, dy)))
  | .Left =>
    (intRange (-outer) 1).flatMap (fun dx =>
      (intRange (-outer) (outer + 1)).map (fun dy => (dx, dy)))

/-- Cells written by `carve_quarter_disk` (annulus test included). -/
def quarterDiskCells (cx cy radius wT : Int) (quad : Quadrant) : List (Int × Int) :=
  let inner := max (radius - Int.tdiv wT 2) 0
  let outer := radius + Int.tdiv wT 2
  ((quadOffsets quad outer).filter (fun p =>
      p.1 * p.1 + p.2 * p.2 ≤ outer * outer ∧ inner * inner ≤ p.1 * p.1 + p.2 * p.2)).map
    (fun p => (cx + p.1, cy + p.2))

/-- `carve_quarter_disk` (no-op when `radius ≤ 0`). -/
def carve_quarter_disk (W H : Nat) (g : GridF) (cx cy radius wT : Int)
    (quad : Quadrant) : GridF :=
  if radius ≤ 0 then g
  else writeCells W H (quarterDiskCells cx cy radius wT quad) g

/-- `carve_wide_horizontal_with_rounded_turn`. -/
def carve_wide_horizontal_with_rounded_turn (W H : Nat) (g : GridF)
    (x1 x2 y wT radius : Int) (turn_down : Bool) : GridF :=
  let g1 := carve_wide_horizontal W H g x1 x2 y wT
  carve_quarter_disk W H g1 x2 y (max radius (Int.tdiv wT 2)) wT
    (if turn_down then Quadrant.Down else Quadrant.Up)

/-- `carve_wide_vertical_with_rounded_turn`. -/
def carve_wide_vertical_with_rounded_turn (W H : Nat) (g : GridF)
    (y1 y2 x wT radius : Int) (turn_right : Bool) : GridF :=
  let g1 := carve_wide_vertical W H g y1 y2 x wT
  carve_quarter_disk W H g1 x y2 (max radius (Int.tdiv wT 2)) wT
    (if turn_right then Quadrant.Right else Quadrant.Left)

/-! ### src/dungeon.rs: configuration and output types -/

/-- `GenerationMode`. -/
inductive GenerationMode where
  | Classic
  | Marble
  | Wfc
deriving DecidableEq, Repr

/-- `GeneratorParams`.  `u32` fields are naturals (reduced mod `2^32` at use),
`max_elevation` is an `i32` (`Int`), `obstacle_density` models the `f32` field
by an exact rational. -/
structure GeneratorParams where
  width : Nat
  height : Nat
  rooms : Nat
  min_room : Nat
  max_room : Nat
  seed : Option Nat
  mode : GenerationMode
  channel_width : Nat
  corner_radius : Nat
  enable_elevation : Bool
  max_elevation : Int
  enable_obstacles : Bool
  obstacle_density : ℚ

/-- `GeneratorParams::default`.  `0.3` is the exact rational 3/10 standing in
for the `f32` literal. -/
def GeneratorParams.default : GeneratorParams :=
  { width := 80, height := 25, rooms := 12, min_room := 4, max_room := 10,
    seed := none, mode := .Classic, channel_width := 2, corner_radius := 2,
    enable_elevation := false, max_elevation := 2, enable_obstacles := false,
    obstacle_density := 3/10 }

/-- `Level`: the generated output. `tiles` rows are lists of chars (`'#'`/`'.'`
for classic and marble, box-drawing chars for WFC). -/
structure Level where
  width : Nat
  height : Nat
  seed : Nat
  rooms : List Room
  tiles : List (List Char)
  marble_tiles : Option (List (List MarbleTile))
deriving DecidableEq, Repr

/-! ### Room placement (the attempt loop in `generate`, lines 177–205) -/

/-- State threaded through the placement loop. `attemptsUsed` is a ghost
counter recording how many loop iterations (candidate attempts) ran. -/
structure PlaceState where
  grid : GridF
  rooms : List Room
  rng : Rng
  attemptsUsed : Nat

/-- One iteration of the placement attempt loop: draw a candidate size and
position, reject (`continue`) out-of-size or overlapping candidates, carve and
record accepted ones.  `none` models a Rust panic in `random_range`. -/
def placeAttempt (W H : Nat) (widthI heightI minRoomI maxRoomI : Int)
    (marbleElev : Bool) (maxElev : Int) (st : PlaceState) : Option PlaceState :=
  match randRangeI minRoomI maxRoomI st.rng with
  | none => none
  | some (w, rng) =>
    match randRangeI minRoomI maxRoomI rng with
    | none => none
    | some (h, rng) =>
      if widthI - 4 ≤ w ∨ heightI - 4 ≤ h then
        some { st with rng := rng, attemptsUsed := st.attemptsUsed + 1 }
      else
        match randRangeI 1 (widthI - w - 2) rng with
        | none => none
        | some (x, rng) =>
          match randRangeI 1 (heightI - h - 2) rng with
          | none => none
          | some (y, rng) =>
            match (if marbleElev then
                (randRangeI (-maxElev) maxElev rng).map (fun er => (some er.1, er.2))
              else some ((none : Option Int), rng)) with
            | none => none
            | some (elevation, rng) =>
              if st.rooms.any (fun r => intersects_with_margin r
                  { x := x, y := y, w := w, h := h, elevation := elevation } 1) then
                some { st with rng := rng, attemptsUsed := st.attemptsUsed + 1 }
              else
                some { grid := carve_room W H st.grid
                         { x := x, y := y, w := w, h := h, elevation := elevation },
                       rooms := st.rooms ++
                         [{ x := x, y := y, w := w, h := h, elevation := elevation }],
                       rng := rng,
                       attemptsUsed := st.attemptsUsed + 1 }

/-- The placement loop: up to `fuel` attempts, stopping early once
`roomTarget` rooms are placed. -/
def placeRooms (W H : Nat) (widthI heightI minRoomI maxRoomI : Int)
    (marbleElev : Bool) (maxElev : Int) :
    Nat → Nat → PlaceState → Option PlaceState
  | 0, _, st => some st
  | fuel + 1, roomTarget, st =>
    if roomTarget ≤ st.rooms.length then some st
    else
      match placeAttempt W H widthI heightI minRoomI maxRoomI marbleElev maxElev st with
      | none => none
      | some st' =>
        placeRooms W H widthI heightI minRoomI maxRoomI marbleElev maxElev fuel roomTarget st'

/-! ### Corridor carving (`generate`, lines 209–239) -/

/-- Classic-mode tunnel pass: L-tunnels between consecutive room centres,
orientation chosen by a coin flip per pair. -/
def carveClassicTunnels (W H : Nat) : List Room → GridF → Rng → GridF × Rng
  | [], g, rng => (g, rng)
  | [_], g, rng => (g, rng)
  | a :: b :: rest, g, rng =>
    let (x1, y1) := a.center
    let (x2, y2) := b.center
    let (coin, rng') := randBool rng
    let g' :=
      if coin then
        carve_vertical_tunnel W H (carve_horizontal_tunnel W H g x1 x2 y1) y1 y2 x2
      else
        carve_horizontal_tunnel W H (carve_vertical_tunnel W H g y1 y2 x1) x1 x2 y2
    carveClassicTunnels W H (b :: rest) g' rng'

/-- Marble-mode channel pass: wide channels with a rounded corner between
consecutive room centres. -/
def carveMarbleTunnels (W H : Nat) (wT r : Int) : List Room → GridF → Rng → GridF × Rng
  | [], g, rng => (g, rng)
  | [_], g, rng => (g, rng)
  | a :: b :: rest, g, rng =>
    let (x1, y1) := a.center
    let (x2, y2) := b.center
    let (coin, rng') := randBool rng
    let g' :=
      if coin then
        carve_wide_vertical W H
          (carve_wide_horizontal_with_rounded_turn W H g x1 x2 y1 wT r true) y1 y2 x2 wT
      else
        carve_wide_horizontal W H
          (carve_wide_vertical_with_rounded_turn W H g y1 y2 x1 wT r true) x1 x2 y2 wT
    carveMarbleTunnels W H wT r (b :: rest) g' rng'

/-- Render the char grid (`grid.iter().map(|row| row.iter().collect()).collect()`). -/
def renderTiles (W H : Nat) (g : GridF) : List (List Char) :=
  (List.range H).map (fun (y : Nat) =>
    (List.range W).map (fun (x : Nat) => if g (x : Int) (y : Int) then '.' else '#'))

/-! ### Marble tile classification (`grid_to_marble_tiles` and helpers) -/

/-- The marble tile grid as a function (the Rust `Vec<Vec<MarbleTile>>`). -/
def MGrid := Int → Int → MarbleTile

/-- Point update of a marble grid. -/
def updateM (mg : MGrid) (x y : Int) (v : MarbleTile) : MGrid :=
  fun a b => if a = x ∧ b = y then v else mg a b

/-- The `is_floor` closure of `grid_to_marble_tiles` / `place_advanced_tiles`:
bounds check plus floor test. -/
def is_floorG (W H : Nat) (g : GridF) (x y : Int) : Bool :=
  if 0 ≤ y ∧ y < (H : Int) ∧ 0 ≤ x ∧ x < (W : Int) then g x y else false

/-- The `get_elevation` closure of `grid_to_marble_tiles`: read the elevation
map with out-of-bounds defaulting to 0. -/
def getElevMap (W H : Nat) (em : Int → Int → Int) (x y : Int) : Int :=
  if 0 ≤ y ∧ y < (H : Int) ∧ 0 ≤ x ∧ x < (W : Int) then em x y else 0

/-- The free function `get_elevation(marble_grid, x, y)` (lines 889–896). -/
def get_elevation_mg (W H : Nat) (mg : MGrid) (x y : Int) : Int :=
  if 0 ≤ y ∧ y < (H : Int) ∧ 0 ≤ x ∧ x < (W : Int) then (mg x y).elevation else 0

/-- The neighbour-count classification match of `grid_to_marble_tiles`
(lines 509–551): tile type and rotation from the four floor-neighbour flags. -/
def classifyCell (north south east west : Bool) : TileType × Nat :=
  let connection_count := ([north, south, east, west].filter (fun b => b)).length
  match connection_count with
  | 0 => (.OpenPlatform, 0)
  | 1 => (.OpenPlatform, 0)
  | 2 =>
    if (north && south) || (east && west) then
      (.Straight, if north && south then 0 else 1)
    else
      (.Curve90,
        if north && east then 0
        else if east && south then 1
        else if south && west then 2
        else 3)
  | 3 =>
    (.TJunction,
      if !south then 0
      else if !west then 1
      else if !north then 2
      else 3)
  | 4 => (.CrossJunction, 0)
  | _ => (.Straight, 0)

/-- First pass of `grid_to_marble_tiles`: per-cell base classification.
Non-floor and out-of-bounds cells stay `MarbleTile.empty`.  (Each cell's result
reads only the char grid, so the Rust in-place loop is a pointwise map.) -/
def basePass (W H : Nat) (g : GridF) (em : Int → Int → Int) : MGrid :=
  fun x y =>
    if 0 ≤ y ∧ y < (H : Int) ∧ 0 ≤ x ∧ x < (W : Int) then
      if g x y then
        let north := is_floorG W H g x (y - 1)
        let south := is_floorG W H g x (y + 1)
        let east := is_floorG W H g (x + 1) y
        let west := is_floorG W H g (x - 1) y
        let c := classifyCell north south east west
        MarbleTile.with_params c.1 (getElevMap W H em x y) c.2 true
      else MarbleTile.empty
    else MarbleTile.empty

/-- Row-major cell list for a loop nest `for y in y0..y1 { for x in x0..x1 }`. -/
def cellList (x0 x1 y0 y1 : Int) : List (Int × Int) :=
  (intRange y0 y1).flatMap (fun y => (intRange x0 x1).map (fun x => (x, y)))

/-- The step deltas of `count_connections_downstream`. -/
def dirDelta : Direction → Int × Int
  | .North => (0, -1)
  | .South => (0, 1)
  | .East => (1, 0)
  | .West => (-1, 0)

/-- The walk loop of `count_connections_downstream` (at most 10 steps). -/
def countDownGo (W H : Nat) (mg : MGrid) (g : GridF) (dir : Direction) :
    Nat → Int → Int → Nat → Nat
  | 0, _, _, count => count
  | fuel + 1, x, y, count =>
    let (dx, dy) := dirDelta dir
    let x' := x + dx
    let y' := y + dy
    if y' < 0 ∨ (H : Int) ≤ y' ∨ x' < 0 ∨ (W : Int) ≤ x' then count
    else if !(g x' y') then count
    else
      let t := (mg x' y').tile_type
      if t = .TJunction ∨ t = .CrossJunction ∨ t = .YJunction then count + 1
      else countDownGo W H mg g dir fuel x' y' (count + 1)

/-- `count_connections_downstream` (lines 836–886). -/
def count_connections_downstream (W H : Nat) (mg : MGrid) (g : GridF)
    (start_x start_y : Int) (dir : Direction) : Nat :=
  if start_y < 0 ∨ (H : Int) ≤ start_y ∨ start_x < 0 ∨ (W : Int) ≤ start_x then 0
  else countDownGo W H mg g dir 10 start_x start_y 0

/-- Y-junction pass of `place_advanced_tiles`. -/
def yJunctionPass (W H : Nat) (g : GridF) (mg : MGrid) : MGrid :=
  (cellList 1 ((W : Int) - 1) 1 ((H : Int) - 1)).foldl (fun mg p =>
    let (x, y) := p
    let tile := mg x y
    if tile.tile_type ≠ .TJunction then mg
    else
      let north := is_floorG W H g x (y - 1)
      let south := is_floorG W H g x (y + 1)
      let east := is_floorG W H g (x + 1) y
      let west := is_floorG W H g (x - 1) y
      let has_diagonal :=
        (north && east && is_floorG W H g (x + 1) (y - 1)) ||
        (east && south && is_floorG W H g (x + 1) (y + 1)) ||
        (south && west && is_floorG W H g (x - 1) (y + 1)) ||
        (west && north && is_floorG W H g (x - 1) (y - 1))
      if has_diagonal then
        updateM mg x y (MarbleTile.with_params .YJunction tile.elevation tile.rotation true)
      else mg) mg

/-- Merge pass of `place_advanced_tiles`. -/
def mergePass (W H : Nat) (g : GridF) (mg : MGrid) : MGrid :=
  (cellList 1 ((W : Int) - 1) 1 ((H : Int) - 1)).foldl (fun mg p =>
    let (x, y) := p
    let tile := mg x y
    if tile.tile_type ≠ .CrossJunction then mg
    else
      let nc := count_connections_downstream W H mg g x (y - 1) .North
      let sc := count_connections_downstream W H mg g x (y + 1) .South
      let ec := count_connections_downstream W H mg g (x + 1) y .East
      let wc := count_connections_downstream W H mg g (x - 1) y .West
      let maxc := max nc (max sc (max ec wc))
      if 3 ≤ maxc ∧ 3 ≤ ([nc, sc, ec, wc].filter (fun c => 0 < c)).length then
        let output_dir : Nat :=
          if nc = maxc then 0
          else if ec = maxc then 1
          else if sc = maxc then 2
          else 3
        updateM mg x y (MarbleTile.with_params .Merge tile.elevation output_dir true)
      else mg) mg

/-- One-way-gate pass of `place_advanced_tiles`. -/
def oneWayGatePass (W H : Nat) (g : GridF) (mg : MGrid) : MGrid :=
  (cellList 1 ((W : Int) - 1) 1 ((H : Int) - 1)).foldl (fun mg p =>
    let (x, y) := p
    let tile := mg x y
    if tile.tile_type ≠ .Straight then mg
    else
      let is_narrow_passage :=
        match tile.rotation with
        | 0 | 2 =>
          (!(is_floorG W H g (x - 1) y) || !(is_floorG W H g (x + 1) y)) &&
          is_floorG W H g x (y - 1) && is_floorG W H g x (y + 1)
        | 1 | 3 =>
          (!(is_floorG W H g x (y - 1)) || !(is_floorG W H g x (y + 1))) &&
          is_floorG W H g (x - 1) y && is_floorG W H g (x + 1) y
        | _ => false
      if is_narrow_passage then
        updateM mg x y (MarbleTile.with_params .OneWayGate tile.elevation tile.rotation true)
      else mg) mg

/-- Loop-de-loop pass of `place_advanced_tiles` (elevation mode only). -/
def loopDeLoopPass (W H : Nat) (g : GridF) (mg : MGrid) : MGrid :=
  (cellList 1 ((W : Int) - 1) 1 ((H : Int) - 1)).foldl (fun mg p =>
    let (x, y) := p
    let tile := mg x y
    if tile.tile_type ≠ .Straight then mg
    else
      let current_elev := tile.elevation
      let big := fun (a b : Int) =>
        is_floorG W H g a b && 2 ≤ (get_elevation_mg W H mg a b - current_elev).natAbs
      if big x (y - 1) || big x (y + 1) || big (x + 1) y || big (x - 1) y then
        updateM mg x y (MarbleTile.with_params .LoopDeLoop current_elev tile.rotation true)
      else mg) mg

/-- Half-pipe pass of `place_advanced_tiles` (elevation mode only). -/
def halfPipePass (W H : Nat) (g : GridF) (mg : MGrid) : MGrid :=
  (cellList 1 ((W : Int) - 1) 1 ((H : Int) - 1)).foldl (fun mg p =>
    let (x, y) := p
    let tile := mg x y
    if tile.tile_type ≠ .Curve90 then mg
    else
      let current_elev := tile.elevation
      let one := fun (a b : Int) =>
        is_floorG W H g a b && (get_elevation_mg W H mg a b - current_elev).natAbs = 1
      if one x (y - 1) || one x (y + 1) || one (x + 1) y || one (x - 1) y then
        updateM mg x y (MarbleTile.with_params .HalfPipe current_elev tile.rotation true)
      else mg) mg

/-- Launch-pad pass of `place_advanced_tiles`. -/
def launchPadPass (W H : Nat) (g : GridF) (mg : MGrid) : MGrid :=
  (cellList 1 ((W : Int) - 1) 1 ((H : Int) - 1)).foldl (fun mg p =>
    let (x, y) := p
    let tile := mg x y
    if tile.tile_type ≠ .Straight then mg
    else
      let is_launch_pad :=
        match tile.rotation with
        | 0 | 2 => !(is_floorG W H g x (y - 1)) && is_floorG W H g x (y + 1)
        | 1 | 3 => !(is_floorG W H g (x - 1) y) && is_floorG W H g (x + 1) y
        | _ => false
      if is_launch_pad then
        updateM mg x y (MarbleTile.with_params .LaunchPad tile.elevation tile.rotation true)
      else mg) mg

/-- `place_advanced_tiles` (lines 607–833): six sequential passes. -/
def place_advanced_tiles (W H : Nat) (mg : MGrid) (g : GridF)
    (enable_elevation : Bool) : MGrid :=
  let mg := yJunctionPass W H g mg
  let mg := mergePass W H g mg
  let mg := oneWayGatePass W H g mg
  let mg := if enable_elevation then loopDeLoopPass W H g mg else mg
  let mg := if enable_elevation then halfPipePass W H g mg else mg
  launchPadPass W H g mg

/-- Third pass of `grid_to_marble_tiles`: convert simple tiles next to a ±1
elevation step into `Slope` (vertical orientation checked first). -/
def slopePass (W H : Nat) (g : GridF) (em : Int → Int → Int) (mg : MGrid) : MGrid :=
  (cellList 0 (W : Int) 0 (H : Int)).foldl (fun mg p =>
    let (x, y) := p
    let tile := mg x y
    if tile.tile_type = .Empty then mg
    else if ¬(tile.tile_type = .Straight ∨ tile.tile_type = .OpenPlatform ∨
              tile.tile_type = .CrossJunction) then mg
    else
      let current_elev := tile.elevation
      let stepAt := fun (a b : Int) =>
        is_floorG W H g a b && (getElevMap W H em a b - current_elev).natAbs = 1
      if stepAt x (y - 1) || stepAt x (y + 1) then
        updateM mg x y (MarbleTile.with_params .Slope current_elev 0 true)
      else if stepAt (x + 1) y || stepAt (x - 1) y then
        updateM mg x y (MarbleTile.with_params .Slope current_elev 1 true)
      else mg) mg

/-- `grid_to_marble_tiles` (lines 461–605). -/
def grid_to_marble_tiles (W H : Nat) (g : GridF) (enable_elevation : Bool)
    (em : Int → Int → Int) : MGrid :=
  let mg := basePass W H g em
  let mg := place_advanced_tiles W H mg g enable_elevation
  if enable_elevation then slopePass W H g em mg else mg

/-! ### Corridor elevation map (`create_corridor_elevation_map`, lines 284–410) -/

/-- Point update of an integer-valued cell map. -/
def updateI (f : Int → Int → Int) (x y : Int) (v : Int) : Int → Int → Int :=
  fun a b => if a = x ∧ b = y then v else f a b

/-- The BFS neighbour deltas used by the elevation code: `[(0,1),(0,-1),(1,0),(-1,0)]`. -/
def bfsDeltas : List (Int × Int) := [(0, 1), (0, -1), (1, 0), (-1, 0)]

/-- One BFS expansion: push the four neighbours that get a shorter distance. -/
def bfsExpand (W H : Nat) (g : GridF) (x y dist elev : Int)
    (st : (Int → Int → Int) × (Int → Int → Int) × List (Int × Int × Int × Int)) :
    (Int → Int → Int) × (Int → Int → Int) × List (Int × Int × Int × Int) :=
  bfsDeltas.foldl (fun st d =>
    let (em, dm, queue) := st
    let nx := x + d.1
    let ny := y + d.2
    if 0 ≤ ny ∧ ny < (H : Int) ∧ 0 ≤ nx ∧ nx < (W : Int) then
      if g nx ny then
        let new_dist := dist + 1
        if new_dist < dm nx ny then
          (updateI em nx ny elev, updateI dm nx ny new_dist,
           queue ++ [(nx, ny, new_dist, elev)])
        else st
      else st
    else st) st

/-- The BFS worklist loop propagating room elevations outward. -/
def bfsGo (W H : Nat) (g : GridF) :
    Nat → (Int → Int → Int) → (Int → Int → Int) → List (Int × Int × Int × Int) →
    (Int → Int → Int) × (Int → Int → Int)
  | 0, em, dm, _ => (em, dm)
  | _ + 1, em, dm, [] => (em, dm)
  | fuel + 1, em, dm, (x, y, dist, elev) :: rest =>
    if dm x y < dist then bfsGo W H g fuel em dm rest
    else
      let (em', dm', queue') := bfsExpand W H g x y dist elev (em, dm, rest)
      bfsGo W H g fuel em' dm' queue'

/-- One smoothing scan: collect the per-cell elevation nudges of this pass
(first distance-respecting neighbour with a jump `> 1`, first-write-wins). -/
def smoothScan (W H : Nat) (g : GridF) (em dm : Int → Int → Int) :
    List ((Int × Int) × Int) :=
  (cellList 0 (W : Int) 0 (H : Int)).foldl (fun changes p =>
    let (x, y) := p
    if !(g x y) then changes
    else
      let current_elev := em x y
      let current_dist := dm x y
      let hit := bfsDeltas.find? (fun d =>
        let nx := x + d.1
        let ny := y + d.2
        if 0 ≤ ny ∧ ny < (H : Int) ∧ 0 ≤ nx ∧ nx < (W : Int) then
          if g nx ny then
            let diff := em nx ny - current_elev
            1 < diff.natAbs ∧ dm nx ny ≤ current_dist
          else false
        else false)
      match hit with
      | none => changes
      | some d =>
        if changes.any (fun c => c.1 = (x, y)) then changes
        else
          let diff := em (x + d.1) (y + d.2) - current_elev
          changes ++ [((x, y), current_elev + diff.sign)]) []

/-- The iterative smoothing loop (cap `max_iterations = 50`). -/
def smoothLoop (W H : Nat) (g : GridF) (dm : Int → Int → Int) :
    Nat → (Int → Int → Int) → (Int → Int → Int)
  | 0, em => em
  | fuel + 1, em =>
    let changes := smoothScan W H g em dm
    let em' := changes.foldl (fun em c => updateI em c.1.1 c.1.2 c.2) em
    if changes.isEmpty then em'
    else smoothLoop W H g dm fuel em'

/-- `create_corridor_elevation_map`: room seeding, multi-source BFS, then
iterative smoothing.  The BFS fuel is a generous upper bound on the number of
worklist pops (each push follows a strict distance decrease at a cell). -/
def create_corridor_elevation_map (W H : Nat) (g : GridF) (rooms : List Room) :
    Int → Int → Int :=
  let em0 : Int → Int → Int := fun _ _ => 0
  let dm0 : Int → Int → Int := fun _ _ => 2147483647
  let seeded := rooms.foldl (fun st room =>
    let room_elev := room.elevation.getD 0
    (roomCells room).foldl (fun st c =>
      let (em, dm) := st
      if 0 ≤ c.2 ∧ c.2 < (H : Int) ∧ 0 ≤ c.1 ∧ c.1 < (W : Int) then
        (updateI em c.1 c.2 room_elev, updateI dm c.1 c.2 0)
      else st) st) (em0, dm0)
  let queue0 := rooms.foldl (fun q room =>
    let room_elev := room.elevation.getD 0
    (roomCells room).foldl (fun q c =>
      if 0 ≤ c.2 ∧ c.2 < (H : Int) ∧ 0 ≤ c.1 ∧ c.1 < (W : Int) then
        if g c.1 c.2 then q ++ [(c.1, c.2, (0 : Int), room_elev)] else q
      else q) q) []
  let (em1, dm1) := bfsGo W H g ((W * H + 2) * (W * H + 2) * 4) seeded.1 seeded.2 queue0
  smoothLoop W H g dm1 50 em1

/-! ### Obstacle placement (`place_obstacles_in_rooms`, lines 413–459) -/

/-- Up to 20 attempts to place one obstacle inside `room`'s interior. -/
def tryPlaceObstacle (W H : Nat) (room : Room) :
    Nat → MGrid → Rng → Option (MGrid × Rng)
  | 0, mg, rng => some (mg, rng)
  | fuel + 1, mg, rng => do
    let (ox, rng) ← randRangeIExcl (room.x + 1) (room.x + room.w - 1) rng
    let (oy, rng) ← randRangeIExcl (room.y + 1) (room.y + room.h - 1) rng
    if 0 ≤ oy ∧ oy < (H : Int) ∧ 0 ≤ ox ∧ ox < (W : Int) then
      let tile := mg ox oy
      if tile.tile_type.is_passable ∧ tile.tile_type ≠ .Obstacle then
        some (updateM mg ox oy (MarbleTile.with_params .Obstacle tile.elevation 0 false), rng)
      else tryPlaceObstacle W H room fuel mg rng
    else tryPlaceObstacle W H room fuel mg rng

/-- Place `count` obstacles in one room (each one tried up to 20 times). -/
def placeObstaclesInRoom (W H : Nat) (room : Room) :
    Nat → MGrid → Rng → Option (MGrid × Rng)
  | 0, mg, rng => some (mg, rng)
  | count + 1, mg, rng => do
    let (mg', rng') ← tryPlaceObstacle W H room 20 mg rng
    placeObstaclesInRoom W H room count mg' rng'

/-- The number of obstacles the placer schedules for a room:
`((room_area * density * 0.1) as i32).max(1)`.  The truncated value of the
rational `area * density * 1/10` is computed directly on the numerator and
denominator (truncating division is independent of normalisation). -/
def numObstacles (room : Room) (density : ℚ) : Int :=
  max (Int.tdiv (room.w * room.h * density.num) ((density.den : Int) * 10)) 1

/-- `place_obstacles_in_rooms`: rooms with area `< 30` are skipped entirely.
(The Rust guard compares `(room.w * room.h) as f32 < 30.0`; the cast is exact
for these magnitudes, so the guard is the integer comparison.) -/
def place_obstacles_in_rooms (W H : Nat) (mg : MGrid) (rooms : List Room)
    (rng : Rng) (density : ℚ) : Option (MGrid × Rng) :=
  rooms.foldlM (fun st room =>
    if room.w * room.h < 30 then some st
    else placeObstaclesInRoom W H room (numObstacles room density).toNat st.1 st.2)
    (mg, rng)

/-! ### WFC solver (`generate_wfc_tilemap` and helpers, lines 933–1097) -/

/-- A WFC tile: display char plus edge-connection flags `[up, right, down, left]`. -/
structure WfcTile where
  ch : Char
  e0 : Bool
  e1 : Bool
  e2 : Bool
  e3 : Bool
deriving DecidableEq, Repr

/-- Edge accessor: `edges[dir]` with `0 = up, 1 = right, 2 = down, 3 = left`. -/
def WfcTile.edge (t : WfcTile) (dir : Nat) : Bool :=
  match dir with
  | 0 => t.e0
  | 1 => t.e1
  | 2 => t.e2
  | _ => t.e3

/-- `wfc_tileset`: the fixed 12-tile box-drawing tileset. -/
def wfc_tileset : List WfcTile :=
  [ { ch := ' ', e0 := false, e1 := false, e2 := false, e3 := false },
    { ch := '─', e0 := false, e1 := true,  e2 := false, e3 := true  },
    { ch := '│', e0 := true,  e1 := false, e2 := true,  e3 := false },
    { ch := '┌', e0 := false, e1 := true,  e2 := true,  e3 := false },
    { ch := '┐', e0 := false, e1 := false, e2 := true,  e3 := true  },
    { ch := '└', e0 := true,  e1 := true,  e2 := false, e3 := false },
    { ch := '┘', e0 := true,  e1 := false, e2 := false, e3 := true  },
    { ch := '├', e0 := true,  e1 := true,  e2 := true,  e3 := false },
    { ch := '┤', e0 := true,  e1 := false, e2 := true,  e3 := true  },
    { ch := '┬', e0 := false, e1 := true,  e2 := true,  e3 := true  },
    { ch := '┴', e0 := true,  e1 := true,  e2 := false, e3 := true  },
    { ch := '┼', e0 := true,  e1 := true,  e2 := true,  e3 := true  } ]

/-- Number of tiles in the tileset. -/
def numTiles : Nat := wfc_tileset.length

/-- Tile lookup (indices are always in range where used). -/
def tileAt (i : Nat) : WfcTile :=
  wfc_tileset.getD i { ch := ' ', e0 := false, e1 := false, e2 := false, e3 := false }

/-- `opposite` on the four directions. -/
def oppDir (dir : Nat) : Nat := (dir + 2) % 4

/-- The full-domain bitmask (`all_mask`). -/
def all_mask : Nat :=
  if 32 ≤ numTiles then 4294967295 else 2 ^ numTiles - 1

/-- `compat[i][dir]`: bitmask of tiles allowed next to tile `i` in direction `dir`. -/
def compatMask (i dir : Nat) : Nat :=
  (List.range numTiles).foldl (fun mask j =>
    if (tileAt i).edge dir = (tileAt j).edge (oppDir dir) then mask ||| (1 <<< j)
    else mask) 0

/-- `allowed_without_connection`: tiles whose edge in `dir` is absent. -/
def allowed_without_connection (dir : Nat) : Nat :=
  (List.range numTiles).foldl (fun mask i =>
    if !(tileAt i).edge dir then mask ||| (1 <<< i) else mask) 0

/-- Border-constrained initial domain of cell `(x, y)` in a `W × H` grid. -/
def borderMaskAt (W H x y : Nat) : Nat :=
  let mask := all_mask
  let mask := if y = 0 then mask &&& allowed_without_connection 0 else mask
  let mask := if x + 1 = W then mask &&& allowed_without_connection 1 else mask
  let mask := if y + 1 = H then mask &&& allowed_without_connection 2 else mask
  if x = 0 then mask &&& allowed_without_connection 3 else mask

/-- Initial domains: every cell starts at `all_mask` intersected with its
border constraints (`domains[idx(x,y)] &= mask`). -/
def initDomains (W H : Nat) : Nat → Nat :=
  fun i => borderMaskAt W H (i % W) (i / W)

/-- Point update of a domain array. -/
def updateD (f : Nat → Nat) (i v : Nat) : Nat → Nat :=
  fun j => if j = i then v else f j

/-- Popcount of a `u32` value (`count_ones`). -/
def maskCount (m : Nat) : Nat :=
  ((List.range 32).filter (fun t => m.testBit t)).length

/-- Lowest-entropy cell selection: first cell with minimal candidate count `> 1`. -/
def pickBest (W H : Nat) (doms : Nat → Nat) : Option Nat :=
  ((List.range (W * H)).foldl (fun best i =>
    let c := maskCount (doms i)
    if 1 < c ∧ c < best.2 then (some i, c) else best)
    ((none : Option Nat), 2 ^ 64)).1

/-- Candidate tile indices of a domain, in ascending order. -/
def optionsOf (d : Nat) : List Nat :=
  (List.range numTiles).filter (fun t => d.testBit t)

/-- Union of `compat[t][dir]` over the candidates of `d0`. -/
def allowedFrom (d0 dir : Nat) : Nat :=
  (List.range numTiles).foldl (fun acc t =>
    if d0.testBit t then acc ||| compatMask t dir else acc) 0

/-- Neighbour cell index in direction `dir` (`0` up, `1` right, `2` down,
`3` left), `none` off-grid.  This matches the Rust `wrapping_sub` plus
`nx >= width || ny >= height` filter. -/
def neighborIdx (W H x y dir : Nat) : Option Nat :=
  match dir with
  | 0 => if y = 0 then none else some ((y - 1) * W + x)
  | 1 => if W ≤ x + 1 then none else some (y * W + (x + 1))
  | 2 => if H ≤ y + 1 then none else some ((y + 1) * W + x)
  | _ => if x = 0 then none else some (y * W + (x - 1))

/-- Constraint narrowing of the four neighbours of a popped cell.  Returns the
updated domains and the list of pushed cells; mirrors the `for dir in 0..4`
loop including its early `break` when a neighbour's domain empties. -/
def propagateDirs (W H : Nat) (d0 x0 y0 : Nat) :
    List Nat → (Nat → Nat) → List Nat → (Nat → Nat) × List Nat
  | [], doms, pushed => (doms, pushed)
  | dir :: rest, doms, pushed =>
    match neighborIdx W H x0 y0 dir with
    | none => propagateDirs W H d0 x0 y0 rest doms pushed
    | some ni =>
      let allowed := allowedFrom d0 dir
      let before := doms ni
      let after := before &&& allowed
      if after ≠ before then
        let doms' := updateD doms ni after
        if after = 0 then (doms', pushed)
        else propagateDirs W H d0 x0 y0 rest doms' (pushed ++ [ni])
      else propagateDirs W H d0 x0 y0 rest doms pushed

/-- The propagation worklist loop (`while let Some(i0) = queue.pop_front()`).
With exhausted fuel and a non-empty queue the domains are zeroed, forcing a
restart; the fuel used below always suffices, since every push follows a
strict domain shrink. -/
def propagate (W H : Nat) : Nat → (Nat → Nat) → List Nat → (Nat → Nat)
  | 0, doms, queue =>
    match queue with
    | [] => doms
    | _ :: _ => fun _ => 0
  | fuel + 1, doms, queue =>
    match queue with
    | [] => doms
    | i0 :: rest =>
      let d0 := doms i0
      if d0 = 0 then doms
      else
        let (doms', pushed) := propagateDirs W H d0 (i0 % W) (i0 / W) [0, 1, 2, 3] doms []
        propagate W H fuel doms' (rest ++ pushed)

/-- Fuel for one propagation run. -/
def propFuel (W H : Nat) : Nat := 13 * (W * H) + 2

/-- Zero-domain check (`domains.iter().any(|&d| d == 0)`). -/
def anyZero (W H : Nat) (doms : Nat → Nat) : Bool :=
  (List.range (W * H)).any (fun i => doms i = 0)

/-- The collapse/propagate loop of one WFC attempt.  Returns the final domains
on success, `none` on contradiction, threading the RNG either way. -/
def wfcLoop (W H : Nat) : Nat → (Nat → Nat) → Rng → Option (Nat → Nat) × Rng
  | 0, _, rng => (none, rng)
  | fuel + 1, doms, rng =>
    match pickBest W H doms with
    | none =>
      if anyZero W H doms then (none, rng) else (some doms, rng)
    | some i =>
      let d := doms i
      if d = 0 then (none, rng)
      else
        let options := optionsOf d
        if options.isEmpty then (none, rng)
        else
          let (v, rng') := rng.next
          let choice := options.getD (v % options.length) 0
          let doms' := updateD doms i (1 <<< choice)
          let doms'' := propagate W H (propFuel W H) doms' [i]
          if anyZero W H doms'' then (none, rng')
          else wfcLoop W H fuel doms'' rng'

/-- Outer-loop fuel: each iteration collapses a multi-candidate cell, strictly
shrinking the total candidate count, which is at most `numTiles * W * H`. -/
def wfcOuterFuel (W H : Nat) : Nat := numTiles * (W * H) + 2

/-- Render the fully-collapsed domains
(`(0..num_tiles).find(|t| bit set).unwrap_or(0)` per cell). -/
def renderWfc (W H : Nat) (doms : Nat → Nat) : List (List Char) :=
  (List.range H).map (fun y =>
    (List.range W).map (fun x =>
      let d := doms (y * W + x)
      let tile_id := (((List.range numTiles).filter (fun t => d.testBit t)).head?).getD 0
      (tileAt tile_id).ch))

/-- The restart loop: up to `fuel` independent attempts, each from fresh
border-constrained domains.  Also returns the number of attempts used. -/
def wfcAttempts (W H : Nat) : Nat → Rng → Option (List (List Char)) × Rng × Nat
  | 0, rng => (none, rng, 0)
  | n + 1, rng =>
    match wfcLoop W H (wfcOuterFuel W H) (initDomains W H) rng with
    | (some doms, rng') => (some (renderWfc W H doms), rng', 1)
    | (none, rng') =>
      let (res, rng'', used) := wfcAttempts W H n rng'
      (res, rng'', used + 1)

/-- The all-blank fallback grid (`vec![" ".repeat(width); height]`). -/
def blankGrid (W H : Nat) : List (List Char) :=
  List.replicate H (List.replicate W ' ')

/-- `generate_wfc_tilemap`: 10 restart attempts, then the blank fallback. -/
def generate_wfc_tilemap (W H : Nat) (rng : Rng) : List (List Char) :=
  ((wfcAttempts W H 10 rng).1).getD (blankGrid W H)

/-! ### The generation entry point (`generate`, lines 155–268) -/

/-- `MIN_MAP_DIM`. -/
def MIN_MAP_DIM : Nat := 10
/-- `MIN_ROOM_DIM`. -/
def MIN_ROOM_DIM : Nat := 3

/-- Render the marble tile grid into the row-major `Vec<Vec<MarbleTile>>`. -/
def renderMarble (W H : Nat) (mg : MGrid) : List (List MarbleTile) :=
  (List.range H).map (fun (y : Nat) =>
    (List.range W).map (fun (x : Nat) => mg (x : Int) (y : Int)))

/-- The clamped map width (`params.width.max(MIN_MAP_DIM)`). -/
def genWidth (p : GeneratorParams) : Nat := Nat.max (u32 p.width) MIN_MAP_DIM
/-- The clamped map height. -/
def genHeight (p : GeneratorParams) : Nat := Nat.max (u32 p.height) MIN_MAP_DIM
/-- The clamped minimum room side. -/
def genMinRoom (p : GeneratorParams) : Nat := Nat.max (u32 p.min_room) MIN_ROOM_DIM
/-- The clamped maximum room side (`params.max_room.max(min_room + 1)`). -/
def genMaxRoom (p : GeneratorParams) : Nat :=
  Nat.max (u32 p.max_room) (u32 (genMinRoom p + 1))
/-- The placement attempt budget (`(params.rooms * 10).max(100)` on `u32`). -/
def genAttempts (p : GeneratorParams) : Nat := Nat.max (u32 (u32 p.rooms * 10)) 100

/-- The room-placement phase of `generate`, from a fresh all-wall grid. -/
def genPlace (p : GeneratorParams) (rng : Rng) : Option PlaceState :=
  placeRooms (genWidth p) (genHeight p) (toI32 (genWidth p)) (toI32 (genHeight p))
    (toI32 (genMinRoom p)) (toI32 (genMaxRoom p))
    (p.enable_elevation && p.mode = .Marble) p.max_elevation
    (genAttempts p) (u32 p.rooms)
    { grid := fun _ _ => false, rooms := [], rng := rng, attemptsUsed := 0 }

/-- Rooms sorted by centre x (`rooms.sort_by_key(|r| r.center().0)`, a stable
merge sort). -/
def genSorted (st : PlaceState) : List Room :=
  st.rooms.mergeSort (fun a b => a.center.1 ≤ b.center.1)

/-- The mode-dependent corridor-carving pass of `generate`. -/
def genCarve (p : GeneratorParams) (st : PlaceState) : GridF × Rng :=
  match p.mode with
  | .Classic =>
    carveClassicTunnels (genWidth p) (genHeight p) (genSorted st) st.grid st.rng
  | .Marble =>
    carveMarbleTunnels (genWidth p) (genHeight p)
      (toI32 (Nat.max (u32 p.channel_width) 1)) (toI32 (u32 p.corner_radius))
      (genSorted st) st.grid st.rng
  | .Wfc => (st.grid, st.rng)

/-- The marble-tile postprocessing of `generate` (`None` when obstacle
placement panics; `Some none` outside marble mode). -/
def genMarble (p : GeneratorParams) (grid : GridF) (rng : Rng)
    (rooms : List Room) : Option (Option (List (List MarbleTile))) :=
  if p.mode = .Marble then
    let em :=
      if p.enable_elevation then
        create_corridor_elevation_map (genWidth p) (genHeight p) grid rooms
      else fun _ _ => 0
    let mg := grid_to_marble_tiles (genWidth p) (genHeight p) grid p.enable_elevation em
    if p.enable_obstacles then
      (place_obstacles_in_rooms (genWidth p) (genHeight p) mg rooms rng
          p.obstacle_density).map
        (fun s => some (renderMarble (genWidth p) (genHeight p) s.1))
    else some (some (renderMarble (genWidth p) (genHeight p) mg))
  else some none

/-- Assembly of the final `Level` after room placement. -/
def assembleLevel (p : GeneratorParams) (seed : Nat) (st : PlaceState) :
    Option Level :=
  match genMarble p (genCarve p st).1 (genCarve p st).2 (genSorted st) with
  | none => none
  | some marble_tiles =>
    some { width := genWidth p, height := genHeight p, seed := seed,
           rooms := genSorted st,
           tiles := renderTiles (genWidth p) (genHeight p) (genCarve p st).1,
           marble_tiles := marble_tiles }

/-- `generate` for a resolved seed.  `src seed` is the deterministic value
stream of `StdRng::seed_from_u64(seed)`.  `none` models a Rust panic. -/
def generateSeeded (p : GeneratorParams) (src : Nat → Nat → Nat) (seed : Nat) :
    Option Level :=
  if p.mode = .Wfc then
    some { width := genWidth p, height := genHeight p, seed := seed, rooms := [],
           tiles := generate_wfc_tilemap (genWidth p) (genHeight p)
             { vals := src seed, idx := 0 },
           marble_tiles := none }
  else
    match genPlace p { vals := src seed, idx := 0 } with
    | none => none
    | some st => assembleLevel p seed st

/-- `generate`: resolve the seed (given seed, or the thread-RNG `entropy`
draw) and run the seeded generator. -/
def generate (p : GeneratorParams) (src : Nat → Nat → Nat) (entropy : Nat) :
    Option Level :=
  generateSeeded p src (p.seed.getD entropy)

/-! ### Spec-side definitions (refinement comparisons)

These definitions follow the wording of the specification, for comparison
against the source-derived definitions above. -/

/-- The base-classification mapping as the spec states it: `TJunction` rotation
is the index of the missing direction (`North = 0, East = 1, South = 2, West = 3`). -/
def specBaseClassify (n s e w : Bool) : TileType × Nat :=
  let count := ([n, s, e, w].filter (fun b => b)).length
  if count ≤ 1 then (.OpenPlatform, 0)
  else if count = 2 then
    if n && s then (.Straight, 0)
    else if e && w then (.Straight, 1)
    else if n && e then (.Curve90, 0)
    else if e && s then (.Curve90, 1)
    else if s && w then (.Curve90, 2)
    else (.Curve90, 3)
  else if count = 3 then
    (.TJunction, if !n then 0 else if !e then 1 else if !s then 2 else 3)
  else (.CrossJunction, 0)

/-- The base-classification mapping with the amended `TJunction` rotation rule:
the rotation is the index of the direction opposite the missing one,
`(missing + 2) % 4`. -/
def specBaseClassifyAmended (n s e w : Bool) : TileType × Nat :=
  let count := ([n, s, e, w].filter (fun b => b)).length
  if count ≤ 1 then (.OpenPlatform, 0)
  else if count = 2 then
    if n && s then (.Straight, 0)
    else if e && w then (.Straight, 1)
    else if n && e then (.Curve90, 0)
    else if e && s then (.Curve90, 1)
    else if s && w then (.Curve90, 2)
    else (.Curve90, 3)
  else if count = 3 then
    (.TJunction,
      ((if !n then 0 else if !e then 1 else if !s then 2 else 3) + 2) % 4)
  else (.CrossJunction, 0)

/-- Concrete 3×3 grid whose centre floor cell has floor to the north, east and
west but not the south (used to refute the spec's `TJunction` rotation rule). -/
def tGrid : GridF := fun x y =>
  (x = 1 ∧ y = 1) ∨ (x = 1 ∧ y = 0) ∨ (x = 2 ∧ y = 1) ∨ (x = 0 ∧ y = 1)

/-- Statement-side description of the quadrant bounding box scanned by
`carve_quarter_disk`. -/
def quadBoxP (quad : Quadrant) (outer dx dy : Int) : Prop :=
  match quad with
  | .Down => 0 ≤ dy ∧ dy ≤ outer ∧ -outer ≤ dx ∧ dx ≤ outer
  | .Up => -outer ≤ dy ∧ dy ≤ 0 ∧ -outer ≤ dx ∧ dx ≤ outer
  | .Right => 0 ≤ dx ∧ dx ≤ outer ∧ -outer ≤ dy ∧ dy ≤ outer
  | .Left => -outer ≤ dx ∧ dx ≤ 0 ∧ -outer ≤ dy ∧ dy ≤ outer

/-- Statement-side: `(x, y)` lies in the interior sampling region of some room
of `rooms` with area at least 30, within the grid bounds. -/
def inBigInterior (W H : Nat) (rooms : List Room) (x y : Int) : Prop :=
  ∃ room ∈ rooms, 30 ≤ room.w * room.h ∧
    room.x + 1 ≤ x ∧ x < room.x + room.w - 1 ∧
    room.y + 1 ≤ y ∧ y < room.y + room.h - 1 ∧
    0 ≤ y ∧ y < (H : Int) ∧ 0 ≤ x ∧ x < (W : Int)

/-- Statement-side: how a marble grid may evolve under obstacle placement —
each cell is unchanged, or was a passable non-obstacle cell inside a large
room's interior and is now an `Obstacle` preserving its elevation. -/
def ObstEvolves (W H : Nat) (rooms : List Room) (mg mg' : MGrid) : Prop :=
  ∀ x y : Int,
    mg' x y = mg x y ∨
      (inBigInterior W H rooms x y ∧
        (mg x y).tile_type.is_passable = true ∧
        (mg x y).tile_type ≠ .Obstacle ∧
        mg' x y = MarbleTile.with_params .Obstacle (mg x y).elevation 0 false)

/-- Statement-side: the character of `tiles` at integer coordinates
(out-of-range reads as wall). -/
def tileAtXY (tiles : List (List Char)) (x y : Int) : Char :=
  if 0 ≤ x ∧ 0 ≤ y then (tiles.getD y.toNat []).getD x.toNat '#' else '#'

/-- Statement-side: a property of the produced `Level`, vacuous when
generation aborted. -/
def OptLevelProp (o : Option Level) (P : Level → Prop) : Prop :=
  match o with
  | none => True
  | some lvl => P lvl

/-- Statement-side: a property of the produced `Level` that also asserts
generation succeeded. -/
def OptLevelHolds (o : Option Level) (P : Level → Prop) : Prop :=
  match o with
  | none => False
  | some lvl => P lvl

/-- The invariant maintained by the placement loop: placed rooms are inside
the map with a 1-tile border, pairwise margin-disjoint, and the grid's floor
cells are exactly the cells of the placed rooms. -/
def PlaceInv (W H : Nat) (st : PlaceState) : Prop :=
  (∀ r ∈ st.rooms,
      1 ≤ r.x ∧ r.x + r.w ≤ toI32 W - 2 ∧ 1 ≤ r.y ∧ r.y + r.h ≤ toI32 H - 2) ∧
  st.rooms.Pairwise (fun a b => intersects_with_margin a b 1 = false) ∧
  (∀ x y : Int, st.grid x y = true ↔
      ∃ r ∈ st.rooms, (r.x ≤ x ∧ x < r.x + r.w ∧ r.y ≤ y ∧ y < r.y + r.h) ∧
        0 ≤ y ∧ y < (H : Int) ∧ 0 ≤ x ∧ x < (W : Int))

/-- Bitmask inclusion: every set bit of `a` is set in `b`. -/
def SubM (a b : Nat) : Prop := ∀ t : Nat, a.testBit t = true → b.testBit t = true

/-- The arc-consistency invariant of the WFC propagation worklist: for every
in-grid cell `i` with a neighbour `n` in direction `dir`, either `i` is still
queued for processing, or `i`'s domain is untouched since initialisation, or
`n`'s domain is already narrowed to the tiles allowed by `i`'s domain. -/
def WInv (W H : Nat) (doms : Nat → Nat) (queue : List Nat) : Prop :=
  ∀ i dir n : Nat, dir < 4 → i < W * H →
    neighborIdx W H (i % W) (i / W) dir = some n →
    i ∈ queue ∨ doms i = initDomains W H i ∨
      SubM (doms n) (allowedFrom (doms i) dir)

/-- Statement-side: the character of a WFC tile grid at cell `(x, y)`. -/
def wfcCharAt (tiles : List (List Char)) (x y : Nat) : Char :=
  (tiles.getD y []).getD x ' '

/-- Statement-side: the edge flags of a tileset character (blank for
characters outside the tileset). -/
def charEdge (c : Char) (dir : Nat) : Bool :=
  ((wfc_tileset.find? (fun t => t.ch = c)).getD
    { ch := ' ', e0 := false, e1 := false, e2 := false, e3 := false }).edge dir

/-- Statement-side: the WFC adjacency-validity property of a tile grid —
every cell holds a tileset character; wherever a neighbour exists the two
facing edges agree, and every edge facing off-grid is absent. -/
def WfcValid (W H : Nat) (tiles : List (List Char)) : Prop :=
  ∀ x y : Nat, x < W → y < H →
    wfcCharAt tiles x y ∈ wfc_tileset.map WfcTile.ch ∧
    ∀ dir : Nat, dir < 4 →
      match neighborIdx W H x y dir with
      | some n => charEdge (wfcCharAt tiles x y) dir =
          charEdge (wfcCharAt tiles (n % W) (n / W)) (oppDir dir)
      | none => charEdge (wfcCharAt tiles x y) dir = false

/-- Statement-side: 4-adjacency of integer grid cells. -/
def Adjacent (p q : Int × Int) : Prop :=
  (p.1 = q.1 ∧ (q.2 = p.2 + 1 ∨ p.2 = q.2 + 1)) ∨
  (p.2 = q.2 ∧ (q.1 = p.1 + 1 ∨ p.1 = q.1 + 1))

/-- `x` lies between `a` and `b` (in either order). -/
def Btw (a b x : Int) : Prop := (a ≤ x ∧ x ≤ b) ∨ (b ≤ x ∧ x ≤ a)

/-- Statement-side: one 4-directional flood-fill move between two floor cells. -/
def FStep (fl : Int × Int → Prop) (p q : Int × Int) : Prop :=
  Adjacent p q ∧ fl p ∧ fl q

/-- Statement-side: reachability by 4-directional moves over floor cells. -/
def FReach (fl : Int × Int → Prop) : Int × Int → Int × Int → Prop :=
  Relation.ReflTransGen (FStep fl)

/-- Statement-side: the cell is a floor tile (`'.'`) of the rendered grid. -/
def isFloorTile (tiles : List (List Char)) (c : Int × Int) : Prop :=
  tileAtXY tiles c.1 c.2 = '.'

/-- Statement-side: the floor tiles form a single 4-connected component. -/
def TilesConnected (tiles : List (List Char)) : Prop :=
  ∀ p q : Int × Int, isFloorTile tiles p → isFloorTile tiles q →
    FReach (fun c => isFloorTile tiles c) p q

/-- Statement-side: the cell is an in-bounds floor cell of the working grid. -/
def gFloor (W H : Nat) (g : GridF) (c : Int × Int) : Prop :=
  0 ≤ c.1 ∧ c.1 < (W : Int) ∧ 0 ≤ c.2 ∧ c.2 < (H : Int) ∧ g c.1 c.2 = true

/-- Concrete marble-mode parameters used to refute the connectivity claim:
two 4×4 rooms on a 20×14 map, `channel_width = 1`, `corner_radius = 5`. -/
def c2Params : GeneratorParams :=
  { width := 20, height := 14, rooms := 2, min_room := 4, max_room := 5,
    seed := some 3, mode := .Marble, channel_width := 1, corner_radius := 5,
    enable_elevation := false, max_elevation := 2, enable_obstacles := false,
    obstacle_density := 3/10 }

/-- Concrete value stream used to refute the connectivity claim: it places the
rooms at `(1,1)` and `(11,1)` and picks the horizontal-first orientation. -/
def c2Src : Nat → Nat → Nat := fun _ i => [0, 0, 0, 0, 0, 0, 10, 0, 1].getD i 0

/-- The first room placed by `c2Src` under `c2Params`. -/
def c2RoomA : Room := { x := 1, y := 1, w := 4, h := 4, elevation := none }

/-- The second room placed by `c2Src` under `c2Params`. -/
def c2RoomB : Room := { x := 11, y := 1, w := 4, h := 4, elevation := none }

/-- The placement state reached by `genPlace c2Params` on the `c2Src` stream:
both rooms placed in two attempts, eight values drawn. -/
def c2St : PlaceState :=
  { grid := carve_room 20 14 (carve_room 20 14 (fun _ _ => false) c2RoomA) c2RoomB,
    rooms := [c2RoomA, c2RoomB],
    rng := { vals := c2Src 3, idx := 8 },
    attemptsUsed := 2 }

/-- Concrete parameters used to witness the room-placement theorem. -/
def c5Params : GeneratorParams :=
  { GeneratorParams.default with rooms := 0, seed := some 7 }

/-- The all-zero value stream, used as a concrete RNG in witnesses. -/
def zeroRng : Rng := { vals := fun _ => 0, idx := 0 }

/-- The initial placement state on a fresh all-wall grid. -/
def initPlaceState (rng : Rng) : PlaceState :=
  { grid := fun _ _ => false, rooms := [], rng := rng, attemptsUsed := 0 }

/-! ### Theorems -/

theorem Direction.opposite_opposite (d : Direction) : d.opposite.opposite = d := by
  cases d <;> rfl

theorem mem_intRange {z a b : Int} : z ∈ intRange a b ↔ a ≤ z ∧ z < b := by
  simp only [intRange, List.mem_map, List.mem_range]
  constructor
  · rintro ⟨k, hk, rfl⟩
    omega
  · rintro ⟨h1, h2⟩
    exact ⟨(z - a).toNat, by omega, by omega⟩

theorem intRange_nil {a b : Int} (h : b ≤ a) : intRange a b = [] := by
  unfold intRange
  have : (b - a).toNat = 0 := by omega
  rw [this]
  rfl

theorem set_floor_eq {W H : Nat} {g : GridF} {x y a b : Int} :
    set_floor W H g x y a b = true ↔
      g a b = true ∨
        (a = x ∧ b = y ∧ 0 ≤ b ∧ b < (H : Int) ∧ 0 ≤ a ∧ a < (W : Int)) := by
  unfold set_floor
  by_cases hb : 0 ≤ y ∧ y < (H : Int) ∧ 0 ≤ x ∧ x < (W : Int)
  · rw [if_pos hb]
    by_cases he : a = x ∧ b = y
    · rcases he with ⟨rfl, rfl⟩
      simp
      tauto
    · simp only [if_neg he]
      tauto
  · rw [if_neg hb]
    constructor
    · exact fun h => Or.inl h
    · rintro (h | ⟨rfl, rfl, h⟩)
      · exact h
      · exact absurd h hb

theorem writeCells_eq {W H : Nat} (L : List (Int × Int)) {g : GridF} {a b : Int} :
    writeCells W H L g a b = true ↔
      g a b = true ∨
        ((a, b) ∈ L ∧ 0 ≤ b ∧ b < (H : Int) ∧ 0 ≤ a ∧ a < (W : Int)) := by
  induction L generalizing g with
  | nil => simp [writeCells]
  | cons c L ih =>
    show writeCells W H L (set_floor W H g c.1 c.2) a b = true ↔ _
    rw [ih, set_floor_eq]
    have hc : ((a, b) = c) ↔ (a = c.1 ∧ b = c.2) := by
      rcases c with ⟨c1, c2⟩
      simp
    constructor
    · rintro ((h | ⟨h1, h2, hb⟩) | ⟨hm, hb⟩)
      · exact Or.inl h
      · exact Or.inr ⟨List.mem_cons.mpr (Or.inl (hc.mpr ⟨h1, h2⟩)), hb⟩
      · exact Or.inr ⟨List.mem_cons_of_mem _ hm, hb⟩
    · rintro (h | ⟨hm, hb⟩)
      · exact Or.inl (Or.inl h)
      · rcases List.mem_cons.mp hm with h | h
        · exact Or.inl (Or.inr ⟨(hc.mp h).1, (hc.mp h).2, hb⟩)
        · exact Or.inr ⟨h, hb⟩

theorem writeCells_mono {W H : Nat} (L : List (Int × Int)) {g : GridF} {a b : Int}
    (h : g a b = true) : writeCells W H L g a b = true :=
  (writeCells_eq L).mpr (Or.inl h)

theorem mem_wideHCells {a b x1 x2 y wT : Int} :
    (a, b) ∈ wideHCells x1 x2 y wT ↔
      min x1 x2 ≤ a ∧ a ≤ max x1 x2 ∧
      y - Int.tdiv wT 2 ≤ b ∧ b ≤ y + Int.tdiv wT 2 := by
  unfold wideHCells
  simp only [List.mem_flatMap, List.mem_map, mem_intRange]
  constructor
  · rintro ⟨x, hx, dy, hdy, h⟩
    obtain ⟨rfl, rfl⟩ : x = a ∧ y + dy = b := by
      exact ⟨congrArg Prod.fst h, congrArg Prod.snd h⟩
    constructor
    · rcases le_total x1 x2 with hle | hle <;> simp [min_def, max_def, hle] at hx ⊢ <;> omega
    constructor
    · rcases le_total x1 x2 with hle | hle <;> simp [min_def, max_def, hle] at hx ⊢ <;> omega
    · omega
  · rintro ⟨h1, h2, h3, h4⟩
    refine ⟨a, ?_, b - y, by omega, by simp⟩
    rcases le_total x1 x2 with hle | hle <;> simp [min_def, max_def, hle] at h1 h2 ⊢ <;> omega

theorem mem_wideVCells {a b y1 y2 x wT : Int} :
    (a, b) ∈ wideVCells y1 y2 x wT ↔
      min y1 y2 ≤ b ∧ b ≤ max y1 y2 ∧
      x - Int.tdiv wT 2 ≤ a ∧ a ≤ x + Int.tdiv wT 2 := by
  unfold wideVCells
  simp only [List.mem_flatMap, List.mem_map, mem_intRange]
  constructor
  · rintro ⟨yy, hy, dx, hdx, h⟩
    obtain ⟨rfl, rfl⟩ : x + dx = a ∧ yy = b := by
      exact ⟨congrArg Prod.fst h, congrArg Prod.snd h⟩
    refine ⟨?_, ?_, by omega, by omega⟩
    · rcases le_total y1 y2 with hle | hle <;> simp [min_def, max_def, hle] at hy ⊢ <;> omega
    · rcases le_total y1 y2 with hle | hle <;> simp [min_def, max_def, hle] at hy ⊢ <;> omega
  · rintro ⟨h1, h2, h3, h4⟩
    refine ⟨b, ?_, a - x, by omega, by simp⟩
    rcases le_total y1 y2 with hle | hle <;> simp [min_def, max_def, hle] at h1 h2 ⊢ <;> omega

theorem mem_quadOffsets {dx dy outer : Int} {quad : Quadrant} :
    (dx, dy) ∈ quadOffsets quad outer ↔ quadBoxP quad outer dx dy := by
  cases quad <;>
    · unfold quadOffsets quadBoxP
      simp only [List.mem_flatMap, List.mem_map, mem_intRange]
      constructor
      · rintro ⟨u, hu, v, hv, h⟩
        obtain ⟨rfl, rfl⟩ : _ ∧ _ := ⟨congrArg Prod.fst h, congrArg Prod.snd h⟩
        omega
      · rintro ⟨h1, h2, h3, h4⟩
        first
        | exact ⟨dy, by omega, dx, by omega, by simp⟩
        | exact ⟨dx, by omega, dy, by omega, by simp⟩

theorem mem_quarterDiskCells {a b cx cy radius wT : Int} {quad : Quadrant} :
    (a, b) ∈ quarterDiskCells cx cy radius wT quad ↔
      (quadBoxP quad (radius + Int.tdiv wT 2) (a - cx) (b - cy) ∧
        (a - cx) * (a - cx) + (b - cy) * (b - cy) ≤
          (radius + Int.tdiv wT 2) * (radius + Int.tdiv wT 2) ∧
        (max (radius - Int.tdiv wT 2) 0) * (max (radius - Int.tdiv wT 2) 0) ≤
          (a - cx) * (a - cx) + (b - cy) * (b - cy)) := by
  unfold quarterDiskCells
  simp only [List.mem_map, List.mem_filter]
  constructor
  · rintro ⟨⟨p1, p2⟩, ⟨hm, hcond⟩, h⟩
    have h1 : cx + p1 = a := congrArg Prod.fst h
    have h2 : cy + p2 = b := congrArg Prod.snd h
    have e1 : p1 = a - cx := by omega
    have e2 : p2 = b - cy := by omega
    subst e1
    subst e2
    rw [mem_quadOffsets] at hm
    simp only [decide_eq_true_eq] at hcond
    exact ⟨hm, hcond.1, hcond.2⟩
  · rintro ⟨hbox, hout, hin⟩
    refine ⟨(a - cx, b - cy), ⟨mem_quadOffsets.mpr hbox, ?_⟩, by simp⟩
    simp only [decide_eq_true_eq]
    exact ⟨hout, hin⟩

/-- C7 (amended): each L-turn is rounded by a quarter annulus whose **outer**
radius is `R + channel_width/2` and whose **inner** radius is
`R − channel_width/2`, where `R = max(corner_radius, channel_width/2)`
(integer division); the carved cells are exactly those of the selected
quadrant's bounding box whose squared centre distance lies between
`inner²` and `outer²` (plus the straight channel band, clipped to bounds). -/
theorem carve_rounded_turn_floor (W H : Nat) (g : GridF)
    (x1 x2 y wT radius : Int) (turn_down : Bool) (a b : Int)
    (hR : 0 < max radius (Int.tdiv wT 2)) :
    (carve_wide_horizontal_with_rounded_turn W H g x1 x2 y wT radius turn_down) a b = true ↔
      g a b = true ∨
        (min x1 x2 ≤ a ∧ a ≤ max x1 x2 ∧
          y - Int.tdiv wT 2 ≤ b ∧ b ≤ y + Int.tdiv wT 2 ∧
          0 ≤ b ∧ b < (H : Int) ∧ 0 ≤ a ∧ a < (W : Int)) ∨
        (quadBoxP (if turn_down then Quadrant.Down else Quadrant.Up)
            (max radius (Int.tdiv wT 2) + Int.tdiv wT 2) (a - x2) (b - y) ∧
          (a - x2) * (a - x2) + (b - y) * (b - y) ≤
            (max radius (Int.tdiv wT 2) + Int.tdiv wT 2) *
              (max radius (Int.tdiv wT 2) + Int.tdiv wT 2) ∧
          (max radius (Int.tdiv wT 2) - Int.tdiv wT 2) *
              (max radius (Int.tdiv wT 2) - Int.tdiv wT 2) ≤
            (a - x2) * (a - x2) + (b - y) * (b - y) ∧
          0 ≤ b ∧ b < (H : Int) ∧ 0 ≤ a ∧ a < (W : Int)) := by
  unfold carve_wide_horizontal_with_rounded_turn carve_quarter_disk
    carve_wide_horizontal
  rw [if_neg (by omega)]
  rw [writeCells_eq, writeCells_eq]
  have hclamp : max (max radius (Int.tdiv wT 2) - Int.tdiv wT 2) 0 =
      max radius (Int.tdiv wT 2) - Int.tdiv wT 2 := by
    have := le_max_right radius (Int.tdiv wT 2)
    omega
  constructor
  · rintro ((h | ⟨hm, hb⟩) | ⟨hm, hb⟩)
    · exact Or.inl h
    · exact Or.inr (Or.inl (by rw [mem_wideHCells] at hm; exact ⟨hm.1, hm.2.1, hm.2.2.1, hm.2.2.2, hb⟩))
    · rw [mem_quarterDiskCells, hclamp] at hm
      exact Or.inr (Or.inr ⟨hm.1, hm.2.1, hm.2.2, hb⟩)
  · rintro (h | ⟨h1, h2, h3, h4, hb⟩ | ⟨hbox, hout, hin, hb⟩)
    · exact Or.inl (Or.inl h)
    · exact Or.inl (Or.inr ⟨mem_wideHCells.mpr ⟨h1, h2, h3, h4⟩, hb⟩)
    · exact Or.inr ⟨mem_quarterDiskCells.mpr ⟨hbox, hout, by rw [hclamp]; exact hin⟩, hb⟩

/-- Witness for the amended C7 theorem at a concrete corner carve. -/
theorem carve_rounded_turn_floor_witness :
    (0 : Int) < max 2 (Int.tdiv 2 2) ∧
    ((carve_wide_horizontal_with_rounded_turn 8 8 (fun _ _ => false) 2 2 2 2 2 true) 5 2 = true ↔
      (fun _ _ => false : GridF) 5 2 = true ∨
        (min 2 2 ≤ (5 : Int) ∧ (5 : Int) ≤ max 2 2 ∧
          2 - Int.tdiv 2 2 ≤ (2 : Int) ∧ (2 : Int) ≤ 2 + Int.tdiv 2 2 ∧
          (0 : Int) ≤ 2 ∧ (2 : Int) < (8 : Nat) ∧ (0 : Int) ≤ 5 ∧ (5 : Int) < (8 : Nat)) ∨
        (quadBoxP Quadrant.Down (max 2 (Int.tdiv 2 2) + Int.tdiv 2 2) (5 - 2) (2 - 2) ∧
          (5 - 2) * (5 - 2) + (2 - 2) * (2 - 2) ≤
            (max 2 (Int.tdiv 2 2) + Int.tdiv 2 2) * (max 2 (Int.tdiv 2 2) + Int.tdiv 2 2) ∧
          (max 2 (Int.tdiv 2 2) - Int.tdiv 2 2) * (max 2 (Int.tdiv 2 2) - Int.tdiv 2 2) ≤
            (5 - 2) * (5 - 2) + (2 - 2) * (2 - 2) ∧
          (0 : Int) ≤ 2 ∧ (2 : Int) < (8 : Nat) ∧ (0 : Int) ≤ 5 ∧ (5 : Int) < (8 : Nat))) := by
  constructor
  · decide
  · have h := carve_rounded_turn_floor 8 8 (fun _ _ => false) 2 2 2 2 2 true 5 2 (by decide)
    simpa using h

theorem randRangeIExcl_some {lo hi v : Int} {r r' : Rng}
    (h : randRangeIExcl lo hi r = some (v, r')) :
    lo ≤ v ∧ v < hi ∧ r' = { r with idx := r.idx + 1 } := by
  unfold randRangeIExcl Rng.next at h
  by_cases hlt : lo < hi
  · rw [if_pos hlt] at h
    simp only [Option.some.injEq, Prod.mk.injEq] at h
    obtain ⟨hv, hr⟩ := h
    have hmod : (r.vals r.idx) % (hi - lo).toNat < (hi - lo).toNat :=
      Nat.mod_lt _ (by omega)
    refine ⟨by omega, by omega, hr.symm⟩
  · rw [if_neg hlt] at h
    exact absurd h (by simp)

theorem randRangeI_some {lo hi v : Int} {r r' : Rng}
    (h : randRangeI lo hi r = some (v, r')) :
    lo ≤ v ∧ v ≤ hi ∧ r' = { r with idx := r.idx + 1 } := by
  unfold randRangeI Rng.next at h
  by_cases hle : lo ≤ hi
  · rw [if_pos hle] at h
    simp only [Option.some.injEq, Prod.mk.injEq] at h
    obtain ⟨hv, hr⟩ := h
    have hmod : (r.vals r.idx) % (hi - lo + 1).toNat < (hi - lo + 1).toNat :=
      Nat.mod_lt _ (by omega)
    refine ⟨by omega, by omega, hr.symm⟩
  · rw [if_neg hle] at h
    exact absurd h (by simp)

theorem randRangeI_eq_some {lo hi : Int} {r : Rng} (hle : lo ≤ hi) :
    randRangeI lo hi r =
      some (lo + ((r.vals r.idx) % (hi - lo + 1).toNat : Nat),
        { r with idx := r.idx + 1 }) := by
  unfold randRangeI Rng.next
  rw [if_pos hle]

theorem mem_roomCells {x y : Int} {r : Room} :
    (x, y) ∈ roomCells r ↔
      r.x ≤ x ∧ x < r.x + r.w ∧ r.y ≤ y ∧ y < r.y + r.h := by
  unfold roomCells
  simp only [List.mem_flatMap, List.mem_map, mem_intRange]
  constructor
  · rintro ⟨b, hb, a, ha, h⟩
    have h1 : a = x := congrArg Prod.fst h
    have h2 : b = y := congrArg Prod.snd h
    subst h1
    subst h2
    exact ⟨ha.1, ha.2, hb.1, hb.2⟩
  · rintro ⟨h1, h2, h3, h4⟩
    exact ⟨y, ⟨h3, h4⟩, x, ⟨h1, h2⟩, rfl⟩

theorem getD_map_range {α : Type} (f : Nat → α) (d : α) (n k : Nat) :
    (((List.range n).map f).getD k d) = if k < n then f k else d := by
  by_cases h : k < n
  · rw [List.getD_eq_getElem?_getD, List.getElem?_map, List.getElem?_range h]
    simp [h]
  · rw [List.getD_eq_getElem?_getD, List.getElem?_map,
      List.getElem?_eq_none (by simpa using by omega)]
    simp [h]

theorem tileAtXY_renderTiles {W H : Nat} {g : GridF} {x y : Int} :
    tileAtXY (renderTiles W H g) x y = '.' ↔
      0 ≤ x ∧ x < (W : Int) ∧ 0 ≤ y ∧ y < (H : Int) ∧ g x y = true := by
  unfold tileAtXY renderTiles
  by_cases hxy : 0 ≤ x ∧ 0 ≤ y
  · rw [if_pos hxy, getD_map_range]
    by_cases hyH : y.toNat < H
    · rw [if_pos hyH, getD_map_range]
      by_cases hxW : x.toNat < W
      · rw [if_pos hxW]
        have hx : ((x.toNat : Nat) : Int) = x := by omega
        have hy : ((y.toNat : Nat) : Int) = y := by omega
        rw [hx, hy]
        by_cases hg : g x y = true
        · rw [if_pos hg]
          constructor
          · intro _
            exact ⟨hxy.1, by omega, hxy.2, by omega, hg⟩
          · intro _
            rfl
        · rw [if_neg hg]
          constructor
          · intro hc
            exact absurd hc (by decide)
          · rintro ⟨-, -, -, -, hc⟩
            exact absurd hc hg
      · rw [if_neg hxW]
        constructor
        · intro hc
          exact absurd hc (by decide)
        · rintro ⟨-, h2, -, -, -⟩
          omega
    · rw [if_neg hyH]
      have hn : (([] : List Char).getD x.toNat '#') = '#' := by
        simp [List.getD]
      rw [hn]
      constructor
      · intro hc
        exact absurd hc (by decide)
      · rintro ⟨-, -, -, h4, -⟩
        omega
  · rw [if_neg hxy]
    constructor
    · intro hc
      exact absurd hc (by decide)
    · rintro ⟨h1, -, h3, -⟩
      exact absurd ⟨h1, h3⟩ hxy

theorem carve_quarter_disk_mono {W H : Nat} {g : GridF} {cx cy radius wT : Int}
    {quad : Quadrant} {x y : Int} (h : g x y = true) :
    carve_quarter_disk W H g cx cy radius wT quad x y = true := by
  unfold carve_quarter_disk
  by_cases hr : radius ≤ 0
  · rwa [if_pos hr]
  · rw [if_neg hr]
    exact writeCells_mono _ h

theorem carveClassicTunnels_mono {W H : Nat} :
    ∀ (rooms : List Room) (g : GridF) (rng : Rng) (x y : Int),
      g x y = true → (carveClassicTunnels W H rooms g rng).1 x y = true := by
  intro rooms
  induction rooms with
  | nil =>
    intro g rng x y h
    exact h
  | cons a rest ih =>
    intro g rng x y h
    cases rest with
    | nil => exact h
    | cons b rest2 =>
      unfold carveClassicTunnels carve_vertical_tunnel carve_horizontal_tunnel
      apply ih
      split
      · exact writeCells_mono _ (writeCells_mono _ h)
      · exact writeCells_mono _ (writeCells_mono _ h)

theorem carveMarbleTunnels_mono {W H : Nat} {wT r : Int} :
    ∀ (rooms : List Room) (g : GridF) (rng : Rng) (x y : Int),
      g x y = true → (carveMarbleTunnels W H wT r rooms g rng).1 x y = true := by
  intro rooms
  induction rooms with
  | nil =>
    intro g rng x y h
    exact h
  | cons a rest ih =>
    intro g rng x y h
    cases rest with
    | nil => exact h
    | cons b rest2 =>
      unfold carveMarbleTunnels carve_wide_vertical carve_wide_horizontal
        carve_wide_horizontal_with_rounded_turn carve_wide_vertical_with_rounded_turn
      apply ih
      split
      · exact writeCells_mono _ (carve_quarter_disk_mono (writeCells_mono _ h))
      · exact writeCells_mono _ (carve_quarter_disk_mono (writeCells_mono _ h))

theorem toI32_le (n : Nat) : toI32 n ≤ (n : Int) := by
  unfold toI32
  have := Nat.mod_le n 4294967296
  by_cases h : n % 4294967296 < 2147483648
  · rw [if_pos h]
    omega
  · rw [if_neg h]
    omega

theorem placeAttempt_spec {W H : Nat} {mI xI : Int} {me : Bool} {mel : Int}
    {st st' : PlaceState}
    (h : placeAttempt W H (toI32 W) (toI32 H) mI xI me mel st = some st')
    (hinv : PlaceInv W H st) :
    PlaceInv W H st' ∧ st'.rooms.length ≤ st.rooms.length + 1 ∧
      st'.attemptsUsed = st.attemptsUsed + 1 := by
  unfold placeAttempt at h
  split at h
  · exact absurd h (by simp)
  next w rng₁ hw =>
    split at h
    · exact absurd h (by simp)
    next hgt rng₂ hh =>
      split at h
      · simp only [Option.some.injEq] at h
        subst h
        exact ⟨⟨hinv.1, hinv.2.1, hinv.2.2⟩, Nat.le_succ _, rfl⟩
      · split at h
        · exact absurd h (by simp)
        next x rng₃ hx =>
          split at h
          · exact absurd h (by simp)
          next y rng₄ hy =>
            split at h
            · exact absurd h (by simp)
            next helv rng₅ helveq =>
              obtain ⟨hx1, hx2, -⟩ := randRangeI_some hx
              obtain ⟨hy1, hy2, -⟩ := randRangeI_some hy
              set c : Room := { x := x, y := y, w := w, h := hgt, elevation := helv }
                with hc
              split at h
              · simp only [Option.some.injEq] at h
                subst h
                exact ⟨⟨hinv.1, hinv.2.1, hinv.2.2⟩, Nat.le_succ _, rfl⟩
              next hover =>
                simp only [Option.some.injEq] at h
                subst h
                refine ⟨⟨?_, ?_, ?_⟩, by simp, rfl⟩
                · intro r hr
                  rcases List.mem_append.mp hr with hr | hr
                  · exact hinv.1 r hr
                  · rcases List.mem_singleton.mp hr with rfl
                    refine ⟨hx1, ?_, hy1, ?_⟩
                    · simp only [hc]
                      omega
                    · simp only [hc]
                      omega
                · rw [List.pairwise_append]
                  refine ⟨hinv.2.1, List.pairwise_singleton _ _, ?_⟩
                  intro a ha b hb
                  rcases List.mem_singleton.mp hb with rfl
                  have hfalse : (st.rooms.any fun r => intersects_with_margin r c 1) = false := by
                    simpa using hover
                  have := List.any_eq_false.mp hfalse a ha
                  simpa using this
                · intro xx yy
                  show carve_room W H st.grid c xx yy = true ↔ _
                  unfold carve_room
                  rw [writeCells_eq, hinv.2.2 xx yy]
                  constructor
                  · rintro (⟨r, hr, hcond⟩ | ⟨hm, hb⟩)
                    · exact ⟨r, List.mem_append.mpr (Or.inl hr), hcond⟩
                    · refine ⟨c, List.mem_append.mpr (Or.inr (List.mem_singleton.mpr rfl)), ?_⟩
                      have := mem_roomCells.mp hm
                      exact ⟨this, hb⟩
                  · rintro ⟨r, hr, hcond, hb⟩
                    rcases List.mem_append.mp hr with hr | hr
                    · exact Or.inl ⟨r, hr, hcond, hb⟩
                    · rcases List.mem_singleton.mp hr with rfl
                      exact Or.inr ⟨mem_roomCells.mpr hcond, hb⟩

theorem placeRooms_props {W H : Nat} {mI xI : Int} {me : Bool} {mel : Int} :
    ∀ (fuel target : Nat) (st st' : PlaceState),
      placeRooms W H (toI32 W) (toI32 H) mI xI me mel fuel target st = some st' →
      PlaceInv W H st →
      PlaceInv W H st' ∧ st'.rooms.length ≤ max st.rooms.length target ∧
        st'.attemptsUsed ≤ st.attemptsUsed + fuel := by
  intro fuel
  induction fuel with
  | zero =>
    intro target st st' h hinv
    simp only [placeRooms, Option.some.injEq] at h
    subst h
    exact ⟨hinv, le_max_left _ _, by omega⟩
  | succ fuel ih =>
    intro target st st' h hinv
    unfold placeRooms at h
    split at h
    · simp only [Option.some.injEq] at h
      subst h
      exact ⟨hinv, le_max_left _ _, by omega⟩
    next hlt =>
      split at h
      · exact absurd h (by simp)
      next st₁ hatt =>
        obtain ⟨hinv₁, hlen₁, hatt₁⟩ := placeAttempt_spec hatt hinv
        obtain ⟨hinv', hlen', hatt'⟩ := ih target st₁ st' h hinv₁
        exact ⟨hinv', by omega, by omega⟩

theorem genPlace_props (p : GeneratorParams) (rng : Rng) (st' : PlaceState)
    (h : genPlace p rng = some st') :
    PlaceInv (genWidth p) (genHeight p) st' ∧ st'.rooms.length ≤ u32 p.rooms ∧
      st'.attemptsUsed ≤ genAttempts p := by
  unfold genPlace at h
  have hinv0 : PlaceInv (genWidth p) (genHeight p)
      { grid := fun _ _ => false, rooms := [], rng := rng, attemptsUsed := 0 } := by
    refine ⟨by simp, List.Pairwise.nil, ?_⟩
    intro x y
    simp
  obtain ⟨hinv, hlen, hatt⟩ := placeRooms_props _ _ _ _ h hinv0
  refine ⟨hinv, ?_, by simpa using hatt⟩
  simpa using hlen

theorem assembleLevel_some {p : GeneratorParams} {seed : Nat} {st : PlaceState}
    {lvl : Level} (h : assembleLevel p seed st = some lvl) :
    lvl.rooms = genSorted st ∧
      lvl.tiles = renderTiles (genWidth p) (genHeight p) (genCarve p st).1 := by
  unfold assembleLevel at h
  split at h
  · exact absurd h (by simp)
  · simp only [Option.some.injEq] at h
    subst h
    exact ⟨rfl, rfl⟩

theorem genCarve_mono (p : GeneratorParams) (st : PlaceState) (x y : Int)
    (h : st.grid x y = true) : (genCarve p st).1 x y = true := by
  unfold genCarve
  cases p.mode
  · exact carveClassicTunnels_mono _ _ _ x y h
  · exact carveMarbleTunnels_mono _ _ _ x y h
  · exact h

theorem intersects_with_margin_symm (a b : Room) :
    intersects_with_margin a b 1 = intersects_with_margin b a 1 := by
  rw [Bool.eq_iff_iff]
  unfold intersects_with_margin Room.intersects
  simp only [Bool.not_eq_eq_eq_not, Bool.not_true, Bool.or_eq_false_iff,
    decide_eq_false_iff_not, Bool.not_eq_true', Bool.or_eq_true, decide_eq_true_eq]
  omega

theorem toI32_eq_of_lt {n : Nat} (h : n < 2147483648) : toI32 n = (n : Int) := by
  unfold toI32
  have h2 : n % 4294967296 = n := Nat.mod_eq_of_lt (by omega)
  rw [h2, if_pos (by omega)]

theorem placeAttempt_total {W H : Nat} {mI xI mel : Int} {me : Bool}
    (hme : me = false) (hmx : mI ≤ xI) (st : PlaceState) :
    ∃ st', placeAttempt W H (toI32 W) (toI32 H) mI xI me mel st = some st' := by
  subst hme
  suffices hs : (placeAttempt W H (toI32 W) (toI32 H) mI xI false mel st).isSome = true by
    obtain ⟨st', h⟩ := Option.isSome_iff_exists.mp hs
    exact ⟨st', h⟩
  unfold placeAttempt
  split
  next hw =>
    rw [randRangeI_eq_some hmx] at hw
    exact absurd hw (by simp)
  next w rng₁ hw =>
    split
    next hh =>
      rw [randRangeI_eq_some hmx] at hh
      exact absurd hh (by simp)
    next hgt rng₂ hh =>
      split
      · rfl
      next hskip =>
        split
        next hx =>
          rw [randRangeI_eq_some (by omega)] at hx
          exact absurd hx (by simp)
        next x rng₃ hx =>
          split
          next hy =>
            rw [randRangeI_eq_some (by omega)] at hy
            exact absurd hy (by simp)
          next y rng₄ hy =>
            split
            next helv =>
              simp at helv
            next helv rng₅ heq =>
              split
              · rfl
              · rfl

theorem placeRooms_total {W H : Nat} {mI xI mel : Int} {me : Bool}
    (hme : me = false) (hmx : mI ≤ xI) :
    ∀ (fuel target : Nat) (st : PlaceState),
      ∃ st', placeRooms W H (toI32 W) (toI32 H) mI xI me mel fuel target st = some st' := by
  intro fuel
  induction fuel with
  | zero =>
    intro target st
    exact ⟨st, rfl⟩
  | succ fuel ih =>
    intro target st
    unfold placeRooms
    split
    · exact ⟨st, rfl⟩
    · obtain ⟨st₁, hst₁⟩ := placeAttempt_total hme hmx st
      rw [hst₁]
      exact ih target st₁

theorem ObstEvolves.refl (W H : Nat) (rooms : List Room) (mg : MGrid) :
    ObstEvolves W H rooms mg mg := fun _ _ => Or.inl rfl

theorem ObstEvolves.trans {W H : Nat} {rooms : List Room} {mg mg1 mg2 : MGrid}
    (h1 : ObstEvolves W H rooms mg mg1) (h2 : ObstEvolves W H rooms mg1 mg2) :
    ObstEvolves W H rooms mg mg2 := by
  intro x y
  rcases h2 x y with h | ⟨hin, hpass, hobs, heq⟩
  · rw [h]
    exact h1 x y
  · rcases h1 x y with h | ⟨hin', hpass', hobs', heq'⟩
    · rw [h] at hpass hobs heq
      exact Or.inr ⟨hin, hpass, hobs, heq⟩
    · exfalso
      rw [heq'] at hpass
      exact absurd hpass (by simp [MarbleTile.with_params, TileType.is_passable])

theorem tryPlaceObstacle_evolves {W H : Nat} {rooms : List Room} {room : Room}
    (hroom : room ∈ rooms) (harea : 30 ≤ room.w * room.h) :
    ∀ (fuel : Nat) (mg : MGrid) (rng : Rng) (mg' : MGrid) (rng' : Rng),
      tryPlaceObstacle W H room fuel mg rng = some (mg', rng') →
      ObstEvolves W H rooms mg mg' ∧ rng'.idx ≤ rng.idx + 2 * fuel := by
  intro fuel
  induction fuel with
  | zero =>
    intro mg rng mg' rng' h
    simp only [tryPlaceObstacle, Option.some.injEq, Prod.mk.injEq] at h
    obtain ⟨rfl, rfl⟩ := h
    exact ⟨ObstEvolves.refl W H rooms mg, by omega⟩
  | succ fuel ih =>
    intro mg rng mg' rng' h
    unfold tryPlaceObstacle at h
    cases hox : randRangeIExcl (room.x + 1) (room.x + room.w - 1) rng with
    | none => rw [hox] at h; exact absurd h (by simp)
    | some pox =>
      obtain ⟨ox, rng₁⟩ := pox
      rw [hox] at h
      simp only [Option.bind_eq_bind, Option.some_bind] at h
      cases hoy : randRangeIExcl (room.y + 1) (room.y + room.h - 1) rng₁ with
      | none => rw [hoy] at h; exact absurd h (by simp)
      | some poy =>
        obtain ⟨oy, rng₂⟩ := poy
        rw [hoy] at h
        simp only [Option.bind_eq_bind, Option.some_bind] at h
        obtain ⟨hox1, hox2, hoxr⟩ := randRangeIExcl_some hox
        obtain ⟨hoy1, hoy2, hoyr⟩ := randRangeIExcl_some hoy
        have hidx2 : rng₂.idx = rng.idx + 2 := by rw [hoyr, hoxr]
        by_cases hb : 0 ≤ oy ∧ oy < (H : Int) ∧ 0 ≤ ox ∧ ox < (W : Int)
        · rw [if_pos hb] at h
          by_cases hp : (mg ox oy).tile_type.is_passable = true ∧
              (mg ox oy).tile_type ≠ TileType.Obstacle
          · rw [if_pos hp] at h
            simp only [Option.some.injEq, Prod.mk.injEq] at h
            obtain ⟨rfl, rfl⟩ := h
            constructor
            · intro x y
              by_cases hxy : x = ox ∧ y = oy
              · obtain ⟨rfl, rfl⟩ := hxy
                refine Or.inr ⟨⟨room, hroom, harea, hox1, hox2, hoy1, hoy2,
                    hb.1, hb.2.1, hb.2.2.1, hb.2.2.2⟩, hp.1, hp.2, ?_⟩
                simp [updateM]
              · exact Or.inl (by simp [updateM, hxy])
            · omega
          · rw [if_neg hp] at h
            obtain ⟨he, hr⟩ := ih mg rng₂ mg' rng' h
            exact ⟨he, by omega⟩
        · rw [if_neg hb] at h
          obtain ⟨he, hr⟩ := ih mg rng₂ mg' rng' h
          exact ⟨he, by omega⟩

theorem placeObstaclesInRoom_evolves {W H : Nat} {rooms : List Room} {room : Room}
    (hroom : room ∈ rooms) (harea : 30 ≤ room.w * room.h) :
    ∀ (count : Nat) (mg : MGrid) (rng : Rng) (mg' : MGrid) (rng' : Rng),
      placeObstaclesInRoom W H room count mg rng = some (mg', rng') →
      ObstEvolves W H rooms mg mg' := by
  intro count
  induction count with
  | zero =>
    intro mg rng mg' rng' h
    simp only [placeObstaclesInRoom, Option.some.injEq, Prod.mk.injEq] at h
    obtain ⟨rfl, rfl⟩ := h
    exact ObstEvolves.refl W H rooms mg
  | succ count ih =>
    intro mg rng mg' rng' h
    unfold placeObstaclesInRoom at h
    cases htry : tryPlaceObstacle W H room 20 mg rng with
    | none => rw [htry] at h; exact absurd h (by simp)
    | some p =>
      rw [htry] at h
      obtain ⟨mg₁, rng₁⟩ := p
      simp only [Option.bind_eq_bind, Option.some_bind] at h
      exact ObstEvolves.trans
        ((tryPlaceObstacle_evolves hroom harea 20 mg rng mg₁ rng₁ htry).1)
        (ih mg₁ rng₁ mg' rng' h)

theorem place_obstacles_foldl_evolves {W H : Nat} {rooms : List Room} {density : ℚ} :
    ∀ (rs : List Room), (∀ r ∈ rs, r ∈ rooms) →
      ∀ (mg : MGrid) (rng : Rng) (mg' : MGrid) (rng' : Rng),
        (rs.foldlM (fun st room =>
          if room.w * room.h < 30 then some st
          else placeObstaclesInRoom W H room (numObstacles room density).toNat st.1 st.2)
          (mg, rng)) = some (mg', rng') →
        ObstEvolves W H rooms mg mg' := by
  intro rs
  induction rs with
  | nil =>
    intro _ mg rng mg' rng' h
    simp only [List.foldlM_nil, pure, Option.some.injEq, Prod.mk.injEq] at h
    obtain ⟨rfl, rfl⟩ := h
    exact ObstEvolves.refl W H rooms mg
  | cons r rs ih =>
    intro hsub mg rng mg' rng' h
    rw [List.foldlM_cons] at h
    by_cases hsmall : r.w * r.h < 30
    · rw [if_pos hsmall] at h
      simp only [Option.bind_eq_bind, Option.some_bind] at h
      exact ih (fun r' hr' => hsub r' (List.mem_cons_of_mem _ hr')) mg rng mg' rng' h
    · rw [if_neg hsmall] at h
      cases hpl : placeObstaclesInRoom W H r (numObstacles r density).toNat mg rng with
      | none => rw [hpl] at h; exact absurd h (by simp)
      | some p =>
        rw [hpl] at h
        obtain ⟨mg₁, rng₁⟩ := p
        simp only [Option.bind_eq_bind, Option.some_bind] at h
        exact ObstEvolves.trans
          (placeObstaclesInRoom_evolves (hsub r (List.mem_cons_self r rs)) (by omega)
            (numObstacles r density).toNat mg rng mg₁ rng₁ hpl)
          (ih (fun r' hr' => hsub r' (List.mem_cons_of_mem _ hr')) mg₁ rng₁ mg' rng' h)

theorem tryPlaceObstacle_idx {W H : Nat} {room : Room} :
    ∀ (fuel : Nat) (mg : MGrid) (rng : Rng) (mg' : MGrid) (rng' : Rng),
      tryPlaceObstacle W H room fuel mg rng = some (mg', rng') →
      rng'.idx ≤ rng.idx + 2 * fuel := by
  intro fuel
  induction fuel with
  | zero =>
    intro mg rng mg' rng' h
    simp only [tryPlaceObstacle, Option.some.injEq, Prod.mk.injEq] at h
    obtain ⟨-, rfl⟩ := h
    omega
  | succ fuel ih =>
    intro mg rng mg' rng' h
    unfold tryPlaceObstacle at h
    cases hox : randRangeIExcl (room.x + 1) (room.x + room.w - 1) rng with
    | none => rw [hox] at h; exact absurd h (by simp)
    | some pox =>
      obtain ⟨ox, rng₁⟩ := pox
      rw [hox] at h
      simp only [Option.bind_eq_bind, Option.some_bind] at h
      cases hoy : randRangeIExcl (room.y + 1) (room.y + room.h - 1) rng₁ with
      | none => rw [hoy] at h; exact absurd h (by simp)
      | some poy =>
        obtain ⟨oy, rng₂⟩ := poy
        rw [hoy] at h
        simp only [Option.bind_eq_bind, Option.some_bind] at h
        obtain ⟨_, _, hoxr⟩ := randRangeIExcl_some hox
        obtain ⟨_, _, hoyr⟩ := randRangeIExcl_some hoy
        have hidx2 : rng₂.idx = rng.idx + 2 := by rw [hoyr, hoxr]
        by_cases hb : 0 ≤ oy ∧ oy < (H : Int) ∧ 0 ≤ ox ∧ ox < (W : Int)
        · rw [if_pos hb] at h
          by_cases hp : (mg ox oy).tile_type.is_passable = true ∧
              (mg ox oy).tile_type ≠ TileType.Obstacle
          · rw [if_pos hp] at h
            simp only [Option.some.injEq, Prod.mk.injEq] at h
            obtain ⟨-, rfl⟩ := h
            omega
          · rw [if_neg hp] at h
            have := ih mg rng₂ mg' rng' h
            omega
        · rw [if_neg hb] at h
          have := ih mg rng₂ mg' rng' h
          omega

/-- C9: in marble mode with obstacles enabled, whenever obstacle placement
completes, every cell of the marble grid is either unchanged or lies in the
interior of a room with area at least 30 and was a passable, non-`Obstacle`
tile that is overwritten by an `Obstacle` preserving its prior elevation — in
particular rooms with area below 30 (and everything outside room interiors)
are untouched; moreover one obstacle consumes at most 20 placement attempts
(two RNG draws each), exhausting them is not an error, and every large room
schedules `max(1, trunc(area × density × 0.1)) ≥ 1` obstacles. -/
theorem place_obstacles_in_rooms_spec :
    (∀ (W H : Nat) (mg : MGrid) (rooms : List Room) (rng : Rng) (density : ℚ)
        (mg' : MGrid) (rng' : Rng),
      place_obstacles_in_rooms W H mg rooms rng density = some (mg', rng') →
      ObstEvolves W H rooms mg mg') ∧
    (∀ (W H : Nat) (room : Room) (mg : MGrid) (rng : Rng) (mg' : MGrid) (rng' : Rng),
      tryPlaceObstacle W H room 20 mg rng = some (mg', rng') →
      rng'.idx ≤ rng.idx + 40) ∧
    (∀ (room : Room) (density : ℚ), 1 ≤ numObstacles room density) := by
  refine ⟨?_, ?_, ?_⟩
  · intro W H mg rooms rng density mg' rng' h
    exact place_obstacles_foldl_evolves rooms (fun _ hr => hr) mg rng mg' rng' h
  · intro W H room mg rng mg' rng' h
    exact tryPlaceObstacle_idx 20 mg rng mg' rng' h
  · intro room density
    exact le_max_right _ _

/-- Witness for C9 at a concrete instance: one 6×6 room (area 36 ≥ 30) over an
all-wall marble grid; the single scheduled obstacle exhausts its 20 attempts
(40 RNG draws) without finding a passable tile and is silently skipped. -/
theorem place_obstacles_in_rooms_spec_witness :
    place_obstacles_in_rooms 6 6 (fun _ _ => MarbleTile.empty)
        [{ x := 0, y := 0, w := 6, h := 6, elevation := none }]
        { vals := fun _ => 0, idx := 0 } ⟨0, 1, by decide, by decide⟩ =
      some (fun _ _ => MarbleTile.empty, { vals := fun _ => 0, idx := 40 }) ∧
    ObstEvolves 6 6 [{ x := 0, y := 0, w := 6, h := 6, elevation := none }]
      (fun _ _ => MarbleTile.empty) (fun _ _ => MarbleTile.empty) ∧
    (40 : Nat) ≤ 0 + 40 ∧
    1 ≤ numObstacles { x := 0, y := 0, w := 6, h := 6, elevation := none }
        ⟨0, 1, by decide, by decide⟩ := by
  have heval : place_obstacles_in_rooms 6 6 (fun _ _ => MarbleTile.empty)
      [{ x := 0, y := 0, w := 6, h := 6, elevation := none }]
      { vals := fun _ => 0, idx := 0 } ⟨0, 1, by decide, by decide⟩ =
      some (fun _ _ => MarbleTile.empty, { vals := fun _ => 0, idx := 40 }) := rfl
  have htry : tryPlaceObstacle 6 6 { x := 0, y := 0, w := 6, h := 6, elevation := none }
      20 (fun _ _ => MarbleTile.empty) { vals := fun _ => 0, idx := 0 } =
      some (fun _ _ => MarbleTile.empty, { vals := fun _ => 0, idx := 40 }) := rfl
  refine ⟨heval,
    place_obstacles_in_rooms_spec.1 6 6 _ _ _ _ _ _ heval,
    ?_, place_obstacles_in_rooms_spec.2.2 _ _⟩
  exact place_obstacles_in_rooms_spec.2.1 6 6 _ _ _ _ _ htry

/-- C4: the code aborts on out-of-range configuration instead of clamping it.
In Marble mode with elevation enabled and `max_elevation = -1` (all other
fields at their defaults), the very first room attempt executes
`rng.random_range(-(-1)..=-1)` — an empty range — and generation panics
(modelled as `none`): clamping never happens for `max_elevation`. -/
theorem generate_aborts_on_negative_max_elevation :
    generate { width := 80, height := 25, rooms := 12, min_room := 4, max_room := 10,
               seed := some 1, mode := .Marble, channel_width := 2, corner_radius := 2,
               enable_elevation := true, max_elevation := -1, enable_obstacles := false,
               obstacle_density := ⟨3, 10, by decide, by decide⟩ }
      (fun _ _ => 0) 0 = none := by
  rfl

/-- C5: room placement makes at most `max(10 × rooms, 100)` candidate
attempts and returns at most `params.rooms` rooms; in the produced level no
two rooms intersect when one is expanded by a 1-tile margin, every accepted
room's rectangle is carved as floor in `tiles`, and exhausting the budget
with fewer rooms than requested is not an error (with in-range `u32`/`i32`
parameters, Classic-mode generation always returns a level, however few rooms
were placed). -/
theorem room_placement_spec :
    (∀ (p : GeneratorParams) (rng : Rng) (st' : PlaceState),
        genPlace p rng = some st' →
        st'.attemptsUsed ≤ Nat.max (10 * p.rooms) 100 ∧
        st'.rooms.length ≤ p.rooms) ∧
    (∀ (p : GeneratorParams) (src : Nat → Nat → Nat) (e : Nat),
        OptLevelProp (generate p src e) (fun lvl =>
          lvl.rooms.length ≤ p.rooms ∧
          lvl.rooms.Pairwise (fun a b => intersects_with_margin a b 1 = false) ∧
          ∀ r ∈ lvl.rooms, ∀ x y : Int,
            r.x ≤ x → x < r.x + r.w → r.y ≤ y → y < r.y + r.h →
            tileAtXY lvl.tiles x y = '.')) ∧
    (∀ (p : GeneratorParams) (src : Nat → Nat → Nat) (e : Nat),
        p.width < 2147483648 → p.height < 2147483648 →
        p.min_room < 2147483647 → p.max_room < 2147483648 →
        ∃ lvl, generate { p with mode := .Classic } src e = some lvl) := by
  have hattlen : ∀ (p : GeneratorParams) (rng : Rng) (st' : PlaceState),
      genPlace p rng = some st' →
      st'.attemptsUsed ≤ Nat.max (10 * p.rooms) 100 ∧ st'.rooms.length ≤ p.rooms := by
    intro p rng st' h
    obtain ⟨-, hlen, hatt⟩ := genPlace_props p rng st' h
    constructor
    · refine le_trans hatt ?_
      unfold genAttempts u32
      have h1 : p.rooms % 4294967296 * 10 % 4294967296 ≤ 10 * p.rooms := by
        refine le_trans (Nat.mod_le _ _) ?_
        rw [Nat.mul_comm]
        exact Nat.mul_le_mul_left _ (Nat.mod_le _ _)
      exact max_le_max h1 (le_refl 100)
    · refine le_trans hlen ?_
      exact Nat.mod_le _ _
  refine ⟨hattlen, ?_, ?_⟩
  · intro p src e
    unfold generate generateSeeded
    by_cases hwfc : p.mode = .Wfc
    · rw [if_pos hwfc]
      refine ⟨by simp, List.Pairwise.nil, ?_⟩
      intro r hr
      exact absurd hr (List.not_mem_nil r)
    · rw [if_neg hwfc]
      cases hst : genPlace p { vals := src (p.seed.getD e), idx := 0 } with
      | none => trivial
      | some st =>
        have hfin : OptLevelProp (assembleLevel p (p.seed.getD e) st)
            (fun lvl => lvl.rooms.length ≤ p.rooms ∧
              lvl.rooms.Pairwise (fun a b => intersects_with_margin a b 1 = false) ∧
              ∀ r ∈ lvl.rooms, ∀ x y : Int,
                r.x ≤ x → x < r.x + r.w → r.y ≤ y → y < r.y + r.h →
                tileAtXY lvl.tiles x y = '.') := by
          cases hasm : assembleLevel p (p.seed.getD e) st with
          | none => trivial
          | some lvl =>
            obtain ⟨hrooms, htiles⟩ := assembleLevel_some hasm
            obtain ⟨hinv, -, -⟩ := genPlace_props p _ st hst
            obtain ⟨-, hlen2⟩ := hattlen p _ st hst
            have hperm : (genSorted st).Perm st.rooms := List.mergeSort_perm _ _
            refine ⟨?_, ?_, ?_⟩
            · rw [hrooms]
              exact le_trans (le_of_eq hperm.length_eq) hlen2
            · rw [hrooms]
              exact (hperm.pairwise_iff
                (fun hab => by rw [intersects_with_margin_symm]; exact hab)).mpr hinv.2.1
            · intro r hr x y h1 h2 h3 h4
              rw [hrooms] at hr
              have hrmem := hperm.mem_iff.mp hr
              obtain ⟨hb1, hb2, hb3, hb4⟩ := hinv.1 r hrmem
              have hWle := toI32_le (genWidth p)
              have hHle := toI32_le (genHeight p)
              have hfloor : st.grid x y = true := by
                rw [hinv.2.2 x y]
                exact ⟨r, hrmem, ⟨h1, h2, h3, h4⟩, by omega, by omega, by omega, by omega⟩
              rw [htiles, tileAtXY_renderTiles]
              exact ⟨by omega, by omega, by omega, by omega,
                genCarve_mono p st x y hfloor⟩
        exact hfin
  · intro p src e hw hh hmin hmax
    have hmins : genMinRoom { p with mode := GenerationMode.Classic } < 2147483647 := by
      unfold genMinRoom u32 MIN_ROOM_DIM
      rw [Nat.mod_eq_of_lt (a := p.min_room) (by omega)]
      exact max_lt (by omega) (by omega)
    have hmaxs : genMaxRoom { p with mode := GenerationMode.Classic } < 2147483648 := by
      unfold genMaxRoom u32
      have h1 : p.max_room % 4294967296 = p.max_room := Nat.mod_eq_of_lt (by omega)
      have h3 : (genMinRoom { p with mode := GenerationMode.Classic } + 1) % 4294967296 =
          genMinRoom { p with mode := GenerationMode.Classic } + 1 :=
        Nat.mod_eq_of_lt (by omega)
      rw [h1, h3]
      exact max_lt (by omega) (by omega)
    have hmle : genMinRoom { p with mode := GenerationMode.Classic } + 1 ≤
        genMaxRoom { p with mode := GenerationMode.Classic } := by
      unfold genMaxRoom
      have h3 : u32 (genMinRoom { p with mode := GenerationMode.Classic } + 1) =
          genMinRoom { p with mode := GenerationMode.Classic } + 1 :=
        Nat.mod_eq_of_lt (by omega)
      rw [h3]
      exact le_max_right _ _
    have hIle : toI32 (genMinRoom { p with mode := GenerationMode.Classic }) ≤
        toI32 (genMaxRoom { p with mode := GenerationMode.Classic }) := by
      rw [toI32_eq_of_lt (by omega), toI32_eq_of_lt (by omega)]
      omega
    unfold generate generateSeeded
    rw [if_neg (by simp)]
    obtain ⟨st, hst⟩ : ∃ st, genPlace { p with mode := GenerationMode.Classic }
        { vals := src (p.seed.getD e), idx := 0 } = some st := by
      unfold genPlace
      exact placeRooms_total (by simp) hIle _ _ _
    rw [hst]
    exact ⟨_, rfl⟩

/-- Witness for C5 at concrete inputs: with `rooms = 0` placement stops
immediately (0 attempts, 0 rooms), the level property holds for the generated
level, and Classic generation with default-sized parameters succeeds. -/
theorem room_placement_spec_witness :
    ((initPlaceState zeroRng).attemptsUsed ≤ Nat.max (10 * c5Params.rooms) 100 ∧
      (initPlaceState zeroRng).rooms.length ≤ c5Params.rooms) ∧
    OptLevelProp (generate c5Params (fun _ _ => 0) 0)
      (fun lvl =>
        lvl.rooms.length ≤ c5Params.rooms ∧
        lvl.rooms.Pairwise (fun a b => intersects_with_margin a b 1 = false) ∧
        ∀ r ∈ lvl.rooms, ∀ x y : Int,
          r.x ≤ x → x < r.x + r.w → r.y ≤ y → y < r.y + r.h →
          tileAtXY lvl.tiles x y = '.') ∧
    (∃ lvl, generate { c5Params with mode := GenerationMode.Classic }
        (fun _ _ => 0) 0 = some lvl) := by
  refine ⟨?_, ?_, ?_⟩
  · exact room_placement_spec.1 c5Params zeroRng (initPlaceState zeroRng) rfl
  · exact room_placement_spec.2.1 c5Params (fun _ _ => 0) 0
  · exact room_placement_spec.2.2 c5Params
      (fun _ _ => 0) 0 (by decide) (by decide) (by decide) (by decide)

/-- C7 counterexample: the claim as stated is false.  With
`corner_radius = 2` and `channel_width = 2` the carve at the corner `(2,2)`
sets `(5,2)` to floor, although `(5,2)` is outside the claimed annulus of
outer radius `max(corner_radius, channel_width/2) = 2`
(`d² = 9 > 4 = outer²`), is not on the straight band, and was not floor
before: the code's outer radius is `max(r, w/2) + w/2`, not `max(r, w/2)`. -/
theorem carve_quarter_disk_outer_counterexample :
    (carve_wide_horizontal_with_rounded_turn 8 8 (fun _ _ => false) 2 2 2 2 2 true) 5 2 = true ∧
    ¬((5 - 2 : Int) * (5 - 2) + (2 - 2) * (2 - 2) ≤
        (max 2 (Int.tdiv 2 2)) * (max 2 (Int.tdiv 2 2))) ∧
    ¬(min 2 2 ≤ (5 : Int) ∧ (5 : Int) ≤ max 2 2) ∧
    (fun _ _ => false : GridF) 5 2 = false := by
  refine ⟨by decide, by decide, by decide, rfl⟩

theorem elev_case_symm (a b : MarbleTile) :
    (match a.tile_type, b.tile_type with
      | TileType.Slope, _ => ((a.elevation - b.elevation).natAbs ≤ 1 : Bool)
      | _, TileType.Slope => ((a.elevation - b.elevation).natAbs ≤ 1 : Bool)
      | _, _ => (a.elevation = b.elevation : Bool))
    = (match b.tile_type, a.tile_type with
      | TileType.Slope, _ => ((b.elevation - a.elevation).natAbs ≤ 1 : Bool)
      | _, TileType.Slope => ((b.elevation - a.elevation).natAbs ≤ 1 : Bool)
      | _, _ => (b.elevation = a.elevation : Bool)) := by
  have habs : (a.elevation - b.elevation).natAbs = (b.elevation - a.elevation).natAbs := by
    omega
  have heq : ((a.elevation = b.elevation : Bool)) = ((b.elevation = a.elevation : Bool)) := by
    by_cases h : a.elevation = b.elevation
    all_goals simp [h]
    all_goals omega
  cases ha : a.tile_type
  all_goals cases hb : b.tile_type
  all_goals simp only [habs, heq]

/-- C10: `MarbleTile::compatible_with` is symmetric: `a.compatible_with(b, d)`
equals `b.compatible_with(a, d.opposite())` for all marble tiles and directions. -/
theorem compatible_with_symm (a b : MarbleTile) (d : Direction) :
    a.compatible_with b d = b.compatible_with a d.opposite := by
  unfold MarbleTile.compatible_with
  rw [Direction.opposite_opposite]
  rcases hca : a.connects d <;> rcases hcb : b.connects d.opposite <;>
    simp [hca, hcb, elev_case_symm a b]

/-- C1: generation is a pure function of `(params, seed)`: with a fixed seed,
two calls to `generate` with identical params return identical results (width,
height, seed, rooms, tiles and, in marble mode, the `marble_tiles` grid),
whatever entropy the ambient RNG would have provided. -/
theorem generate_deterministic (p : GeneratorParams) (src : Nat → Nat → Nat)
    (s e₁ e₂ : Nat) :
    generate { p with seed := some s } src e₁ = generate { p with seed := some s } src e₂ := by
  simp [generate]

/-- The neighbour-count classification implemented by the code agrees with the
amended spec mapping on all 16 neighbour configurations. -/
theorem classifyCell_eq_amended (n s e w : Bool) :
    classifyCell n s e w = specBaseClassifyAmended n s e w := by
  cases n <;> cases s <;> cases e <;> cases w <;> decide

/-- C6 (amended): the first classification pass assigns every floor cell the
tile type and rotation of the amended mapping — `0–1` neighbours
`OpenPlatform`; `2` neighbours `Straight` (rotation `0` for north–south,
`1` for east–west) or `Curve90` by connected pair; `3` neighbours `TJunction`
whose rotation is the index of the direction **opposite** the missing one
(`(missing + 2) % 4`); `4` neighbours `CrossJunction` — with the elevation
copied from the elevation map and walls enabled. -/
theorem basePass_classification (W H : Nat) (g : GridF) (em : Int → Int → Int)
    (x y : Int) (hx0 : 0 ≤ x) (hxW : x < (W : Int)) (hy0 : 0 ≤ y)
    (hyH : y < (H : Int)) (hf : g x y = true) :
    basePass W H g em x y =
      MarbleTile.with_params
        (specBaseClassifyAmended (is_floorG W H g x (y - 1)) (is_floorG W H g x (y + 1))
          (is_floorG W H g (x + 1) y) (is_floorG W H g (x - 1) y)).1
        (getElevMap W H em x y)
        (specBaseClassifyAmended (is_floorG W H g x (y - 1)) (is_floorG W H g x (y + 1))
          (is_floorG W H g (x + 1) y) (is_floorG W H g (x - 1) y)).2
        true := by
  unfold basePass
  rw [if_pos ⟨hy0, hyH, hx0, hxW⟩, if_pos hf]
  simp only [classifyCell_eq_amended]

/-- Witness for the amended C6 theorem: on the concrete grid `tGrid`, the
centre cell (3 floor neighbours, missing south) classifies as a `TJunction`
with rotation `(2 + 2) % 4 = 0`. -/
theorem basePass_classification_witness :
    (0 : Int) ≤ 1 ∧ (1 : Int) < (3 : Nat) ∧ tGrid 1 1 = true ∧
    basePass 3 3 tGrid (fun _ _ => 0) 1 1 =
      MarbleTile.with_params
        (specBaseClassifyAmended (is_floorG 3 3 tGrid 1 0) (is_floorG 3 3 tGrid 1 2)
          (is_floorG 3 3 tGrid 2 1) (is_floorG 3 3 tGrid 0 1)).1
        (getElevMap 3 3 (fun _ _ => 0) 1 1)
        (specBaseClassifyAmended (is_floorG 3 3 tGrid 1 0) (is_floorG 3 3 tGrid 1 2)
          (is_floorG 3 3 tGrid 2 1) (is_floorG 3 3 tGrid 0 1)).2
        true := by
  refine ⟨by decide, by decide, by decide, ?_⟩
  have h := basePass_classification 3 3 tGrid (fun _ _ => 0) 1 1
    (by decide) (by decide) (by decide) (by decide) (by decide)
  simpa using h

/-- C6 counterexample: the claim as stated is false.  On `tGrid` the centre
floor cell has exactly three floor neighbours with the missing direction
`South` (index `2`), but the code classifies it as a `TJunction` with rotation
`0`, not `2`: the rotation is **not** the index of the missing direction. -/
theorem basePass_tjunction_rotation_counterexample :
    (basePass 3 3 tGrid (fun _ _ => 0) 1 1).tile_type = TileType.TJunction ∧
    specBaseClassify (is_floorG 3 3 tGrid 1 0) (is_floorG 3 3 tGrid 1 2)
      (is_floorG 3 3 tGrid 2 1) (is_floorG 3 3 tGrid 0 1) = (TileType.TJunction, 2) ∧
    (basePass 3 3 tGrid (fun _ _ => 0) 1 1).rotation ≠ 2 := by
  refine ⟨by decide, by decide, by decide⟩

theorem Adjacent_symm {p q : Int × Int} (h : Adjacent p q) : Adjacent q p := by
  unfold Adjacent at h ⊢
  omega

theorem FReach_symm {fl : Int × Int → Prop} {p q : Int × Int}
    (h : FReach fl p q) : FReach fl q p := by
  refine Relation.ReflTransGen.symmetric ?_ h
  intro u v huv
  exact ⟨Adjacent_symm huv.1, huv.2.2, huv.2.1⟩

theorem FReach_mono {fl fl' : Int × Int → Prop} (himp : ∀ c, fl c → fl' c)
    {p q : Int × Int} (h : FReach fl p q) : FReach fl' p q :=
  Relation.ReflTransGen.mono
    (fun a b hab => ⟨hab.1, himp a hab.2.1, himp b hab.2.2⟩) h

theorem FReach_congr {fl fl' : Int × Int → Prop} (h : ∀ c, fl c ↔ fl' c)
    {p q : Int × Int} : FReach fl p q ↔ FReach fl' p q :=
  ⟨FReach_mono (fun c => (h c).mp), FReach_mono (fun c => (h c).mpr)⟩

theorem freach_horiz_aux {fl : Int × Int → Prop} (y : Int) :
    ∀ (n : Nat) (a : Int), (∀ x : Int, a ≤ x → x ≤ a + (n : Int) → fl (x, y)) →
      FReach fl (a, y) (a + (n : Int), y) := by
  intro n
  induction n with
  | zero =>
    intro a h
    simp only [Nat.cast_zero, add_zero]
    exact Relation.ReflTransGen.refl
  | succ n ih =>
    intro a h
    have hstep : FStep fl (a + (n : Int), y) (a + ((n + 1 : Nat) : Int), y) := by
      refine ⟨?_, ?_, ?_⟩
      · unfold Adjacent
        dsimp only
        omega
      · exact h _ (by omega) (by omega)
      · exact h _ (by omega) (by omega)
    exact Relation.ReflTransGen.tail (ih a (fun x h1 h2 => h x h1 (by omega))) hstep

theorem freach_vert_aux {fl : Int × Int → Prop} (x : Int) :
    ∀ (n : Nat) (a : Int), (∀ y : Int, a ≤ y → y ≤ a + (n : Int) → fl (x, y)) →
      FReach fl (x, a) (x, a + (n : Int)) := by
  intro n
  induction n with
  | zero =>
    intro a h
    simp only [Nat.cast_zero, add_zero]
    exact Relation.ReflTransGen.refl
  | succ n ih =>
    intro a h
    have hstep : FStep fl (x, a + (n : Int)) (x, a + ((n + 1 : Nat) : Int)) := by
      refine ⟨?_, ?_, ?_⟩
      · unfold Adjacent
        dsimp only
        omega
      · exact h _ (by omega) (by omega)
      · exact h _ (by omega) (by omega)
    exact Relation.ReflTransGen.tail (ih a (fun z h1 h2 => h z h1 (by omega))) hstep

theorem freach_horiz {fl : Int × Int → Prop} {x1 x2 y : Int}
    (h : ∀ x : Int, Btw x1 x2 x → fl (x, y)) :
    FReach fl (x1, y) (x2, y) := by
  rcases le_total x1 x2 with hle | hle
  · have e : x2 = x1 + (((x2 - x1).toNat : Nat) : Int) := by omega
    rw [e]
    exact freach_horiz_aux y _ x1 (fun x h1 h2 => h x (Or.inl ⟨h1, by omega⟩))
  · have e : x1 = x2 + (((x1 - x2).toNat : Nat) : Int) := by omega
    refine FReach_symm ?_
    rw [e]
    exact freach_horiz_aux y _ x2 (fun x h1 h2 => h x (Or.inr ⟨h1, by omega⟩))

theorem freach_vert {fl : Int × Int → Prop} {y1 y2 x : Int}
    (h : ∀ y : Int, Btw y1 y2 y → fl (x, y)) :
    FReach fl (x, y1) (x, y2) := by
  rcases le_total y1 y2 with hle | hle
  · have e : y2 = y1 + (((y2 - y1).toNat : Nat) : Int) := by omega
    rw [e]
    exact freach_vert_aux x _ y1 (fun z h1 h2 => h z (Or.inl ⟨h1, by omega⟩))
  · have e : y1 = y2 + (((y1 - y2).toNat : Nat) : Int) := by omega
    refine FReach_symm ?_
    rw [e]
    exact freach_vert_aux x _ y2 (fun z h1 h2 => h z (Or.inr ⟨h1, by omega⟩))

theorem not_freach_isolated {fl : Int × Int → Prop} {c d : Int × Int}
    (hne : c ≠ d) (hnb : ∀ m, Adjacent c m → ¬ fl m) :
    ¬ FReach fl c d := by
  intro h
  rcases Relation.ReflTransGen.cases_head h with h0 | ⟨m, hstep, -⟩
  · exact hne h0
  · exact hnb m hstep.1 hstep.2.2

theorem not_tilesConnected_iso {tiles : List (List Char)} {c d : Int × Int}
    (hc : tileAtXY tiles c.1 c.2 = '.') (hd : tileAtXY tiles d.1 d.2 = '.')
    (hne : c ≠ d)
    (hnb : ∀ m, Adjacent c m → tileAtXY tiles m.1 m.2 = '#') :
    ¬ TilesConnected tiles := by
  intro hconn
  refine not_freach_isolated hne ?_ (hconn c d hc hd)
  intro m hadj hf
  have hw : tileAtXY tiles m.1 m.2 = '#' := hnb m hadj
  have hf' : tileAtXY tiles m.1 m.2 = '.' := hf
  rw [hw] at hf'
  exact absurd hf' (by decide)

theorem not_isFloorTile_of_wall {tiles : List (List Char)} {c : Int × Int}
    (h : tileAtXY tiles c.1 c.2 = '#') : ¬ isFloorTile tiles c := by
  unfold isFloorTile
  rw [h]
  simp

theorem optLevelHolds_of_eq {o : Option Level} {lvl : Level} {P : Level → Prop}
    (h : o = some lvl) (hp : P lvl) : OptLevelHolds o P := by
  subst h
  exact hp

theorem isFloorTile_renderTiles {W H : Nat} {g : GridF} {c : Int × Int} :
    isFloorTile (renderTiles W H g) c ↔ gFloor W H g c := by
  unfold isFloorTile gFloor
  rw [tileAtXY_renderTiles]

theorem mem_hTunnelCells {a b x1 x2 y : Int} :
    (a, b) ∈ hTunnelCells x1 x2 y ↔ Btw x1 x2 a ∧ b = y := by
  unfold hTunnelCells
  simp only [List.mem_map, mem_intRange]
  constructor
  · rintro ⟨x, hx, h⟩
    obtain ⟨rfl, rfl⟩ : x = a ∧ y = b := ⟨congrArg Prod.fst h, congrArg Prod.snd h⟩
    refine ⟨?_, rfl⟩
    by_cases hle : x1 ≤ x2 <;> simp [Btw, hle] at hx ⊢ <;> omega
  · rintro ⟨hx, rfl⟩
    refine ⟨a, ?_, rfl⟩
    by_cases hle : x1 ≤ x2 <;> simp [Btw, hle] at hx ⊢ <;> omega

theorem mem_vTunnelCells {a b y1 y2 x : Int} :
    (a, b) ∈ vTunnelCells y1 y2 x ↔ Btw y1 y2 b ∧ a = x := by
  unfold vTunnelCells
  simp only [List.mem_map, mem_intRange]
  constructor
  · rintro ⟨z, hz, h⟩
    obtain ⟨rfl, rfl⟩ : x = a ∧ z = b := ⟨congrArg Prod.fst h, congrArg Prod.snd h⟩
    refine ⟨?_, rfl⟩
    by_cases hle : y1 ≤ y2 <;> simp [Btw, hle] at hz ⊢ <;> omega
  · rintro ⟨hz, rfl⟩
    refine ⟨b, ?_, rfl⟩
    by_cases hle : y1 ≤ y2 <;> simp [Btw, hle] at hz ⊢ <;> omega

theorem gFloor_mono {W H : Nat} {g g' : GridF}
    (hm : ∀ x y : Int, g x y = true → g' x y = true) {c : Int × Int}
    (h : gFloor W H g c) : gFloor W H g' c :=
  ⟨h.1, h.2.1, h.2.2.1, h.2.2.2.1, hm _ _ h.2.2.2.2⟩

theorem placeAttempt_sizes {W H : Nat} {wI hI mI xI mel : Int} {me : Bool}
    {st st' : PlaceState}
    (h : placeAttempt W H wI hI mI xI me mel st = some st')
    (hs : ∀ r ∈ st.rooms, mI ≤ r.w ∧ mI ≤ r.h) :
    ∀ r ∈ st'.rooms, mI ≤ r.w ∧ mI ≤ r.h := by
  unfold placeAttempt at h
  split at h
  · exact absurd h (by simp)
  next w rng₁ hw =>
    split at h
    · exact absurd h (by simp)
    next hgt rng₂ hh =>
      split at h
      · simp only [Option.some.injEq] at h
        subst h
        exact hs
      · split at h
        · exact absurd h (by simp)
        next x rng₃ hx =>
          split at h
          · exact absurd h (by simp)
          next y rng₄ hy =>
            split at h
            · exact absurd h (by simp)
            next helv rng₅ helveq =>
              split at h
              · simp only [Option.some.injEq] at h
                subst h
                exact hs
              · simp only [Option.some.injEq] at h
                subst h
                intro r hr
                rcases List.mem_append.mp hr with hr | hr
                · exact hs r hr
                · rcases List.mem_singleton.mp hr with rfl
                  exact ⟨(randRangeI_some hw).1, (randRangeI_some hh).1⟩

theorem placeRooms_sizes {W H : Nat} {wI hI mI xI mel : Int} {me : Bool} :
    ∀ (fuel target : Nat) (st st' : PlaceState),
      placeRooms W H wI hI mI xI me mel fuel target st = some st' →
      (∀ r ∈ st.rooms, mI ≤ r.w ∧ mI ≤ r.h) →
      ∀ r ∈ st'.rooms, mI ≤ r.w ∧ mI ≤ r.h := by
  intro fuel
  induction fuel with
  | zero =>
    intro target st st' h hs
    simp only [placeRooms, Option.some.injEq] at h
    subst h
    exact hs
  | succ fuel ih =>
    intro target st st' h hs
    unfold placeRooms at h
    split at h
    · simp only [Option.some.injEq] at h
      subst h
      exact hs
    · split at h
      · exact absurd h (by simp)
      next st₁ hatt =>
        exact ih target st₁ st' h (placeAttempt_sizes hatt hs)

theorem carveClassicTunnels_cons {W H : Nat} (a b : Room) (rest : List Room)
    (g : GridF) (rng : Rng) :
    carveClassicTunnels W H (a :: b :: rest) g rng =
      carveClassicTunnels W H (b :: rest)
        (if (randBool rng).1 then
          carve_vertical_tunnel W H
            (carve_horizontal_tunnel W H g a.center.1 b.center.1 a.center.2)
            a.center.2 b.center.2 b.center.1
        else
          carve_horizontal_tunnel W H
            (carve_vertical_tunnel W H g a.center.2 b.center.2 a.center.1)
            a.center.1 b.center.1 b.center.2)
        (randBool rng).2 := rfl

theorem lcarve_connects {W H : Nat} {g g1 : GridF} {ca cb : Int × Int}
    (hyo : g1 = carve_vertical_tunnel W H
        (carve_horizontal_tunnel W H g ca.1 cb.1 ca.2) ca.2 cb.2 cb.1 ∨
      g1 = carve_horizontal_tunnel W H
        (carve_vertical_tunnel W H g ca.2 cb.2 ca.1) ca.1 cb.1 cb.2)
    (ha : gFloor W H g ca) (hb : gFloor W H g cb) :
    (∀ x y : Int, g x y = true → g1 x y = true) ∧
    FReach (gFloor W H g1) ca cb ∧
    (∀ c : Int × Int, gFloor W H g1 c →
      gFloor W H g c ∨ FReach (gFloor W H g1) c ca) := by
  obtain ⟨ha1, ha2, ha3, ha4, ha5⟩ := ha
  obtain ⟨hb1, hb2, hb3, hb4, hb5⟩ := hb
  rcases hyo with rfl | rfl
  · -- horizontal leg on row `ca.2`, then vertical leg on column `cb.1`
    have hH : ∀ x : Int, Btw ca.1 cb.1 x →
        gFloor W H (carve_vertical_tunnel W H
          (carve_horizontal_tunnel W H g ca.1 cb.1 ca.2) ca.2 cb.2 cb.1) (x, ca.2) := by
      intro x hx
      have hxb : 0 ≤ x ∧ x < (W : Int) := by unfold Btw at hx; omega
      refine ⟨hxb.1, hxb.2, ha3, ha4, ?_⟩
      exact writeCells_mono _ ((writeCells_eq _).mpr
        (Or.inr ⟨mem_hTunnelCells.mpr ⟨hx, rfl⟩, ha3, ha4, hxb.1, hxb.2⟩))
    have hV : ∀ y : Int, Btw ca.2 cb.2 y →
        gFloor W H (carve_vertical_tunnel W H
          (carve_horizontal_tunnel W H g ca.1 cb.1 ca.2) ca.2 cb.2 cb.1) (cb.1, y) := by
      intro y hy
      have hyb : 0 ≤ y ∧ y < (H : Int) := by unfold Btw at hy; omega
      refine ⟨hb1, hb2, hyb.1, hyb.2, ?_⟩
      exact (writeCells_eq _).mpr
        (Or.inr ⟨mem_vTunnelCells.mpr ⟨hy, rfl⟩, hyb.1, hyb.2, hb1, hb2⟩)
    refine ⟨fun x y hxy => writeCells_mono _ (writeCells_mono _ hxy), ?_, ?_⟩
    · have h1 : FReach _ (ca.1, ca.2) (cb.1, ca.2) :=
        freach_horiz (fun x hx => hH x hx)
      have h2 : FReach _ (cb.1, ca.2) (cb.1, cb.2) :=
        freach_vert (fun y hy => hV y hy)
      exact h1.trans h2
    · rintro ⟨c1, c2⟩ hc
      obtain ⟨hc1, hc2, hc3, hc4, hc5⟩ := hc
      have hc5' : writeCells W H (vTunnelCells ca.2 cb.2 cb.1)
          (writeCells W H (hTunnelCells ca.1 cb.1 ca.2) g) c1 c2 = true := hc5
      rw [writeCells_eq, writeCells_eq] at hc5'
      rcases hc5' with (hg | ⟨hm, hbnd⟩) | ⟨hm, hbnd⟩
      · exact Or.inl ⟨hc1, hc2, hc3, hc4, hg⟩
      · obtain ⟨hbtw, rfl⟩ := mem_hTunnelCells.mp hm
        exact Or.inr (freach_horiz (fun x hx =>
          hH x (by unfold Btw at hbtw hx ⊢; omega)))
      · obtain ⟨hbtw, rfl⟩ := mem_vTunnelCells.mp hm
        refine Or.inr ?_
        have hr1 : FReach _ (cb.1, c2) (cb.1, ca.2) :=
          freach_vert (fun y hy => hV y (by unfold Btw at hbtw hy ⊢; omega))
        have hr2 : FReach _ (cb.1, ca.2) (ca.1, ca.2) :=
          freach_horiz (fun x hx => hH x (by unfold Btw at hx ⊢; omega))
        exact hr1.trans hr2
  · -- vertical leg on column `ca.1`, then horizontal leg on row `cb.2`
    have hV : ∀ y : Int, Btw ca.2 cb.2 y →
        gFloor W H (carve_horizontal_tunnel W H
          (carve_vertical_tunnel W H g ca.2 cb.2 ca.1) ca.1 cb.1 cb.2) (ca.1, y) := by
      intro y hy
      have hyb : 0 ≤ y ∧ y < (H : Int) := by unfold Btw at hy; omega
      refine ⟨ha1, ha2, hyb.1, hyb.2, ?_⟩
      exact writeCells_mono _ ((writeCells_eq _).mpr
        (Or.inr ⟨mem_vTunnelCells.mpr ⟨hy, rfl⟩, hyb.1, hyb.2, ha1, ha2⟩))
    have hH : ∀ x : Int, Btw ca.1 cb.1 x →
        gFloor W H (carve_horizontal_tunnel W H
          (carve_vertical_tunnel W H g ca.2 cb.2 ca.1) ca.1 cb.1 cb.2) (x, cb.2) := by
      intro x hx
      have hxb : 0 ≤ x ∧ x < (W : Int) := by unfold Btw at hx; omega
      refine ⟨hxb.1, hxb.2, hb3, hb4, ?_⟩
      exact (writeCells_eq _).mpr
        (Or.inr ⟨mem_hTunnelCells.mpr ⟨hx, rfl⟩, hb3, hb4, hxb.1, hxb.2⟩)
    refine ⟨fun x y hxy => writeCells_mono _ (writeCells_mono _ hxy), ?_, ?_⟩
    · have h1 : FReach _ (ca.1, ca.2) (ca.1, cb.2) :=
        freach_vert (fun y hy => hV y hy)
      have h2 : FReach _ (ca.1, cb.2) (cb.1, cb.2) :=
        freach_horiz (fun x hx => hH x hx)
      exact h1.trans h2
    · rintro ⟨c1, c2⟩ hc
      obtain ⟨hc1, hc2, hc3, hc4, hc5⟩ := hc
      have hc5' : writeCells W H (hTunnelCells ca.1 cb.1 cb.2)
          (writeCells W H (vTunnelCells ca.2 cb.2 ca.1) g) c1 c2 = true := hc5
      rw [writeCells_eq, writeCells_eq] at hc5'
      rcases hc5' with (hg | ⟨hm, hbnd⟩) | ⟨hm, hbnd⟩
      · exact Or.inl ⟨hc1, hc2, hc3, hc4, hg⟩
      · obtain ⟨hbtw, rfl⟩ := mem_vTunnelCells.mp hm
        exact Or.inr (freach_vert (fun y hy =>
          hV y (by unfold Btw at hbtw hy ⊢; omega)))
      · obtain ⟨hbtw, rfl⟩ := mem_hTunnelCells.mp hm
        refine Or.inr ?_
        have hr1 : FReach _ (c1, cb.2) (ca.1, cb.2) :=
          freach_horiz (fun x hx => hH x (by unfold Btw at hbtw hx ⊢; omega))
        have hr2 : FReach _ (ca.1, cb.2) (ca.1, ca.2) :=
          freach_vert (fun y hy => hV y (by unfold Btw at hy ⊢; omega))
        exact hr1.trans hr2

theorem freach_rect {fl : Int × Int → Prop} {r : Room}
    (hw : 1 ≤ r.w) (hh : 1 ≤ r.h)
    (hfl : ∀ x y : Int, r.x ≤ x → x < r.x + r.w → r.y ≤ y → y < r.y + r.h →
      fl (x, y))
    {x y : Int} (hx1 : r.x ≤ x) (hx2 : x < r.x + r.w)
    (hy1 : r.y ≤ y) (hy2 : y < r.y + r.h) :
    FReach fl (x, y) r.center := by
  have htw : Int.tdiv r.w 2 = r.w / 2 := Int.tdiv_eq_ediv (by omega) (by omega)
  have hth : Int.tdiv r.h 2 = r.h / 2 := Int.tdiv_eq_ediv (by omega) (by omega)
  have hcx : r.x ≤ r.center.1 ∧ r.center.1 < r.x + r.w := by
    unfold Room.center
    dsimp only
    rw [htw]
    omega
  have hcy : r.y ≤ r.center.2 ∧ r.center.2 < r.y + r.h := by
    unfold Room.center
    dsimp only
    rw [hth]
    omega
  have h1 : FReach fl (x, y) (r.center.1, y) := by
    refine freach_horiz ?_
    intro x' hx'
    unfold Btw at hx'
    exact hfl x' y (by omega) (by omega) hy1 hy2
  have h2 : FReach fl (r.center.1, y) (r.center.1, r.center.2) := by
    refine freach_vert ?_
    intro y' hy'
    unfold Btw at hy'
    exact hfl r.center.1 y' hcx.1 hcx.2 (by omega) (by omega)
  exact h1.trans h2

theorem carveClassicTunnels_connect {W H : Nat} :
    ∀ (rs : List Room) (g : GridF) (rng : Rng),
      (∀ r ∈ rs, gFloor W H g r.center) →
      (∀ r ∈ rs, ∀ r' ∈ rs,
        FReach (gFloor W H (carveClassicTunnels W H rs g rng).1)
          r.center r'.center) ∧
      (∀ c : Int × Int, gFloor W H (carveClassicTunnels W H rs g rng).1 c →
        gFloor W H g c ∨
          ∃ r ∈ rs,
            FReach (gFloor W H (carveClassicTunnels W H rs g rng).1)
              c r.center) := by
  intro rs
  induction rs with
  | nil =>
    intro g rng hc
    exact ⟨by simp, fun c hcf => Or.inl hcf⟩
  | cons a rest ih =>
    intro g rng hc
    cases rest with
    | nil =>
      refine ⟨?_, fun c hcf => Or.inl hcf⟩
      intro r hr r' hr'
      rcases List.mem_singleton.mp hr with rfl
      rcases List.mem_singleton.mp hr' with rfl
      exact Relation.ReflTransGen.refl
    | cons b rest2 =>
      rw [carveClassicTunnels_cons]
      set G1 := (if (randBool rng).1 then
          carve_vertical_tunnel W H
            (carve_horizontal_tunnel W H g a.center.1 b.center.1 a.center.2)
            a.center.2 b.center.2 b.center.1
        else
          carve_horizontal_tunnel W H
            (carve_vertical_tunnel W H g a.center.2 b.center.2 a.center.1)
            a.center.1 b.center.1 b.center.2) with hG1
      have hyo : G1 = carve_vertical_tunnel W H
          (carve_horizontal_tunnel W H g a.center.1 b.center.1 a.center.2)
          a.center.2 b.center.2 b.center.1 ∨
          G1 = carve_horizontal_tunnel W H
            (carve_vertical_tunnel W H g a.center.2 b.center.2 a.center.1)
            a.center.1 b.center.1 b.center.2 := by
        rw [hG1]
        by_cases hcoin : (randBool rng).1
        · rw [if_pos hcoin]
          exact Or.inl rfl
        · rw [if_neg hcoin]
          exact Or.inr rfl
      obtain ⟨hmono, hreachab, hattach⟩ :=
        lcarve_connects hyo (hc a (by simp)) (hc b (by simp))
      have hc1 : ∀ r ∈ b :: rest2, gFloor W H G1 r.center :=
        fun r hr => gFloor_mono hmono (hc r (List.mem_cons_of_mem a hr))
      obtain ⟨ihA, ihB⟩ := ih G1 (randBool rng).2 hc1
      have hm2 : ∀ c : Int × Int, gFloor W H G1 c →
          gFloor W H (carveClassicTunnels W H (b :: rest2) G1 (randBool rng).2).1 c :=
        fun c hcg =>
          gFloor_mono (fun x y hxy => carveClassicTunnels_mono _ _ _ x y hxy) hcg
      have hab2 : FReach
          (gFloor W H (carveClassicTunnels W H (b :: rest2) G1 (randBool rng).2).1)
          a.center b.center := FReach_mono hm2 hreachab
      constructor
      · intro r hr r' hr'
        rcases List.mem_cons.mp hr with hra | hr
        · rcases List.mem_cons.mp hr' with hra' | hr'
          · rw [hra, hra']
            exact Relation.ReflTransGen.refl
          · rw [hra]
            exact hab2.trans (ihA b (by simp) r' hr')
        · rcases List.mem_cons.mp hr' with hra' | hr'
          · rw [hra']
            exact (ihA r hr b (by simp)).trans (FReach_symm hab2)
          · exact ihA r hr r' hr'
      · intro c hcf
        rcases ihB c hcf with hg1 | ⟨r, hr, hre⟩
        · rcases hattach c hg1 with hgg | hre
          · exact Or.inl hgg
          · exact Or.inr ⟨a, by simp, FReach_mono hm2 hre⟩
        · exact Or.inr ⟨r, List.mem_cons_of_mem a hr, hre⟩

theorem optLevelProp_intro {o : Option Level} {P : Level → Prop}
    (h : ∀ lvl, o = some lvl → P lvl) : OptLevelProp o P := by
  cases o with
  | none => trivial
  | some lvl => exact h lvl rfl

theorem classic_level_connected {p : GeneratorParams}
    (hp : p.mode = GenerationMode.Classic)
    (hmin : u32 p.min_room < 2147483648) {rng : Rng} {seed : Nat}
    {st : PlaceState} {lvl : Level}
    (hst : genPlace p rng = some st) (hasm : assembleLevel p seed st = some lvl) :
    TilesConnected lvl.tiles := by
  obtain ⟨hrooms, htiles⟩ := assembleLevel_some hasm
  obtain ⟨hinv, -, -⟩ := genPlace_props p rng st hst
  have hsz : ∀ r ∈ st.rooms,
      toI32 (genMinRoom p) ≤ r.w ∧ toI32 (genMinRoom p) ≤ r.h := by
    unfold genPlace at hst
    exact placeRooms_sizes _ _ _ _ hst (by simp)
  have hmin3 : (3 : Int) ≤ toI32 (genMinRoom p) := by
    have hlt : genMinRoom p < 2147483648 := by
      unfold genMinRoom MIN_ROOM_DIM
      exact max_lt hmin (by omega)
    have h3 : (3 : Nat) ≤ genMinRoom p := le_max_right _ _
    rw [toI32_eq_of_lt hlt]
    exact_mod_cast h3
  have hWle := toI32_le (genWidth p)
  have hHle := toI32_le (genHeight p)
  have hperm : (genSorted st).Perm st.rooms := List.mergeSort_perm _ _
  have hc : ∀ r ∈ genSorted st,
      gFloor (genWidth p) (genHeight p) st.grid r.center := by
    intro r hr
    have hrm : r ∈ st.rooms := hperm.mem_iff.mp hr
    obtain ⟨hb1, hb2, hb3, hb4⟩ := hinv.1 r hrm
    obtain ⟨hw3, hh3⟩ := hsz r hrm
    have htw : Int.tdiv r.w 2 = r.w / 2 := Int.tdiv_eq_ediv (by omega) (by omega)
    have hth : Int.tdiv r.h 2 = r.h / 2 := Int.tdiv_eq_ediv (by omega) (by omega)
    have hcx : r.x ≤ r.center.1 ∧ r.center.1 < r.x + r.w := by
      unfold Room.center
      dsimp only
      rw [htw]
      omega
    have hcy : r.y ≤ r.center.2 ∧ r.center.2 < r.y + r.h := by
      unfold Room.center
      dsimp only
      rw [hth]
      omega
    refine ⟨by omega, by omega, by omega, by omega, ?_⟩
    exact (hinv.2.2 _ _).mpr
      ⟨r, hrm, ⟨hcx.1, hcx.2, hcy.1, hcy.2⟩, by omega, by omega, by omega, by omega⟩
  obtain ⟨hctr, hatt⟩ :=
    carveClassicTunnels_connect (genSorted st) st.grid st.rng hc
  have hcv : (genCarve p st).1 =
      (carveClassicTunnels (genWidth p) (genHeight p) (genSorted st)
        st.grid st.rng).1 := by
    unfold genCarve
    rw [hp]
  rw [hcv] at htiles
  have hroot : ∀ c : Int × Int,
      gFloor (genWidth p) (genHeight p)
        (carveClassicTunnels (genWidth p) (genHeight p) (genSorted st)
          st.grid st.rng).1 c →
      ∃ r ∈ genSorted st,
        FReach (gFloor (genWidth p) (genHeight p)
          (carveClassicTunnels (genWidth p) (genHeight p) (genSorted st)
            st.grid st.rng).1) c r.center := by
    intro c hcf
    rcases hatt c hcf with hg0 | hex
    · obtain ⟨r, hrm, hrect, hbnd⟩ := (hinv.2.2 c.1 c.2).mp hg0.2.2.2.2
      refine ⟨r, hperm.mem_iff.mpr hrm, ?_⟩
      obtain ⟨hw3, hh3⟩ := hsz r hrm
      obtain ⟨hb1, hb2, hb3, hb4⟩ := hinv.1 r hrm
      have hflr : ∀ x y : Int, r.x ≤ x → x < r.x + r.w → r.y ≤ y →
          y < r.y + r.h →
          gFloor (genWidth p) (genHeight p)
            (carveClassicTunnels (genWidth p) (genHeight p) (genSorted st)
              st.grid st.rng).1 (x, y) := by
        intro x y h1 h2 h3 h4
        refine ⟨by omega, by omega, by omega, by omega, ?_⟩
        apply carveClassicTunnels_mono
        exact (hinv.2.2 x y).mpr
          ⟨r, hrm, ⟨h1, h2, h3, h4⟩, by omega, by omega, by omega, by omega⟩
      exact freach_rect (by omega) (by omega) hflr
        hrect.1 hrect.2.1 hrect.2.2.1 hrect.2.2.2
    · exact hex
  intro cp cq hp' hq'
  rw [htiles, isFloorTile_renderTiles] at hp' hq'
  rw [htiles]
  refine (FReach_congr (fun c => isFloorTile_renderTiles)).mpr ?_
  obtain ⟨rp, hrp, hrep⟩ := hroot cp hp'
  obtain ⟨rq, hrq, hreq⟩ := hroot cq hq'
  exact (hrep.trans (hctr rp hrp rq hrq)).trans (FReach_symm hreq)

/-- **C2** (amended): in Classic mode — for every parameter configuration
whose `min_room` does not overflow the `u32 → i32` cast — and for every seed
and value stream, the floor tiles of the returned level form a single
4-connected component: every floor tile reaches every other floor tile by
4-directional moves over floor tiles.  (The Marble half of the original
claim is false: see `marble_disconnected_counterexample`, where a
quarter-annulus corner disk with `channel_width = 1` carves an isolated
floor cell.) -/
theorem classic_connectivity (p : GeneratorParams) (src : Nat → Nat → Nat)
    (e : Nat) (hmin : u32 p.min_room < 2147483648) :
    OptLevelProp (generate { p with mode := .Classic } src e)
      (fun lvl => TilesConnected lvl.tiles) := by
  refine optLevelProp_intro ?_
  intro lvl hgen
  unfold generate generateSeeded at hgen
  rw [if_neg (by simp)] at hgen
  split at hgen
  · exact absurd hgen (by simp)
  next st hst =>
    exact classic_level_connected (p := { p with mode := .Classic }) rfl hmin hst hgen

set_option maxRecDepth 20000 in
/-- Witness for C2 at concrete inputs: the default parameters satisfy the
cast-sanity bound and the connectivity property holds for the generated
classic level. -/
theorem classic_connectivity_witness :
    u32 GeneratorParams.default.min_room < 2147483648 ∧
    OptLevelProp (generate { GeneratorParams.default with mode := .Classic }
        (fun _ _ => 0) 0)
      (fun lvl => TilesConnected lvl.tiles) :=
  ⟨by decide,
    classic_connectivity GeneratorParams.default (fun _ _ => 0) 0 (by decide)⟩

set_option maxRecDepth 20000 in
/-- C2 counterexample: the claim is false in Marble mode.  With two 4×4
rooms at `(1,1)` and `(11,1)` on a 20×14 map, `channel_width = 1` and
`corner_radius = 5`, the corner disk at the second room's centre `(13,3)`
is a quarter-circle of thickness one (inner = outer = 5) whose cell
`(16,7)` has all four neighbours as wall: the floor is not 4-connected. -/
theorem marble_disconnected_counterexample :
    OptLevelHolds (generate c2Params c2Src 0)
      (fun lvl => ¬ TilesConnected lvl.tiles) := by
  have hst : genPlace c2Params { vals := c2Src 3, idx := 0 } = some c2St := rfl
  have hsort : genSorted c2St = [c2RoomA, c2RoomB] := by
    show [c2RoomA, c2RoomB].mergeSort
      (fun a b => a.center.1 ≤ b.center.1) = [c2RoomA, c2RoomB]
    simp [List.mergeSort, List.merge, c2RoomA, c2RoomB, Room.center]
  have hcarve : genCarve c2Params c2St =
      carveMarbleTunnels 20 14 1 5 [c2RoomA, c2RoomB] c2St.grid c2St.rng := by
    show carveMarbleTunnels 20 14 1 5 (genSorted c2St) c2St.grid c2St.rng = _
    rw [hsort]
  have hgoal : OptLevelHolds (assembleLevel c2Params 3 c2St)
      (fun lvl => ¬ TilesConnected lvl.tiles) := by
    unfold assembleLevel
    rw [hcarve, hsort]
    refine optLevelHolds_of_eq rfl ?_
    refine not_tilesConnected_iso (c := ((16 : Int), (7 : Int)))
      (d := ((11 : Int), (1 : Int))) ?_ ?_ (by decide) ?_
    · exact rfl
    · exact rfl
    · intro m hadj
      obtain ⟨m1, m2⟩ := m
      unfold Adjacent at hadj
      dsimp only at hadj ⊢
      rcases hadj with ⟨h1, h2 | h2⟩ | ⟨h1, h2 | h2⟩
      · obtain rfl : m1 = 16 := by omega
        obtain rfl : m2 = 8 := by omega
        exact rfl
      · obtain rfl : m1 = 16 := by omega
        obtain rfl : m2 = 6 := by omega
        exact rfl
      · obtain rfl : m1 = 17 := by omega
        obtain rfl : m2 = 7 := by omega
        exact rfl
      · obtain rfl : m1 = 15 := by omega
        obtain rfl : m2 = 7 := by omega
        exact rfl
  show OptLevelHolds (generateSeeded c2Params c2Src 3)
    (fun lvl => ¬ TilesConnected lvl.tiles)
  unfold generateSeeded
  rw [if_neg (by decide)]
  rw [hst]
  exact hgoal

theorem wfcAttempts_le (W H : Nat) :
    ∀ (n : Nat) (rng : Rng), (wfcAttempts W H n rng).2.2 ≤ n := by
  intro n
  induction n with
  | zero =>
    intro rng
    simp [wfcAttempts]
  | succ n ih =>
    intro rng
    unfold wfcAttempts
    rcases hwl : wfcLoop W H (wfcOuterFuel W H) (initDomains W H) rng with ⟨res, rng'⟩
    cases res with
    | some doms => simp
    | none =>
      have hle := ih rng'
      rcases hrec : wfcAttempts W H n rng' with ⟨res2, rng2, used2⟩
      rw [hrec] at hle
      simp only [hrec]
      simpa using hle

theorem wfcAttempts_some_render (W H : Nat) :
    ∀ (n : Nat) (rng : Rng) (g : List (List Char)),
      (wfcAttempts W H n rng).1 = some g → ∃ doms, g = renderWfc W H doms := by
  intro n
  induction n with
  | zero =>
    intro rng g h
    exact absurd h (by simp [wfcAttempts])
  | succ n ih =>
    intro rng g h
    unfold wfcAttempts at h
    rcases hwl : wfcLoop W H (wfcOuterFuel W H) (initDomains W H) rng with ⟨res, rng'⟩
    rw [hwl] at h
    cases res with
    | some doms =>
      simp only [Option.some.injEq] at h
      exact ⟨doms, h.symm⟩
    | none =>
      dsimp only at h
      rcases hrec : wfcAttempts W H n rng' with ⟨res2, rng2, used2⟩
      rw [hrec] at h
      dsimp only at h
      apply ih rng' g
      rw [hrec]
      exact h

theorem wfc_tilemap_dims (W H : Nat) (rng : Rng) :
    (generate_wfc_tilemap W H rng).length = H ∧
      ∀ row ∈ generate_wfc_tilemap W H rng, row.length = W := by
  unfold generate_wfc_tilemap
  cases hat : (wfcAttempts W H 10 rng).1 with
  | none =>
    simp [blankGrid]
  | some g =>
    obtain ⟨doms, rfl⟩ := wfcAttempts_some_render W H 10 rng g hat
    constructor
    · simp [renderWfc]
    · intro row hrow
      simp only [renderWfc, Option.getD_some, List.mem_map] at hrow
      obtain ⟨y, -, rfl⟩ := hrow
      simp

/-- **C8**: the WFC solver makes at most 10 restart attempts (each from fresh
border-constrained domains, drawing new random values); if every attempt ends
in contradiction the tilemap falls back to the all-blank grid; and in Wfc mode
`generate` always succeeds, returning a level whose `tiles` is exactly the
solver's output at the clamped dimensions — `height` rows of `width`
characters. -/
theorem wfc_restart_fallback :
    (∀ (W H n : Nat) (rng : Rng), (wfcAttempts W H n rng).2.2 ≤ n) ∧
    (∀ (W H : Nat) (rng : Rng),
      (wfcAttempts W H 10 rng).1 = none →
      generate_wfc_tilemap W H rng = blankGrid W H) ∧
    (∀ (p : GeneratorParams) (src : Nat → Nat → Nat) (e : Nat),
      OptLevelHolds (generate { p with mode := .Wfc } src e) (fun lvl =>
        lvl.tiles = generate_wfc_tilemap (genWidth p) (genHeight p)
          { vals := src (p.seed.getD e), idx := 0 } ∧
        lvl.tiles.length = genHeight p ∧
        ∀ row ∈ lvl.tiles, row.length = genWidth p)) := by
  refine ⟨fun W H n rng => wfcAttempts_le W H n rng, ?_, ?_⟩
  · intro W H rng h
    unfold generate_wfc_tilemap
    rw [h]
    rfl
  · intro p src e
    refine ⟨rfl, ?_, ?_⟩
    · exact (wfc_tilemap_dims (genWidth p) (genHeight p) _).1
    · exact (wfc_tilemap_dims (genWidth p) (genHeight p) _).2

/-- Witness for C8 at concrete inputs: on a 1×3 grid with the all-ones value
stream every attempt collapses the middle cell to `'│'` and contradicts the
blank-forced border cell above it, so all 10 attempts fail and the result is
the 1×3 blank grid; in Wfc mode generation succeeds with well-formed tiles. -/
theorem wfc_restart_fallback_witness :
    (wfcAttempts 1 3 10 { vals := fun _ => 1, idx := 0 }).2.2 ≤ 10 ∧
    ((wfcAttempts 1 3 10 { vals := fun _ => 1, idx := 0 }).1 = none ∧
      generate_wfc_tilemap 1 3 { vals := fun _ => 1, idx := 0 } = blankGrid 1 3) ∧
    OptLevelHolds (generate { GeneratorParams.default with mode := .Wfc }
        (fun _ _ => 1) 0)
      (fun lvl =>
        lvl.tiles = generate_wfc_tilemap (genWidth GeneratorParams.default)
          (genHeight GeneratorParams.default)
          { vals := (fun (_ _ : Nat) => 1) (GeneratorParams.default.seed.getD 0),
            idx := 0 } ∧
        lvl.tiles.length = genHeight GeneratorParams.default ∧
        ∀ row ∈ lvl.tiles, row.length = genWidth GeneratorParams.default) := by
  have hnone : (wfcAttempts 1 3 10 { vals := fun _ => 1, idx := 0 }).1 = none := by
    rfl
  exact ⟨wfc_restart_fallback.1 1 3 10 _,
    ⟨hnone, wfc_restart_fallback.2.1 1 3 _ hnone⟩,
    wfc_restart_fallback.2.2 GeneratorParams.default (fun _ _ => 1) 0⟩

theorem subM_trans {a b c : Nat} (h1 : SubM a b) (h2 : SubM b c) : SubM a c :=
  fun t ht => h2 t (h1 t ht)

theorem subM_refl (a : Nat) : SubM a a := fun _ ht => ht

theorem subM_and_left (a b : Nat) : SubM (a &&& b) a := by
  intro t ht
  rw [Nat.testBit_and] at ht
  exact (Bool.and_eq_true _ _).mp ht |>.1

theorem subM_and_right (a b : Nat) : SubM (a &&& b) b := by
  intro t ht
  rw [Nat.testBit_and] at ht
  exact (Bool.and_eq_true _ _).mp ht |>.2

theorem eq_zero_of_subM_zero {a : Nat} (h : SubM a 0) : a = 0 := by
  refine Nat.eq_of_testBit_eq fun i => ?_
  cases ha : a.testBit i with
  | false => simp
  | true => exact absurd (h i ha) (by simp)

theorem bit_lt_12 {m t : Nat} (hm : SubM m 4095) (h : m.testBit t = true) :
    t < 12 := by
  by_contra hge
  have h2 : (4095 : Nat).testBit t = true := hm t h
  have h3 : (4095 : Nat) < 2 ^ t := by
    calc (4095 : Nat) < 2 ^ 12 := by decide
    _ ≤ 2 ^ t := Nat.pow_le_pow_right (by omega) (by omega)
  rw [Nat.testBit_lt_two_pow h3] at h2
  exact absurd h2 (by simp)

theorem oppDir_lt (d : Nat) : oppDir d < 4 := by
  unfold oppDir
  omega

theorem oppDir_oppDir {d : Nat} (hd : d < 4) : oppDir (oppDir d) = d := by
  unfold oppDir
  omega

theorem compat_mem_iff : ∀ (t u : Fin 12) (d : Fin 4),
    (compatMask (t : Nat) (d : Nat)).testBit (u : Nat) = true ↔
      (tileAt (t : Nat)).edge (d : Nat) =
        (tileAt (u : Nat)).edge (oppDir (d : Nat)) := by
  decide

theorem awc_mem_iff : ∀ (t : Fin 12) (d : Fin 4),
    (allowed_without_connection (d : Nat)).testBit (t : Nat) = true ↔
      (tileAt (t : Nat)).edge (d : Nat) = false := by
  decide

theorem charEdge_tileAt : ∀ (t : Fin 12) (d : Fin 4),
    charEdge ((tileAt (t : Nat)).ch) (d : Nat) = (tileAt (t : Nat)).edge (d : Nat) := by
  decide

theorem tileAt_mem_map : ∀ t : Fin 12,
    (tileAt (t : Nat)).ch ∈ wfc_tileset.map WfcTile.ch := by
  decide

theorem testBit_one_iff : ∀ t : Nat, (1 : Nat).testBit t = true ↔ t = 0 := by
  intro t
  have h1 : (1 : Nat) = 2 ^ 0 := rfl
  rw [h1, Nat.testBit_two_pow]
  simp [eq_comm]

theorem allowedFrom_testBit (m dir u : Nat) :
    (allowedFrom m dir).testBit u = true ↔
      ∃ t, t < numTiles ∧ m.testBit t = true ∧
        (compatMask t dir).testBit u = true := by
  unfold allowedFrom
  have hgen : ∀ (L : List Nat) (a : Nat),
      ((L.foldl (fun acc t =>
        if m.testBit t then acc ||| compatMask t dir else acc) a).testBit u = true ↔
      a.testBit u = true ∨
        ∃ t ∈ L, m.testBit t = true ∧ (compatMask t dir).testBit u = true) := by
    intro L
    induction L with
    | nil => simp
    | cons c L ih =>
      intro a
      simp only [List.foldl_cons]
      by_cases hc : m.testBit c
      · rw [if_pos hc, ih]
        simp only [Nat.testBit_or, Bool.or_eq_true]
        constructor
        · rintro ((h | h) | ⟨t, htm, htt⟩)
          · exact Or.inl h
          · exact Or.inr ⟨c, by simp, hc, h⟩
          · exact Or.inr ⟨t, by simp [htm], htt⟩
        · rintro (h | ⟨t, htm, ht1, ht2⟩)
          · exact Or.inl (Or.inl h)
          · rcases List.mem_cons.mp htm with rfl | htm
            · exact Or.inl (Or.inr ht2)
            · exact Or.inr ⟨t, htm, ht1, ht2⟩
      · rw [if_neg hc, ih]
        constructor
        · rintro (h | ⟨t, htm, htt⟩)
          · exact Or.inl h
          · exact Or.inr ⟨t, by simp [htm], htt⟩
        · rintro (h | ⟨t, htm, ht1, ht2⟩)
          · exact Or.inl h
          · rcases List.mem_cons.mp htm with rfl | htm
            · exact absurd ht1 (by simp [hc])
            · exact Or.inr ⟨t, htm, ht1, ht2⟩
  rw [hgen]
  simp only [List.mem_range]
  constructor
  · rintro (h | ⟨t, h1, h2, h3⟩)
    · exact absurd h (by simp)
    · exact ⟨t, h1, h2, h3⟩
  · rintro ⟨t, h1, h2, h3⟩
    exact Or.inr ⟨t, h1, h2, h3⟩

theorem maskCount_le_one_unique {m t t' : Nat} (hc : maskCount m ≤ 1)
    (h1 : m.testBit t = true) (h2 : m.testBit t' = true)
    (hlt : t < 32) (hlt' : t' < 32) : t = t' := by
  have hm1 : t ∈ (List.range 32).filter (fun u => m.testBit u) := by
    simp [List.mem_filter, List.mem_range, hlt, h1]
  have hm2 : t' ∈ (List.range 32).filter (fun u => m.testBit u) := by
    simp [List.mem_filter, List.mem_range, hlt', h2]
  have hlen : ((List.range 32).filter (fun u => m.testBit u)).length ≤ 1 := hc
  rcases hl : (List.range 32).filter (fun u => m.testBit u) with - | ⟨a, tl⟩
  · rw [hl] at hm1
    exact absurd hm1 (List.not_mem_nil t)
  · rw [hl] at hm1 hm2 hlen
    cases tl with
    | nil =>
      rcases List.mem_singleton.mp hm1 with rfl
      rcases List.mem_singleton.mp hm2 with rfl
      rfl
    | cons b tl2 => simp at hlen

theorem maskCount_ne_zero {m : Nat} (hm : SubM m 4095) (hz : m ≠ 0) :
    maskCount m ≠ 0 := by
  obtain ⟨i, hi⟩ := Nat.ne_zero_implies_bit_true hz
  have hi12 : i < 12 := bit_lt_12 hm hi
  have hmem : i ∈ (List.range 32).filter (fun u => m.testBit u) := by
    simp [List.mem_filter, List.mem_range, hi]
    omega
  have hpos : 0 < ((List.range 32).filter (fun u => m.testBit u)).length :=
    List.length_pos.mpr (List.ne_nil_of_mem hmem)
  unfold maskCount
  omega

theorem compat_mem_iff' {t u d : Nat} (ht : t < 12) (hu : u < 12) (hd : d < 4) :
    (compatMask t d).testBit u = true ↔
      (tileAt t).edge d = (tileAt u).edge (oppDir d) := by
  have := compat_mem_iff ⟨t, ht⟩ ⟨u, hu⟩ ⟨d, hd⟩
  simpa using this

theorem awc_mem_iff' {t d : Nat} (ht : t < 12) (hd : d < 4) :
    (allowed_without_connection d).testBit t = true ↔
      (tileAt t).edge d = false := by
  have := awc_mem_iff ⟨t, ht⟩ ⟨d, hd⟩
  simpa using this

theorem charEdge_tileAt' {t d : Nat} (ht : t < 12) (hd : d < 4) :
    charEdge ((tileAt t).ch) d = (tileAt t).edge d := by
  have := charEdge_tileAt ⟨t, ht⟩ ⟨d, hd⟩
  simpa using this

theorem tileAt_mem_map' {t : Nat} (ht : t < 12) :
    (tileAt t).ch ∈ wfc_tileset.map WfcTile.ch := by
  have := tileAt_mem_map ⟨t, ht⟩
  simpa using this

theorem cellIdx_lt {W H a x : Nat} (ha : a < H) (hx : x < W) :
    a * W + x < W * H := by
  calc a * W + x < a * W + W := by omega
  _ = (a + 1) * W := by ring
  _ ≤ H * W := Nat.mul_le_mul_right W ha
  _ = W * H := Nat.mul_comm H W

theorem neighborIdx_lt {W H x y dir n : Nat} (hx : x < W) (hy : y < H)
    (h : neighborIdx W H x y dir = some n) : n < W * H := by
  unfold neighborIdx at h
  split at h
  · split at h
    · exact absurd h (by simp)
    · simp only [Option.some.injEq] at h
      subst h
      exact cellIdx_lt (by omega) hx
  · split at h
    · exact absurd h (by simp)
    next hlt =>
      simp only [Option.some.injEq] at h
      subst h
      exact cellIdx_lt hy (by omega)
  · split at h
    · exact absurd h (by simp)
    next hlt =>
      simp only [Option.some.injEq] at h
      subst h
      exact cellIdx_lt (by omega) hx
  · split at h
    · exact absurd h (by simp)
    · simp only [Option.some.injEq] at h
      subst h
      exact cellIdx_lt hy (by omega)

theorem neighborIdx_ne_self {W H x y dir n : Nat} (hx : x < W)
    (h : neighborIdx W H x y dir = some n) : n ≠ y * W + x := by
  have hW : 0 < W := by omega
  unfold neighborIdx at h
  split at h
  · split at h
    · exact absurd h (by simp)
    next h0 =>
      simp only [Option.some.injEq] at h
      subst h
      intro hc
      have h1 : (y - 1) * W < y * W := (Nat.mul_lt_mul_right hW).mpr (by omega)
      omega
  · split at h
    · exact absurd h (by simp)
    · simp only [Option.some.injEq] at h
      subst h
      omega
  · split at h
    · exact absurd h (by simp)
    · simp only [Option.some.injEq] at h
      subst h
      intro hc
      have h1 : y * W < (y + 1) * W := (Nat.mul_lt_mul_right hW).mpr (by omega)
      omega
  · split at h
    · exact absurd h (by simp)
    next h0 =>
      simp only [Option.some.injEq] at h
      subst h
      omega

theorem neighborIdx_symm {W H i dir n : Nat} (hi : i < W * H) (hd : dir < 4)
    (h : neighborIdx W H (i % W) (i / W) dir = some n) :
    n < W * H ∧ neighborIdx W H (n % W) (n / W) (oppDir dir) = some i := by
  have hW : 0 < W := by
    rcases Nat.eq_zero_or_pos W with h0 | h0
    · rw [h0] at hi
      simp at hi
    · exact h0
  have hx : i % W < W := Nat.mod_lt _ hW
  have hy : i / W < H := by
    rw [Nat.div_lt_iff_lt_mul hW, Nat.mul_comm H W]
    exact hi
  have hcases : dir = 0 ∨ dir = 1 ∨ dir = 2 ∨ dir = 3 := by omega
  rcases hcases with rfl | rfl | rfl | rfl
  · rw [show neighborIdx W H (i % W) (i / W) 0 =
      (if i / W = 0 then none else some ((i / W - 1) * W + i % W)) from rfl] at h
    split at h
    · exact absurd h (by simp)
    next h0 =>
      simp only [Option.some.injEq] at h
      have h1 : 1 ≤ i / W := Nat.one_le_iff_ne_zero.mpr h0
      have hn : n = W * (i / W - 1) + i % W := by
        rw [← h, Nat.mul_comm (i / W - 1) W]
      have hnm : n % W = i % W := by
        rw [hn, Nat.mul_add_mod, Nat.mod_eq_of_lt hx]
      have hnd : n / W = i / W - 1 := by
        rw [hn, Nat.mul_add_div hW, Nat.div_eq_of_lt hx, Nat.add_zero]
      refine ⟨?_, ?_⟩
      · rw [← h]
        exact cellIdx_lt (lt_of_le_of_lt (Nat.sub_le _ _) hy) hx
      · rw [show neighborIdx W H (n % W) (n / W) (oppDir 0) =
          (if H ≤ n / W + 1 then none else some ((n / W + 1) * W + n % W)) from rfl]
        rw [hnm, hnd, Nat.sub_add_cancel h1, if_neg (Nat.not_le.mpr hy)]
        congr 1
        rw [Nat.mul_comm]
        exact Nat.div_add_mod i W
  · rw [show neighborIdx W H (i % W) (i / W) 1 =
      (if W ≤ i % W + 1 then none else some ((i / W) * W + (i % W + 1))) from rfl] at h
    split at h
    · exact absurd h (by simp)
    next h0 =>
      simp only [Option.some.injEq] at h
      have hxlt : i % W + 1 < W := Nat.not_le.mp h0
      have hn : n = W * (i / W) + (i % W + 1) := by
        rw [← h, Nat.mul_comm (i / W) W]
      have hnm : n % W = i % W + 1 := by
        rw [hn, Nat.mul_add_mod, Nat.mod_eq_of_lt hxlt]
      have hnd : n / W = i / W := by
        rw [hn, Nat.mul_add_div hW, Nat.div_eq_of_lt hxlt, Nat.add_zero]
      refine ⟨?_, ?_⟩
      · rw [← h]
        exact cellIdx_lt hy hxlt
      · rw [show neighborIdx W H (n % W) (n / W) (oppDir 1) =
          (if n % W = 0 then none else some ((n / W) * W + (n % W - 1))) from rfl]
        rw [hnm, hnd, if_neg (by simp), Nat.add_sub_cancel]
        congr 1
        rw [Nat.mul_comm]
        exact Nat.div_add_mod i W
  · rw [show neighborIdx W H (i % W) (i / W) 2 =
      (if H ≤ i / W + 1 then none else some ((i / W + 1) * W + i % W)) from rfl] at h
    split at h
    · exact absurd h (by simp)
    next h0 =>
      simp only [Option.some.injEq] at h
      have hylt : i / W + 1 < H := Nat.not_le.mp h0
      have hn : n = W * (i / W + 1) + i % W := by
        rw [← h, Nat.mul_comm (i / W + 1) W]
      have hnm : n % W = i % W := by
        rw [hn, Nat.mul_add_mod, Nat.mod_eq_of_lt hx]
      have hnd : n / W = i / W + 1 := by
        rw [hn, Nat.mul_add_div hW, Nat.div_eq_of_lt hx, Nat.add_zero]
      refine ⟨?_, ?_⟩
      · rw [← h]
        exact cellIdx_lt hylt hx
      · rw [show neighborIdx W H (n % W) (n / W) (oppDir 2) =
          (if n / W = 0 then none else some ((n / W - 1) * W + n % W)) from rfl]
        rw [hnm, hnd, if_neg (by simp), Nat.add_sub_cancel]
        congr 1
        rw [Nat.mul_comm]
        exact Nat.div_add_mod i W
  · rw [show neighborIdx W H (i % W) (i / W) 3 =
      (if i % W = 0 then none else some ((i / W) * W + (i % W - 1))) from rfl] at h
    split at h
    · exact absurd h (by simp)
    next h0 =>
      simp only [Option.some.injEq] at h
      have h1 : 1 ≤ i % W := Nat.one_le_iff_ne_zero.mpr h0
      have hxlt : i % W - 1 < W := lt_of_le_of_lt (Nat.sub_le _ _) hx
      have hn : n = W * (i / W) + (i % W - 1) := by
        rw [← h, Nat.mul_comm (i / W) W]
      have hnm : n % W = i % W - 1 := by
        rw [hn, Nat.mul_add_mod, Nat.mod_eq_of_lt hxlt]
      have hnd : n / W = i / W := by
        rw [hn, Nat.mul_add_div hW, Nat.div_eq_of_lt hxlt, Nat.add_zero]
      refine ⟨?_, ?_⟩
      · rw [← h]
        exact cellIdx_lt hy hxlt
      · rw [show neighborIdx W H (n % W) (n / W) (oppDir 3) =
          (if W ≤ n % W + 1 then none else some ((n / W) * W + (n % W + 1))) from rfl]
        rw [hnm, hnd, Nat.sub_add_cancel h1, if_neg (Nat.not_le.mpr hx)]
        congr 1
        rw [Nat.mul_comm]
        exact Nat.div_add_mod i W

theorem borderMask_singleton {W H x y : Nat}
    (h : maskCount (borderMaskAt W H x y) = 1) : borderMaskAt W H x y = 1 := by
  simp only [borderMaskAt] at h ⊢
  split_ifs at h ⊢ <;> revert h <;> decide

theorem borderMask_border_false {W H x y dir t : Nat} (hx : x < W) (hy : y < H)
    (hd : dir < 4) (ht : t < 12)
    (hn : neighborIdx W H x y dir = none)
    (hb : (borderMaskAt W H x y).testBit t = true) :
    (tileAt t).edge dir = false := by
  have hcases : dir = 0 ∨ dir = 1 ∨ dir = 2 ∨ dir = 3 := by omega
  rcases hcases with rfl | rfl | rfl | rfl
  · have hfl : y = 0 := by
      by_cases h0 : y = 0
      · exact h0
      · rw [show neighborIdx W H x y 0 =
          (if y = 0 then none else some ((y - 1) * W + x)) from rfl, if_neg h0] at hn
        exact absurd hn (by simp)
    rw [← awc_mem_iff' ht (by omega : (0 : Nat) < 4)]
    simp only [borderMaskAt] at hb
    split_ifs at hb <;> simp_all [Nat.testBit_and]
  · have hfl : x + 1 = W := by
      by_cases h0 : W ≤ x + 1
      · omega
      · rw [show neighborIdx W H x y 1 =
          (if W ≤ x + 1 then none else some (y * W + (x + 1))) from rfl,
          if_neg h0] at hn
        exact absurd hn (by simp)
    rw [← awc_mem_iff' ht (by omega : (1 : Nat) < 4)]
    simp only [borderMaskAt] at hb
    split_ifs at hb <;> simp_all [Nat.testBit_and]
  · have hfl : y + 1 = H := by
      by_cases h0 : H ≤ y + 1
      · omega
      · rw [show neighborIdx W H x y 2 =
          (if H ≤ y + 1 then none else some ((y + 1) * W + x)) from rfl,
          if_neg h0] at hn
        exact absurd hn (by simp)
    rw [← awc_mem_iff' ht (by omega : (2 : Nat) < 4)]
    simp only [borderMaskAt] at hb
    split_ifs at hb <;> simp_all [Nat.testBit_and]
  · have hfl : x = 0 := by
      by_cases h0 : x = 0
      · exact h0
      · rw [show neighborIdx W H x y 3 =
          (if x = 0 then none else some (y * W + (x - 1))) from rfl, if_neg h0] at hn
        exact absurd hn (by simp)
    rw [← awc_mem_iff' ht (by omega : (3 : Nat) < 4)]
    simp only [borderMaskAt] at hb
    split_ifs at hb <;> simp_all [Nat.testBit_and]

theorem propagateDirs_cons_none {W H d0 x0 y0 dir : Nat} {rest : List Nat}
    {doms : Nat → Nat} {pushed : List Nat}
    (hni : neighborIdx W H x0 y0 dir = none) :
    propagateDirs W H d0 x0 y0 (dir :: rest) doms pushed =
      propagateDirs W H d0 x0 y0 rest doms pushed := by
  conv_lhs => unfold propagateDirs
  rw [hni]

theorem propagateDirs_cons_some {W H d0 x0 y0 dir ni : Nat} {rest : List Nat}
    {doms : Nat → Nat} {pushed : List Nat}
    (hni : neighborIdx W H x0 y0 dir = some ni) :
    propagateDirs W H d0 x0 y0 (dir :: rest) doms pushed =
      (if doms ni &&& allowedFrom d0 dir ≠ doms ni then
        (if doms ni &&& allowedFrom d0 dir = 0 then
          (updateD doms ni (doms ni &&& allowedFrom d0 dir), pushed)
        else propagateDirs W H d0 x0 y0 rest
          (updateD doms ni (doms ni &&& allowedFrom d0 dir)) (pushed ++ [ni]))
      else propagateDirs W H d0 x0 y0 rest doms pushed) := by
  conv_lhs => unfold propagateDirs
  rw [hni]

theorem updateD_subM {doms : Nat → Nat} {i v : Nat} (hv : SubM v (doms i)) :
    ∀ j, SubM (updateD doms i v j) (doms j) := by
  intro j
  unfold updateD
  by_cases hj : j = i
  · rw [if_pos hj, hj]
    exact hv
  · rw [if_neg hj]
    exact subM_refl _

theorem pd_shrink {W H d0 x0 y0 : Nat} :
    ∀ (dirs : List Nat) (doms : Nat → Nat) (pushed : List Nat) (j : Nat),
      SubM ((propagateDirs W H d0 x0 y0 dirs doms pushed).1 j) (doms j) := by
  intro dirs
  induction dirs with
  | nil =>
    intro doms pushed j
    exact subM_refl _
  | cons dir rest ih =>
    intro doms pushed j
    cases hni : neighborIdx W H x0 y0 dir with
    | none =>
      rw [propagateDirs_cons_none hni]
      exact ih doms pushed j
    | some ni =>
      rw [propagateDirs_cons_some hni]
      split
      · split
        · exact updateD_subM (subM_and_left _ _) j
        · exact subM_trans (ih _ _ j) (updateD_subM (subM_and_left _ _) j)
      · exact ih doms pushed j

theorem pd_pushed_sup {W H d0 x0 y0 : Nat} :
    ∀ (dirs : List Nat) (doms : Nat → Nat) (pushed : List Nat) (j : Nat),
      j ∈ pushed → j ∈ (propagateDirs W H d0 x0 y0 dirs doms pushed).2 := by
  intro dirs
  induction dirs with
  | nil =>
    intro doms pushed j hj
    exact hj
  | cons dir rest ih =>
    intro doms pushed j hj
    cases hni : neighborIdx W H x0 y0 dir with
    | none =>
      rw [propagateDirs_cons_none hni]
      exact ih doms pushed j hj
    | some ni =>
      rw [propagateDirs_cons_some hni]
      split
      · split
        · exact hj
        · exact ih _ _ j (List.mem_append.mpr (Or.inl hj))
      · exact ih doms pushed j hj

theorem pd_pushed_bound {W H d0 x0 y0 : Nat} (hx : x0 < W) (hy : y0 < H) :
    ∀ (dirs : List Nat) (doms : Nat → Nat) (pushed : List Nat) (j : Nat),
      j ∈ (propagateDirs W H d0 x0 y0 dirs doms pushed).2 →
      j ∈ pushed ∨ j < W * H := by
  intro dirs
  induction dirs with
  | nil =>
    intro doms pushed j hj
    exact Or.inl hj
  | cons dir rest ih =>
    intro doms pushed j hj
    cases hni : neighborIdx W H x0 y0 dir with
    | none =>
      rw [propagateDirs_cons_none hni] at hj
      exact ih doms pushed j hj
    | some ni =>
      rw [propagateDirs_cons_some hni] at hj
      split at hj
      · split at hj
        · exact Or.inl hj
        · rcases ih _ _ j hj with hm | hlt
          · rcases List.mem_append.mp hm with hm | hm
            · exact Or.inl hm
            · rcases List.mem_singleton.mp hm with rfl
              exact Or.inr (neighborIdx_lt hx hy hni)
          · exact Or.inr hlt
      · exact ih doms pushed j hj

theorem pd_change {W H d0 x0 y0 : Nat} :
    ∀ (dirs : List Nat) (doms : Nat → Nat) (pushed : List Nat) (j : Nat),
      (propagateDirs W H d0 x0 y0 dirs doms pushed).1 j ≠ doms j →
      j ∈ (propagateDirs W H d0 x0 y0 dirs doms pushed).2 ∨
        (propagateDirs W H d0 x0 y0 dirs doms pushed).1 j = 0 := by
  intro dirs
  induction dirs with
  | nil =>
    intro doms pushed j hj
    exact absurd rfl hj
  | cons dir rest ih =>
    intro doms pushed j hj
    cases hni : neighborIdx W H x0 y0 dir with
    | none =>
      rw [propagateDirs_cons_none hni] at hj ⊢
      exact ih doms pushed j hj
    | some ni =>
      rw [propagateDirs_cons_some hni] at hj ⊢
      split at hj
      next hne =>
        split at hj
        next h0 =>
          dsimp only at hj ⊢
          rw [if_pos (by exact hne), if_pos h0]
          by_cases hji : j = ni
          · right
            simp [updateD, hji, h0]
          · exact absurd (show updateD doms ni
              (doms ni &&& allowedFrom d0 dir) j = doms j by
                simp [updateD, hji]) hj
        next h0 =>
          rw [if_pos (by exact hne), if_neg h0]
          by_cases hji : j = ni
          · left
            exact pd_pushed_sup _ _ _ j
              (List.mem_append.mpr (Or.inr (by simp [hji])))
          · have hju : updateD doms ni (doms ni &&& allowedFrom d0 dir) j = doms j := by
              simp [updateD, hji]
            rcases ih (updateD doms ni (doms ni &&& allowedFrom d0 dir))
              (pushed ++ [ni]) j (by rw [hju]; exact hj) with hm | hz
            · exact Or.inl hm
            · exact Or.inr hz
      next hne =>
        rw [if_neg (by exact hne)]
        exact ih doms pushed j hj

theorem pd_dirs {W H d0 x0 y0 : Nat} (hx : x0 < W) (hy : y0 < H) :
    ∀ (dirs : List Nat) (doms : Nat → Nat) (pushed : List Nat),
      ∀ dir ∈ dirs, ∀ n : Nat, neighborIdx W H x0 y0 dir = some n →
      SubM ((propagateDirs W H d0 x0 y0 dirs doms pushed).1 n)
        (allowedFrom d0 dir) ∨
      ∃ z, z < W * H ∧ (propagateDirs W H d0 x0 y0 dirs doms pushed).1 z = 0 := by
  intro dirs
  induction dirs with
  | nil =>
    intro doms pushed dir hdir
    exact absurd hdir (List.not_mem_nil dir)
  | cons dir0 rest ih =>
    intro doms pushed dir hdir n hn
    cases hni : neighborIdx W H x0 y0 dir0 with
    | none =>
      rw [propagateDirs_cons_none hni]
      rcases List.mem_cons.mp hdir with rfl | hdir
      · rw [hn] at hni
        exact absurd hni (by simp)
      · exact ih doms pushed dir hdir n hn
    | some ni =>
      rw [propagateDirs_cons_some hni]
      split
      next hne =>
        split
        next h0 =>
          right
          refine ⟨ni, neighborIdx_lt hx hy hni, ?_⟩
          simp [updateD, h0]
        next h0 =>
          rcases List.mem_cons.mp hdir with rfl | hdir
          · left
            rw [hn] at hni
            simp only [Option.some.injEq] at hni
            subst hni
            refine subM_trans (pd_shrink rest _ _ n) ?_
            have : updateD doms n (doms n &&& allowedFrom d0 dir) n =
                doms n &&& allowedFrom d0 dir := by
              simp [updateD]
            rw [this]
            exact subM_and_right _ _
          · exact ih _ _ dir hdir n hn
      next hne =>
        rcases List.mem_cons.mp hdir with rfl | hdir
        · left
          rw [hn] at hni
          simp only [Option.some.injEq] at hni
          subst hni
          refine subM_trans (pd_shrink rest _ _ n) ?_
          have heq : doms n &&& allowedFrom d0 dir = doms n := by
            by_contra hc
            exact hne hc
          intro t ht
          rw [← heq] at ht
          exact subM_and_right _ _ t ht
        · exact ih doms pushed dir hdir n hn

theorem idx_coords {W H i : Nat} (hi : i < W * H) : i % W < W ∧ i / W < H := by
  have hW : 0 < W := by
    rcases Nat.eq_zero_or_pos W with h0 | h0
    · rw [h0] at hi
      simp at hi
    · exact h0
  refine ⟨Nat.mod_lt _ hW, ?_⟩
  rw [Nat.div_lt_iff_lt_mul hW, Nat.mul_comm H W]
  exact hi

theorem propagate_succ_cons {W H fuel i0 : Nat} {doms : Nat → Nat}
    {rest : List Nat} :
    propagate W H (fuel + 1) doms (i0 :: rest) =
      (if doms i0 = 0 then doms
      else propagate W H fuel
        (propagateDirs W H (doms i0) (i0 % W) (i0 / W) [0, 1, 2, 3] doms []).1
        (rest ++
          (propagateDirs W H (doms i0) (i0 % W) (i0 / W) [0, 1, 2, 3] doms []).2)) := by
  conv_lhs => unfold propagate

theorem propagate_shrink {W H : Nat} :
    ∀ (fuel : Nat) (doms : Nat → Nat) (queue : List Nat) (j : Nat),
      SubM (propagate W H fuel doms queue j) (doms j) := by
  intro fuel
  induction fuel with
  | zero =>
    intro doms queue j
    cases queue with
    | nil => exact subM_refl _
    | cons a rest =>
      intro t ht
      rw [show propagate W H 0 doms (a :: rest) = fun _ => 0 from rfl] at ht
      simp [Nat.zero_testBit] at ht
  | succ fuel ih =>
    intro doms queue j
    cases queue with
    | nil => exact subM_refl _
    | cons i0 rest =>
      rw [propagate_succ_cons]
      split
      · exact subM_refl _
      · exact subM_trans (ih _ _ j) (pd_shrink _ _ _ j)

theorem propagate_inv {W H : Nat} :
    ∀ (fuel : Nat) (doms : Nat → Nat) (queue : List Nat),
      (∀ j ∈ queue, j < W * H) →
      WInv W H doms queue →
      (∃ z, z < W * H ∧ propagate W H fuel doms queue z = 0) ∨
        WInv W H (propagate W H fuel doms queue) [] := by
  intro fuel
  induction fuel with
  | zero =>
    intro doms queue hq hinv
    cases queue with
    | nil =>
      right
      exact hinv
    | cons a rest =>
      left
      exact ⟨a, hq a (by simp), rfl⟩
  | succ fuel ih =>
    intro doms queue hq hinv
    cases queue with
    | nil =>
      right
      exact hinv
    | cons i0 rest =>
      rw [propagate_succ_cons]
      by_cases hz0 : doms i0 = 0
      · rw [if_pos hz0]
        left
        exact ⟨i0, hq i0 (by simp), hz0⟩
      · rw [if_neg hz0]
        have hi0 : i0 < W * H := hq i0 (by simp)
        obtain ⟨hx, hy⟩ := idx_coords hi0
        by_cases hz : ∃ z, z < W * H ∧
            (propagateDirs W H (doms i0) (i0 % W) (i0 / W) [0, 1, 2, 3] doms []).1 z = 0
        · left
          obtain ⟨z, hzlt, hzz⟩ := hz
          refine ⟨z, hzlt, eq_zero_of_subM_zero ?_⟩
          intro t ht
          have hs := propagate_shrink fuel _ _ z t ht
          rw [hzz] at hs
          exact hs
        · have hq1 : ∀ j ∈ rest ++
              (propagateDirs W H (doms i0) (i0 % W) (i0 / W) [0, 1, 2, 3] doms []).2,
              j < W * H := by
            intro j hj
            rcases List.mem_append.mp hj with hj | hj
            · exact hq j (by simp [hj])
            · rcases pd_pushed_bound hx hy _ _ _ j hj with hm | hlt
              · exact absurd hm (List.not_mem_nil j)
              · exact hlt
          have hinv1 : WInv W H
              (propagateDirs W H (doms i0) (i0 % W) (i0 / W) [0, 1, 2, 3] doms []).1
              (rest ++
                (propagateDirs W H (doms i0) (i0 % W) (i0 / W) [0, 1, 2, 3] doms []).2) := by
            intro i dir n hd hi hni
            by_cases hchg :
                (propagateDirs W H (doms i0) (i0 % W) (i0 / W) [0, 1, 2, 3] doms []).1 i =
                  doms i
            · rcases hinv i dir n hd hi hni with hq' | hstale | hsub
              · rcases List.mem_cons.mp hq' with heq | hr
                · subst heq
                  right; right
                  have hmem : dir ∈ [0, 1, 2, 3] := by
                    have hc : dir = 0 ∨ dir = 1 ∨ dir = 2 ∨ dir = 3 := by omega
                    rcases hc with rfl | rfl | rfl | rfl <;> simp
                  rcases pd_dirs hx hy [0, 1, 2, 3] doms [] dir hmem n hni with hs | hzz
                  · rw [hchg]
                    exact hs
                  · exact absurd hzz hz
                · left
                  exact List.mem_append.mpr (Or.inl hr)
              · right; left
                rw [hchg]
                exact hstale
              · right; right
                rw [hchg]
                exact subM_trans (pd_shrink _ _ _ n) hsub
            · rcases pd_change [0, 1, 2, 3] doms [] i hchg with hm | hzz
              · left
                exact List.mem_append.mpr (Or.inr hm)
              · exact absurd ⟨i, hi, hzz⟩ hz
          exact ih _ _ hq1 hinv1

theorem anyZero_true_of {W H : Nat} {doms : Nat → Nat} {z : Nat}
    (hz : z < W * H) (h0 : doms z = 0) : anyZero W H doms = true := by
  unfold anyZero
  rw [List.any_eq_true]
  exact ⟨z, List.mem_range.mpr hz, by simp [h0]⟩

theorem anyZero_false_iff {W H : Nat} {doms : Nat → Nat} :
    anyZero W H doms = false ↔ ∀ z, z < W * H → doms z ≠ 0 := by
  unfold anyZero
  constructor
  · intro h z hzlt
    have := List.any_eq_false.mp h z (List.mem_range.mpr hzlt)
    simpa using this
  · intro h
    rw [List.any_eq_false]
    intro x hx
    simpa using h x (List.mem_range.mp hx)

theorem maskCount_le_32 (m : Nat) : maskCount m ≤ 32 := by
  unfold maskCount
  calc ((List.range 32).filter (fun t => m.testBit t)).length
      ≤ (List.range 32).length := List.length_filter_le _ _
  _ = 32 := by simp

theorem pickBest_lt {W H : Nat} {doms : Nat → Nat} {i : Nat}
    (h : pickBest W H doms = some i) : i < W * H := by
  unfold pickBest at h
  have hfold : ∀ (L : List Nat) (b : Option Nat × Nat),
      (∀ j, b.1 = some j → j < W * H) → (∀ x ∈ L, x < W * H) →
      ∀ j, ((L.foldl (fun best i =>
        let c := maskCount (doms i)
        if 1 < c ∧ c < best.2 then (some i, c) else best) b).1 = some j) →
        j < W * H := by
    intro L
    induction L with
    | nil =>
      intro b hb hL j hj
      exact hb j hj
    | cons a L ihL =>
      intro b hb hL j hj
      simp only [List.foldl_cons] at hj
      refine ihL _ ?_ (fun x hx => hL x (by simp [hx])) j hj
      intro j' hj'
      split at hj'
      · simp only [Option.some.injEq] at hj'
        subst hj'
        exact hL a (by simp)
      · exact hb j' hj'
  exact hfold _ _ (fun j hj => absurd hj (by simp)) (fun x hx => List.mem_range.mp hx) i h

theorem pickBest_fold_some {W H : Nat} {doms : Nat → Nat} :
    ∀ (L : List Nat) (b : Option Nat × Nat) (j : Nat), b.1 = some j →
      ∃ j', ((L.foldl (fun best i =>
        let c := maskCount (doms i)
        if 1 < c ∧ c < best.2 then (some i, c) else best) b).1 = some j') := by
  intro L
  induction L with
  | nil =>
    intro b j hb
    exact ⟨j, hb⟩
  | cons a L ih =>
    intro b j hb
    simp only [List.foldl_cons]
    split
    · exact ih _ a rfl
    · exact ih _ j hb

theorem pickBest_none_le {W H : Nat} {doms : Nat → Nat}
    (h : pickBest W H doms = none) :
    ∀ z, z < W * H → maskCount (doms z) ≤ 1 := by
  unfold pickBest at h
  have hfold : ∀ (L : List Nat) (b : Option Nat × Nat),
      ((L.foldl (fun best i =>
        let c := maskCount (doms i)
        if 1 < c ∧ c < best.2 then (some i, c) else best) b).1 = none) →
      ∀ x ∈ L, ¬(1 < maskCount (doms x) ∧ maskCount (doms x) < b.2) := by
    intro L
    induction L with
    | nil =>
      intro b hb x hx
      exact absurd hx (List.not_mem_nil x)
    | cons a L ih =>
      intro b hb x hx
      simp only [List.foldl_cons] at hb
      by_cases hc : 1 < maskCount (doms a) ∧ maskCount (doms a) < b.2
      · exfalso
        have hstep : (if 1 < maskCount (doms a) ∧ maskCount (doms a) < b.2
            then ((some a : Option Nat), maskCount (doms a)) else b).1 = some a := by
          rw [if_pos hc]
        obtain ⟨j', hj'⟩ := pickBest_fold_some (W := W) (H := H) L _ a hstep
        rw [hb] at hj'
        exact absurd hj' (by simp)
      · have hstep : (if 1 < maskCount (doms a) ∧ maskCount (doms a) < b.2
            then ((some a : Option Nat), maskCount (doms a)) else b) = b := if_neg hc
        rw [hstep] at hb
        rcases List.mem_cons.mp hx with rfl | hx
        · exact hc
        · exact ih b hb x hx
  intro z hzlt
  have := hfold _ _ h z (List.mem_range.mpr hzlt)
  have h32 := maskCount_le_32 (doms z)
  by_contra hgt
  exact this ⟨by omega, by omega⟩

theorem wfcLoop_succ_none {W H fuel : Nat} {doms : Nat → Nat} {rng : Rng}
    (hpb : pickBest W H doms = none) :
    wfcLoop W H (fuel + 1) doms rng =
      (if anyZero W H doms then (none, rng) else (some doms, rng)) := by
  conv_lhs => unfold wfcLoop
  rw [hpb]

theorem wfcLoop_succ_some {W H fuel i : Nat} {doms : Nat → Nat} {rng : Rng}
    (hpb : pickBest W H doms = some i) :
    wfcLoop W H (fuel + 1) doms rng =
      (if doms i = 0 then (none, rng)
      else if (optionsOf (doms i)).isEmpty then (none, rng)
      else
        (if anyZero W H (propagate W H (propFuel W H)
            (updateD doms i (1 <<<
              ((optionsOf (doms i)).getD
                (rng.next.1 % (optionsOf (doms i)).length) 0)))
            [i])
        then (none, rng.next.2)
        else wfcLoop W H fuel
          (propagate W H (propFuel W H)
            (updateD doms i (1 <<<
              ((optionsOf (doms i)).getD
                (rng.next.1 % (optionsOf (doms i)).length) 0)))
            [i]) rng.next.2)) := by
  conv_lhs => unfold wfcLoop
  rw [hpb]

theorem wfcLoop_some {W H : Nat} :
    ∀ (fuel : Nat) (doms : Nat → Nat) (rng : Rng) (doms' : Nat → Nat) (rng' : Rng),
      (∀ j, SubM (doms j) (initDomains W H j)) →
      WInv W H doms [] →
      wfcLoop W H fuel doms rng = (some doms', rng') →
      (∀ j, SubM (doms' j) (initDomains W H j)) ∧ WInv W H doms' [] ∧
        pickBest W H doms' = none ∧ anyZero W H doms' = false := by
  intro fuel
  induction fuel with
  | zero =>
    intro doms rng doms' rng' hsub hinv h
    exact absurd h (by simp [wfcLoop])
  | succ fuel ih =>
    intro doms rng doms' rng' hsub hinv h
    cases hpb : pickBest W H doms with
    | none =>
      rw [wfcLoop_succ_none hpb] at h
      split at h
      · exact absurd h (by simp)
      next haz =>
        simp only [Prod.mk.injEq, Option.some.injEq] at h
        obtain ⟨rfl, rfl⟩ := h
        exact ⟨hsub, hinv, hpb, by simpa using haz⟩
    | some i =>
      rw [wfcLoop_succ_some hpb] at h
      split at h
      · exact absurd h (by simp)
      next hdz =>
        split at h
        · exact absurd h (by simp)
        next hoe =>
          split at h
          · exact absurd h (by simp)
          next haz2 =>
            have hilt : i < W * H := pickBest_lt hpb
            have hne : optionsOf (doms i) ≠ [] := by
              simpa [List.isEmpty_iff] using hoe
            have hlen : 0 < (optionsOf (doms i)).length := List.length_pos.mpr hne
            have hidx : rng.next.1 % (optionsOf (doms i)).length <
                (optionsOf (doms i)).length := Nat.mod_lt _ hlen
            have hch : (doms i).testBit
                ((optionsOf (doms i)).getD
                  (rng.next.1 % (optionsOf (doms i)).length) 0) = true := by
              have hmem : (optionsOf (doms i)).getD
                  (rng.next.1 % (optionsOf (doms i)).length) 0 ∈
                    optionsOf (doms i) := by
                rw [List.getD_eq_getElem?_getD, List.getElem?_eq_getElem hidx]
                exact List.getElem_mem hidx
              unfold optionsOf at hmem
              simp only [List.mem_filter, List.mem_range] at hmem
              exact hmem.2
            have hsub1 : ∀ j, SubM (updateD doms i (1 <<<
                ((optionsOf (doms i)).getD
                  (rng.next.1 % (optionsOf (doms i)).length) 0)) j) (doms j) := by
              refine updateD_subM ?_
              intro t ht
              rw [Nat.shiftLeft_eq, Nat.one_mul, Nat.testBit_two_pow] at ht
              have : (optionsOf (doms i)).getD
                  (rng.next.1 % (optionsOf (doms i)).length) 0 = t := by
                simpa using ht
              rw [← this]
              exact hch
            have hsub2 : ∀ j, SubM (propagate W H (propFuel W H)
                (updateD doms i (1 <<<
                  ((optionsOf (doms i)).getD
                    (rng.next.1 % (optionsOf (doms i)).length) 0)))
                [i] j) (initDomains W H j) :=
              fun j => subM_trans (propagate_shrink _ _ _ j)
                (subM_trans (hsub1 j) (hsub j))
            have hinv0 : WInv W H (updateD doms i (1 <<<
                ((optionsOf (doms i)).getD
                  (rng.next.1 % (optionsOf (doms i)).length) 0))) [i] := by
              intro i' dir n hd hi' hni
              by_cases hii : i' = i
              · left
                simp [hii]
              · rcases hinv i' dir n hd hi' hni with hq | hstale | hsub'
                · exact absurd hq (List.not_mem_nil _)
                · right; left
                  rw [show updateD doms i (1 <<<
                      ((optionsOf (doms i)).getD
                        (rng.next.1 % (optionsOf (doms i)).length) 0)) i' = doms i' by
                    simp [updateD, hii]]
                  exact hstale
                · right; right
                  rw [show updateD doms i (1 <<<
                      ((optionsOf (doms i)).getD
                        (rng.next.1 % (optionsOf (doms i)).length) 0)) i' = doms i' by
                    simp [updateD, hii]]
                  exact subM_trans (hsub1 n) hsub'
            have hprop := propagate_inv (propFuel W H) _ [i]
              (by
                intro j hj
                rcases List.mem_singleton.mp hj with rfl
                exact hilt)
              hinv0
            rcases hprop with ⟨z, hzlt, hzz⟩ | hinv2
            · exact absurd (anyZero_true_of hzlt hzz) (by simpa using haz2)
            · exact ih _ _ _ _ hsub2 hinv2 h

theorem wfcAttempts_some_spec {W H : Nat} :
    ∀ (n : Nat) (rng : Rng) (g : List (List Char)),
      (wfcAttempts W H n rng).1 = some g →
      ∃ doms, g = renderWfc W H doms ∧
        (∀ j, SubM (doms j) (initDomains W H j)) ∧ WInv W H doms [] ∧
        pickBest W H doms = none ∧ anyZero W H doms = false := by
  intro n
  induction n with
  | zero =>
    intro rng g h
    exact absurd h (by simp [wfcAttempts])
  | succ n ih =>
    intro rng g h
    unfold wfcAttempts at h
    rcases hwl : wfcLoop W H (wfcOuterFuel W H) (initDomains W H) rng with ⟨res, rng'⟩
    rw [hwl] at h
    cases res with
    | some doms =>
      simp only [Option.some.injEq] at h
      obtain ⟨hs, hiv, hp, ha⟩ := wfcLoop_some (wfcOuterFuel W H) (initDomains W H)
        rng doms rng' (fun j => subM_refl _)
        (fun i dir m hd hilt hni => Or.inr (Or.inl rfl)) hwl
      exact ⟨doms, h.symm, hs, hiv, hp, ha⟩
    | none =>
      dsimp only at h
      rcases hrec : wfcAttempts W H n rng' with ⟨res2, rng2, used2⟩
      rw [hrec] at h
      dsimp only at h
      apply ih rng' g
      rw [hrec]
      exact h

theorem initDomains_at {W H x y : Nat} (hx : x < W) :
    initDomains W H (y * W + x) = borderMaskAt W H x y := by
  have hW : 0 < W := by omega
  unfold initDomains
  have hm : (y * W + x) % W = x := by
    rw [Nat.mul_comm y W, Nat.mul_add_mod, Nat.mod_eq_of_lt hx]
  have hd : (y * W + x) / W = y := by
    rw [Nat.mul_comm y W, Nat.mul_add_div hW, Nat.div_eq_of_lt hx, Nat.add_zero]
  rw [hm, hd]

theorem borderMask_sub_all (W H x y : Nat) : SubM (borderMaskAt W H x y) 4095 := by
  have hall : all_mask = 4095 := by decide
  simp only [borderMaskAt, hall]
  split_ifs <;>
    (repeat refine subM_trans (subM_and_left _ _) ?_) <;> exact subM_refl _

theorem renderWfc_charAt {W H x y : Nat} (doms : Nat → Nat)
    (hx : x < W) (hy : y < H) :
    wfcCharAt (renderWfc W H doms) x y =
      (tileAt ((((List.range numTiles).filter
        (fun t => (doms (y * W + x)).testBit t)).head?).getD 0)).ch := by
  unfold wfcCharAt renderWfc
  rw [getD_map_range, if_pos hy, getD_map_range, if_pos hx]

theorem render_head_eq {m t0 : Nat} (hm : SubM m 4095) (hc : maskCount m ≤ 1)
    (ht0 : m.testBit t0 = true) :
    ((List.range numTiles).filter (fun t => m.testBit t)).head? = some t0 := by
  have hnt : numTiles = 12 := rfl
  have ht012 : t0 < 12 := bit_lt_12 hm ht0
  have hmem : t0 ∈ (List.range numTiles).filter (fun t => m.testBit t) := by
    simp only [List.mem_filter, List.mem_range, hnt]
    exact ⟨ht012, ht0⟩
  have hall : ∀ u ∈ (List.range numTiles).filter (fun t => m.testBit t), u = t0 := by
    intro u hu
    simp only [List.mem_filter, List.mem_range, hnt] at hu
    exact maskCount_le_one_unique hc hu.2 ht0 (by omega) (by omega)
  rcases hl : (List.range numTiles).filter (fun t => m.testBit t) with - | ⟨a, tl⟩
  · rw [hl] at hmem
    exact absurd hmem (List.not_mem_nil _)
  · rw [hl] at hall
    rw [List.head?_cons, hall a (by simp)]

theorem tile0_edge_false : ∀ d : Fin 4, (tileAt 0).edge (d : Nat) = false := by
  decide

theorem blank_edge_false : ∀ d : Fin 4, charEdge ' ' (d : Nat) = false := by
  decide

theorem blankGrid_charAt (W H x y : Nat) : wfcCharAt (blankGrid W H) x y = ' ' := by
  unfold wfcCharAt blankGrid
  by_cases hy : y < H
  · rw [show (List.replicate H (List.replicate W ' ')).getD y [] = List.replicate W ' '
      from by rw [List.getD_eq_getElem?_getD, List.getElem?_replicate, if_pos hy]; rfl]
    by_cases hx : x < W
    · rw [List.getD_eq_getElem?_getD, List.getElem?_replicate, if_pos hx]
      rfl
    · rw [List.getD_eq_getElem?_getD, List.getElem?_replicate, if_neg hx]
      rfl
  · rw [show (List.replicate H (List.replicate W ' ')).getD y [] = []
      from by rw [List.getD_eq_getElem?_getD, List.getElem?_replicate, if_neg hy]; rfl]
    rfl

theorem blank_valid (W H : Nat) : WfcValid W H (blankGrid W H) := by
  intro x y hx hy
  have hce : ∀ d : Nat, d < 4 → charEdge ' ' d = false := by
    intro d hd4
    simpa using blank_edge_false ⟨d, hd4⟩
  rw [blankGrid_charAt]
  refine ⟨by decide, ?_⟩
  intro dir hd
  split
  · rw [blankGrid_charAt, hce dir hd, hce (oppDir dir) (oppDir_lt dir)]
  · exact hce dir hd

theorem renderWfc_valid {W H : Nat} {doms : Nat → Nat}
    (hsub : ∀ j, SubM (doms j) (initDomains W H j))
    (hinv : WInv W H doms [])
    (hpb : pickBest W H doms = none)
    (haz : anyZero W H doms = false) :
    WfcValid W H (renderWfc W H doms) := by
  have hzero := anyZero_false_iff.mp haz
  have hcnt := pickBest_none_le hpb
  intro x y hx hy
  have hi : y * W + x < W * H := cellIdx_lt hy hx
  have hm4095 : SubM (doms (y * W + x)) 4095 := by
    have hbm := hsub (y * W + x)
    rw [initDomains_at hx] at hbm
    exact subM_trans hbm (borderMask_sub_all W H x y)
  obtain ⟨t0, ht0⟩ := Nat.ne_zero_implies_bit_true (hzero _ hi)
  have ht012 : t0 < 12 := bit_lt_12 hm4095 ht0
  have hchar : wfcCharAt (renderWfc W H doms) x y = (tileAt t0).ch := by
    rw [renderWfc_charAt doms hx hy, render_head_eq hm4095 (hcnt _ hi) ht0]
    rfl
  refine ⟨by rw [hchar]; exact tileAt_mem_map' ht012, ?_⟩
  intro dir hd
  have hix : (y * W + x) % W = x := by
    have hW : 0 < W := by omega
    rw [Nat.mul_comm y W, Nat.mul_add_mod, Nat.mod_eq_of_lt hx]
  have hiy : (y * W + x) / W = y := by
    have hW : 0 < W := by omega
    rw [Nat.mul_comm y W, Nat.mul_add_div hW, Nat.div_eq_of_lt hx, Nat.add_zero]
  split
  next n hni =>
    have hni' : neighborIdx W H ((y * W + x) % W) ((y * W + x) / W) dir = some n := by
      rw [hix, hiy]
      exact hni
    obtain ⟨hnlt, hsym⟩ := neighborIdx_symm hi hd hni'
    obtain ⟨hnx, hny⟩ := idx_coords hnlt
    have hn4095 : SubM (doms n) 4095 := by
      have hbm := hsub n
      rw [show initDomains W H n = borderMaskAt W H (n % W) (n / W) from rfl] at hbm
      exact subM_trans hbm (borderMask_sub_all W H (n % W) (n / W))
    obtain ⟨t1, ht1⟩ := Nat.ne_zero_implies_bit_true (hzero _ hnlt)
    have ht112 : t1 < 12 := bit_lt_12 hn4095 ht1
    have hback : n / W * W + n % W = n := by
      rw [Nat.mul_comm]
      exact Nat.div_add_mod n W
    have hchar1 : wfcCharAt (renderWfc W H doms) (n % W) (n / W) = (tileAt t1).ch := by
      rw [renderWfc_charAt doms hnx hny, hback,
        render_head_eq hn4095 (hcnt _ hnlt) ht1]
      rfl
    rw [hchar, hchar1, charEdge_tileAt' ht012 hd,
      charEdge_tileAt' ht112 (oppDir_lt dir)]
    rcases hinv (y * W + x) dir n hd hi hni' with hq | hstale | hsubm
    · exact absurd hq (List.not_mem_nil _)
    · rcases hinv n (oppDir dir) (y * W + x) (oppDir_lt dir) hnlt hsym
        with hq' | hstale' | hsubm'
      · exact absurd hq' (List.not_mem_nil _)
      · have hone : doms (y * W + x) = 1 := by
          have hbm : doms (y * W + x) = borderMaskAt W H x y := by
            rw [hstale, initDomains_at hx]
          rw [hbm]
          apply borderMask_singleton
          have hle := hcnt _ hi
          have hne := maskCount_ne_zero hm4095 (hzero _ hi)
          rw [hbm] at hle hne
          omega
        have hone' : doms n = 1 := by
          have hbm' : doms n = borderMaskAt W H (n % W) (n / W) := by
            rw [hstale']
            rfl
          rw [hbm']
          apply borderMask_singleton
          have hle := hcnt _ hnlt
          have hne := maskCount_ne_zero hn4095 (hzero _ hnlt)
          rw [hbm'] at hle hne
          omega
        have ht00 : t0 = 0 := by
          have := ht0
          rw [hone] at this
          exact (testBit_one_iff t0).mp this
        have ht10 : t1 = 0 := by
          have := ht1
          rw [hone'] at this
          exact (testBit_one_iff t1).mp this
        rw [ht00, ht10]
        rw [show (tileAt 0).edge dir = false from by simpa using tile0_edge_false ⟨dir, hd⟩,
          show (tileAt 0).edge (oppDir dir) = false from by
            simpa using tile0_edge_false ⟨oppDir dir, oppDir_lt dir⟩]
      · have hin := hsubm' t0 ht0
        rw [allowedFrom_testBit] at hin
        obtain ⟨t, htn, htb, htc⟩ := hin
        have hteq : t = t1 := maskCount_le_one_unique (hcnt _ hnlt) htb ht1
          (by rw [show numTiles = 12 from rfl] at htn; omega) (by omega)
        rw [hteq] at htc
        have := (compat_mem_iff' ht112 ht012 (oppDir_lt dir)).mp htc
        rw [oppDir_oppDir hd] at this
        exact this.symm
    · have hin := hsubm t1 ht1
      rw [allowedFrom_testBit] at hin
      obtain ⟨t, htn, htb, htc⟩ := hin
      have hteq : t = t0 := maskCount_le_one_unique (hcnt _ hi) htb ht0
        (by rw [show numTiles = 12 from rfl] at htn; omega) (by omega)
      rw [hteq] at htc
      exact (compat_mem_iff' ht012 ht112 hd).mp htc
  next hni =>
    rw [hchar, charEdge_tileAt' ht012 hd]
    refine borderMask_border_false hx hy hd ht012 hni ?_
    rw [← initDomains_at (W := W) (H := H) (y := y) hx]
    exact hsub (y * W + x) t0 ht0

theorem wfc_tilemap_valid (W H : Nat) (rng : Rng) :
    WfcValid W H (generate_wfc_tilemap W H rng) := by
  unfold generate_wfc_tilemap
  cases hat : (wfcAttempts W H 10 rng).1 with
  | none => exact blank_valid W H
  | some g =>
    obtain ⟨doms, rfl, hs, hiv, hp, ha⟩ := wfcAttempts_some_spec 10 rng g hat
    exact renderWfc_valid hs hiv hp ha

/-- **C3**: in Wfc mode, for every parameter configuration, value stream and
entropy draw, generation succeeds and every cell of the returned tiles grid
is a tileset character such that for each direction with an existing
neighbour the cell's edge equals the neighbour's facing edge, and every edge
facing off-grid is absent. -/
theorem wfc_adjacency (p : GeneratorParams) (src : Nat → Nat → Nat) (e : Nat) :
    OptLevelHolds (generate { p with mode := .Wfc } src e)
      (fun lvl => WfcValid (genWidth p) (genHeight p) lvl.tiles) := by
  show WfcValid (genWidth p) (genHeight p)
    (generate_wfc_tilemap (genWidth p) (genHeight p)
      { vals := src (p.seed.getD e), idx := 0 })
  exact wfc_tilemap_valid _ _ _

end LevelGen
